import Mathlib

/-
Verification of the `my-cache` in-memory cache (TypeScript sources) against its
natural-language specification.

This file is a shallow embedding of the repository's code:

* `src/zset/utils.ts`        → `compareScoreMember`
* `src/zset/SkipList.ts`     → `SkipList` and its operations
* `src/zset/ZSet.ts`         → `ZSet` and its operations
* `src/core/Dictionary.ts`   → `Dict` and its operations
* `src/expiration/TTLManager.ts` → `TTLState` and its operations
* `src/eviction/UsageTracker.ts` → `UsageMeta` / touch
* `src/core/Cache.ts`        → `Cache` and its public operations

Modelling conventions, used throughout and noted again at the definitions:

* JavaScript `Map`s are modelled as insertion-ordered association lists with
  no duplicate keys; `Map.set` updates in place (preserving position) or
  appends, `Map.delete` removes the entry, iteration is in list order.
* Live `Map` iterators are modelled as the list of keys not yet visited:
  deleted keys are skipped when the iterator reaches them, and keys inserted
  while the iterator is live are appended to the pending list (a JS map
  iterator visits entries appended after its creation).
* JS numbers are modelled as `Int` (scores, deadlines, memory counters) or
  `Nat` (sizes, counters).  All numeric values arising in the modelled code
  are integers that stay far below 2^53, where float arithmetic is exact.
* `Math.random()`-driven choices are oracle inputs: skip-list levels are
  explicit arguments (the output of `randomLevel`, always in [1, 32]), and
  the cache carries a list of natural-number draws; a draw `r` used to pick
  an index below `len` is taken as `r % len` (covering exactly the indices
  `Math.floor(Math.random()*len)` can produce), and a probability-`1/(1+f)`
  event fires iff `r % (1+f) = 0` (an event of the same possible outcomes).
* The skip list's pointer graph is represented by the level-0 node list plus
  each node's level: `forward[i]` of a node is the next node of level > i,
  which is exactly the pointer structure the splice code maintains.  The
  `backward` pointers and the `tail` field are not modelled: no operation
  reachable from the claims reads them.
* Stored `span` arrays are modelled verbatim (they are data, not derived).
* Exceptions (`throw new Error('WRONGTYPE')`) are modelled with `Except`;
  the state at the throw point is returned alongside, since in JS all
  mutations made before the throw persist.
-/

set_option maxHeartbeats 1000000
set_option maxRecDepth 16000

/-! ## Ordering on (score, member) pairs — `src/zset/utils.ts` -/

/-- Lexicographic order on (score, member): score ascending, then member
ascending, mirroring what `compareScoreMember < 0` decides. -/
def pairLt (a b : Int × String) : Prop :=
  a.1 < b.1 ∨ (a.1 = b.1 ∧ a.2 < b.2)

instance : DecidablePred (fun ab : (Int × String) × (Int × String) => pairLt ab.1 ab.2) :=
  fun _ => by unfold pairLt; infer_instance

instance pairLt.decRel : ∀ a b : Int × String, Decidable (pairLt a b) :=
  fun _ _ => by unfold pairLt; infer_instance

/-- `compareScoreMember` from `src/zset/utils.ts`: primary sort by score,
secondary lexicographic sort by member.  The code returns a JS number used
only through `< 0` / `<= 0` sign tests, modelled as an `Ordering`. -/
def compareScoreMember (s1 : Int) (m1 : String) (s2 : Int) (m2 : String) : Ordering :=
  if s1 ≠ s2 then (if s1 < s2 then Ordering.lt else Ordering.gt)
  else (if m1 < m2 then Ordering.lt else if m2 < m1 then Ordering.gt else Ordering.eq)

theorem compareScoreMember_eq_lt {s1 s2 : Int} {m1 m2 : String} :
    compareScoreMember s1 m1 s2 m2 = Ordering.lt ↔ pairLt (s1, m1) (s2, m2) := by
  unfold compareScoreMember pairLt
  by_cases h : s1 = s2
  · subst h
    rcases lt_trichotomy m1 m2 with h2 | h2 | h2
    · simp [h2]
    · subst h2; simp [lt_irrefl]
    · simp [h2, not_lt_of_lt h2]
  · rcases lt_trichotomy s1 s2 with h2 | h2 | h2
    · simp [h, h2]
    · exact absurd h2 h
    · simp [h, h2, not_lt_of_lt h2]

theorem compareScoreMember_ne_gt {s1 s2 : Int} {m1 m2 : String} :
    (compareScoreMember s1 m1 s2 m2 ≠ Ordering.gt) ↔
      (pairLt (s1, m1) (s2, m2) ∨ (s1 = s2 ∧ m1 = m2)) := by
  unfold compareScoreMember pairLt
  by_cases h : s1 = s2
  · subst h
    rcases lt_trichotomy m1 m2 with h2 | h2 | h2
    · simp [h2, not_lt_of_lt h2]
    · subst h2; simp [lt_irrefl]
    · simp [not_lt_of_lt h2, h2, ne_of_gt h2]
  · rcases lt_trichotomy s1 s2 with h2 | h2 | h2
    · simp [h, h2]
    · exact absurd h2 h
    · simp [h, h2, not_lt_of_lt h2]

theorem pairLt_trans {a b c : Int × String} (h1 : pairLt a b) (h2 : pairLt b c) :
    pairLt a c := by
  unfold pairLt at *
  rcases h1 with h1 | ⟨h1, h1m⟩ <;> rcases h2 with h2 | ⟨h2, h2m⟩
  · exact Or.inl (lt_trans h1 h2)
  · exact Or.inl (h2 ▸ h1)
  · exact Or.inl (h1 ▸ h2)
  · exact Or.inr ⟨h1.trans h2, lt_trans h1m h2m⟩

theorem pairLt_irrefl (a : Int × String) : ¬ pairLt a a := by
  unfold pairLt; simp

theorem pairLt_asymm {a b : Int × String} (h : pairLt a b) : ¬ pairLt b a := by
  intro h2
  exact pairLt_irrefl a (pairLt_trans h h2)

theorem pairLt_trichotomy (a b : Int × String) : pairLt a b ∨ a = b ∨ pairLt b a := by
  unfold pairLt
  rcases lt_trichotomy a.1 b.1 with h | h | h
  · exact Or.inl (Or.inl h)
  · rcases lt_trichotomy a.2 b.2 with h2 | h2 | h2
    · exact Or.inl (Or.inr ⟨h, h2⟩)
    · exact Or.inr (Or.inl (Prod.ext h h2))
    · exact Or.inr (Or.inr (Or.inr ⟨h.symm, h2⟩))
  · exact Or.inr (Or.inr (Or.inl h))

/-! ## Skip list — `src/zset/SkipListNode.ts`, `src/zset/SkipList.ts` -/

/-- Node of the skip list: `(score, member, level)` plus the stored `span`
array (`span[i]` = number of level-0 steps covered by `forward[i]`).
`forward` pointers are derived from the node order and levels (see the
header comment); `backward` is not modelled. -/
structure SLNode where
  score : Int
  member : String
  lvl : Nat
  span : List Int
deriving DecidableEq, Repr

/-- The skip list itself.  `nodes` is the level-0 order (the chain of
`forward[0]` pointers from the header); `headerSpan` is the header node's
stored `span` array (length 32 = maxLevel); `level` is the current level
cursor.  The code's `length` field always equals `nodes.length` and is
modelled as derived. -/
structure SkipList where
  headerSpan : List Int
  nodes : List SLNode
  level : Nat
deriving DecidableEq, Repr

/-- `new SkipList()`: header spans all 0, no nodes, level 1. -/
def SkipList.empty : SkipList :=
  { headerSpan := List.replicate 32 0, nodes := [], level := 1 }

/-- Level of the node at position `q` (position 0 is the header, which the
constructor gives the maximum level; positions `j+1` are `nodes[j]`). -/
def SkipList.lvlAt (sl : SkipList) (q : Nat) : Nat :=
  match q with
  | 0 => 33
  | Nat.succ j => match sl.nodes[j]? with | some nd => nd.lvl | none => 0

/-- (score, member) value of the node at position `q ≥ 1`. -/
def SkipList.valAt (sl : SkipList) (q : Nat) : Int × String :=
  match q with
  | 0 => (0, "")
  | Nat.succ j => match sl.nodes[j]? with | some nd => (nd.score, nd.member) | none => (0, "")

/-- Stored `span[i]` of the node at position `p` (header for `p = 0`). -/
def SkipList.spanAt (sl : SkipList) (p i : Nat) : Int :=
  match p with
  | 0 => sl.headerSpan.getD i 0
  | Nat.succ j => match sl.nodes[j]? with | some nd => nd.span.getD i 0 | none => 0

/-- First position `r ≥ q` (up to `nodes.length`) whose node has level `> i`. -/
def SkipList.fwdAux (sl : SkipList) (i q : Nat) : Option Nat :=
  if _h : sl.nodes.length < q then none
  else if i < sl.lvlAt q then some q
  else sl.fwdAux i (q + 1)
termination_by sl.nodes.length + 1 - q

/-- The derived `forward[i]` pointer of the node at position `p`: the next
position whose node has level `> i` (`none` = null pointer). -/
def SkipList.fwd (sl : SkipList) (i p : Nat) : Option Nat :=
  sl.fwdAux i (p + 1)

theorem fwdAux_bounds {sl : SkipList} {i q r : Nat} (h : sl.fwdAux i q = some r) :
    q ≤ r ∧ r ≤ sl.nodes.length ∧ i < sl.lvlAt r := by
  unfold SkipList.fwdAux at h
  split at h
  · exact absurd h (by simp)
  · rename_i hle
    split at h
    · rename_i hlv
      cases h
      exact ⟨le_refl _, by omega, hlv⟩
    · have := fwdAux_bounds h
      exact ⟨by omega, this.2⟩
termination_by sl.nodes.length + 1 - q

theorem fwd_bounds {sl : SkipList} {i p q : Nat} (h : sl.fwd i p = some q) :
    p < q ∧ q ≤ sl.nodes.length ∧ i < sl.lvlAt q := by
  have := fwdAux_bounds h
  exact ⟨by omega, this.2⟩

/-- The walk of one level of the insert/delete search: advance while the next
level-`i` node is strictly less than `(sc, mb)`, accumulating stored spans
into the rank `r` (SkipList.ts, the inner `while` of `insert`/`delete`). -/
def SkipList.walk (sl : SkipList) (i : Nat) (sc : Int) (mb : String) (p : Nat) (r : Int) :
    Nat × Int :=
  match hq : sl.fwd i p with
  | none => (p, r)
  | some q =>
    if compareScoreMember (sl.valAt q).1 (sl.valAt q).2 sc mb = Ordering.lt then
      sl.walk i sc mb q (r + sl.spanAt p i)
    else (p, r)
termination_by sl.nodes.length + 1 - p
decreasing_by
  have := fwd_bounds hq
  omega

/-- The level-descending search of `insert`: returns, for levels `i` down to
`0`, the pair `(update[j], rank[j])`, indexed so that entry `j` of the result
is level `j`. -/
def SkipList.searchLevels (sl : SkipList) (sc : Int) (mb : String) :
    (i : Nat) → (p : Nat) → (r : Int) → List (Nat × Int)
  | i, p, r =>
    let pr := sl.walk i sc mb p r
    match i with
    | 0 => [pr]
    | Nat.succ j => sl.searchLevels sc mb j pr.1 pr.2 ++ [pr]

/-- The full search from the top level (`update`/`rank` arrays of
`insert`/`delete`). -/
def SkipList.search (sl : SkipList) (sc : Int) (mb : String) : List (Nat × Int) :=
  sl.searchLevels sc mb (sl.level - 1) 0 0

/-- Overwrite the stored `span[i]` of the node at position `p`. -/
def SkipList.writeSpan (sl : SkipList) (p i : Nat) (v : Int) : SkipList :=
  match p with
  | 0 => { sl with headerSpan := sl.headerSpan.set i v }
  | Nat.succ j =>
    match sl.nodes[j]? with
    | some nd => { sl with nodes := sl.nodes.set j { nd with span := nd.span.set i v } }
    | none => sl

/-- `SkipList.insert(score, member)` with the drawn level `newLevel` (the
oracle value of `randomLevel`, always in [1, 32]).  Mirrors SkipList.ts:
search with ranks; initialize any new top levels (`update = header`,
`rank = 0`, `header.span[i] = length`); compute the new node's spans from the
pre-update spans; write the `update` nodes' spans; splice the node in after
`update[0]`. -/
def SkipList.insert (sl : SkipList) (sc : Int) (mb : String) (newLevel : Nat) : SkipList :=
  let upd := sl.search sc mb
  let updE : Nat → Nat × Int := fun i => upd.getD i (0, 0)
  let sl1 := if sl.level < newLevel then
      (List.range' sl.level (newLevel - sl.level)).foldl
        (fun s i => s.writeSpan 0 i (sl.nodes.length : Int)) sl
    else sl
  let lvl2 := max sl.level newLevel
  let rank0 := (updE 0).2
  let u0 := (updE 0).1
  let newNode : SLNode :=
    { score := sc, member := mb, lvl := newLevel,
      span := (List.range newLevel).map
        (fun i => sl1.spanAt (updE i).1 i - (rank0 - (updE i).2)) }
  let sl2 := (List.range lvl2).foldl (fun s i =>
      if i < newLevel then s.writeSpan (updE i).1 i ((rank0 - (updE i).2) + 1)
      else s.writeSpan (updE i).1 i (s.spanAt (updE i).1 i + 1)) sl1
  { headerSpan := sl2.headerSpan,
    nodes := sl2.nodes.take u0 ++ newNode :: sl2.nodes.drop u0,
    level := lvl2 }

/-- The level-trimming loop at the end of `delete`:
`while (level > 1 && !header.forward[level-1]) level--`. -/
def SkipList.trim (sl : SkipList) : SkipList :=
  if 1 < sl.level ∧ sl.fwd (sl.level - 1) 0 = none then
    SkipList.trim { sl with level := sl.level - 1 }
  else sl
termination_by sl.level

/-- `SkipList.delete(score, member)`.  Mirrors SkipList.ts: search; the
candidate victim is `update[0].forward[0]`; if it matches exactly, for every
level either absorb the victim's span (when `update[i].forward[i]` is the
victim) or decrement the span by one, unlink the node, and trim empty top
levels.  Returns whether a node was deleted. -/
def SkipList.del (sl : SkipList) (sc : Int) (mb : String) : Bool × SkipList :=
  let upd := sl.search sc mb
  let updE : Nat → Nat := fun i => (upd.getD i (0, 0)).1
  let u0 := updE 0
  match sl.nodes[u0]? with
  | none => (false, sl)
  | some x =>
    if x.score = sc ∧ x.member = mb then
      let v := u0 + 1
      let sl2 := (List.range sl.level).foldl (fun s i =>
          if sl.fwd i (updE i) = some v then
            s.writeSpan (updE i) i (s.spanAt (updE i) i + (x.span.getD i 0 - 1))
          else
            s.writeSpan (updE i) i (s.spanAt (updE i) i - 1)) sl
      let sl3 : SkipList :=
        { headerSpan := sl2.headerSpan,
          nodes := sl2.nodes.take u0 ++ sl2.nodes.drop (u0 + 1),
          level := sl2.level }
      (true, sl3.trim)
    else (false, sl)

/-- One level of `getRank`: advance while the next level-`i` node is `≤`
`(sc, mb)`, accumulating spans; on stepping onto an exact match, return the
0-based rank (`Sum.inr`). -/
def SkipList.rankWalk (sl : SkipList) (i : Nat) (sc : Int) (mb : String) (p : Nat) (r : Int) :
    (Nat × Int) ⊕ Int :=
  match hq : sl.fwd i p with
  | none => Sum.inl (p, r)
  | some q =>
    if compareScoreMember (sl.valAt q).1 (sl.valAt q).2 sc mb ≠ Ordering.gt then
      let r2 := r + sl.spanAt p i
      if (sl.valAt q).1 = sc ∧ (sl.valAt q).2 = mb then Sum.inr (r2 - 1)
      else sl.rankWalk i sc mb q r2
    else Sum.inl (p, r)
termination_by sl.nodes.length + 1 - p
decreasing_by
  have := fwd_bounds hq
  omega

/-- The level descent of `getRank`. -/
def SkipList.rankLevels (sl : SkipList) (sc : Int) (mb : String) :
    (i : Nat) → (p : Nat) → (r : Int) → Option Int
  | i, p, r =>
    match sl.rankWalk i sc mb p r with
    | Sum.inr rk => some rk
    | Sum.inl pr =>
      match i with
      | 0 => none
      | Nat.succ j => sl.rankLevels sc mb j pr.1 pr.2

/-- `SkipList.getRank(score, member)`: 0-based rank, `-1` if not found. -/
def SkipList.getRank (sl : SkipList) (sc : Int) (mb : String) : Int :=
  match sl.rankLevels sc mb (sl.level - 1) 0 0 with
  | some rk => rk
  | none => -1

/-- `SkipList.getByScoreRange(min, max, limit)`: skip level-0 nodes with
score `< min`, then collect `[member, score]` while score `≤ max` and fewer
than `limit` collected (`limit = none` is the default `Infinity`).  The
level-0 chain is `nodes` in order, so the two walks are `dropWhile` /
`takeWhile`. -/
def SkipList.getByScoreRange (sl : SkipList) (mn mx : Int) (limit : Option Nat) :
    List (String × Int) :=
  let afterMin := sl.nodes.dropWhile (fun nd => decide (nd.score < mn))
  let inRange := afterMin.takeWhile (fun nd => decide (nd.score ≤ mx))
  let limited : List SLNode :=
    match limit with
    | some l => inRange.take l
    | none => inRange
  limited.map (fun nd => (nd.member, nd.score))

/-! ## ZSet — `src/zset/ZSet.ts` -/

/-- Association-list helpers used for every JS `Map` in this file: lookup,
in-place-or-append set, delete.  A JS `Map` keeps insertion order; `set` on
an existing key updates in place, on a fresh key appends; `delete` removes
the entry. -/
def lookupA {K V : Type} [DecidableEq K] : List (K × V) → K → Option V
  | [], _ => none
  | p :: t, k => if p.1 = k then some p.2 else lookupA t k

def setA {K V : Type} [DecidableEq K] (l : List (K × V)) (k : K) (v : V) : List (K × V) :=
  if (lookupA l k).isSome then
    l.map (fun p => if p.1 = k then (k, v) else p)
  else l ++ [(k, v)]

def eraseA {K V : Type} [DecidableEq K] (l : List (K × V)) (k : K) : List (K × V) :=
  l.filter (fun p => p.1 ≠ k)

/-- `ZSet` (src/zset/ZSet.ts): the member → score map plus the skip list. -/
structure ZSet where
  dict : List (String × Int)
  sl : SkipList
deriving DecidableEq, Repr

def ZSet.empty : ZSet := { dict := [], sl := SkipList.empty }

/-- `ZSet.zadd(member, score)` with the level oracle `lvl` for a potential
skip-list insert.  Returns `true` iff a new member was added. -/
def ZSet.zadd (z : ZSet) (member : String) (score : Int) (lvl : Nat) : Bool × ZSet :=
  match lookupA z.dict member with
  | some existing =>
    if existing = score then (false, z)
    else
      let sl1 := (z.sl.del existing member).2
      let sl2 := sl1.insert score member lvl
      (false, { dict := setA z.dict member score, sl := sl2 })
  | none =>
    (true, { dict := setA z.dict member score, sl := z.sl.insert score member lvl })

/-- `ZSet.zrem(member)`: returns `true` iff the member was removed. -/
def ZSet.zrem (z : ZSet) (member : String) : Bool × ZSet :=
  match lookupA z.dict member with
  | none => (false, z)
  | some score =>
    (true, { dict := eraseA z.dict member, sl := (z.sl.del score member).2 })

def ZSet.zscore (z : ZSet) (member : String) : Option Int :=
  lookupA z.dict member

def ZSet.zrank (z : ZSet) (member : String) : Option Int :=
  (lookupA z.dict member).map (fun s => z.sl.getRank s member)

def ZSet.zrangeByScore (z : ZSet) (mn mx : Int) (limit : Option Nat) : List (String × Int) :=
  z.sl.getByScoreRange mn mx limit

def ZSet.zcard (z : ZSet) : Nat := z.dict.length

/-! ## Dictionary with incremental rehash — `src/core/Dictionary.ts` -/

def keysL {K V : Type} (l : List (K × V)) : List K := l.map Prod.fst

/-- The two-table dictionary.  `ht0`/`ht1` are JS `Map`s (association lists),
`rehashidx` tracks progress (`-1` = not rehashing), `rehashIter` is the live
iterator over `ht0.entries()` captured at `_startRehash`, modelled as the
list of keys not yet visited (keys deleted from `ht0` in the meantime are
skipped when the iterator reaches them; no key is ever inserted into `ht0`
while rehashing, so no appending is needed). -/
structure Dict (K V : Type) where
  ht0 : List (K × V)
  ht1 : Option (List (K × V))
  rehashidx : Int
  rehashStepSize : Nat
  rehashIter : Option (List K)
deriving DecidableEq

/-- `new Dictionary(rehashStepSize)`. -/
def Dict.mk0 (K V : Type) (stepSize : Nat) : Dict K V :=
  { ht0 := [], ht1 := none, rehashidx := -1, rehashStepSize := stepSize, rehashIter := none }

def Dict.isRehashing {K V : Type} (d : Dict K V) : Bool :=
  decide (0 ≤ d.rehashidx)

/-- `_startRehash`: create `ht1`, set `rehashidx = 0`, capture the iterator. -/
def Dict.startRehash {K V : Type} (d : Dict K V) : Dict K V :=
  if d.isRehashing then d
  else { d with ht1 := some [], rehashidx := 0, rehashIter := some (keysL d.ht0) }

/-- `next()` on the captured (live) iterator: skip keys no longer in `ht0`,
return the next live entry. -/
def iterNext {K V : Type} [DecidableEq K] (ht0 : List (K × V)) :
    List K → Option (K × V) × List K
  | [] => (none, [])
  | k :: rest =>
    match lookupA ht0 k with
    | some v => (some (k, v), rest)
    | none => iterNext ht0 rest

/-- The migration loop of `_rehashStep`: move up to `m` entries from `ht0`
to `ht1`; when the iterator is exhausted, swap the tables and finish. -/
def Dict.rehashStepGo {K V : Type} [DecidableEq K] : Dict K V → Nat → Dict K V
  | d, 0 => d
  | d, Nat.succ m =>
    match d.ht1, d.rehashIter with
    | some h1, some it =>
      (match iterNext d.ht0 it with
       | (none, _) =>
         { d with ht0 := h1, ht1 := none, rehashidx := -1, rehashIter := none }
       | (some (k, v), rest) =>
         Dict.rehashStepGo
           { d with ht0 := eraseA d.ht0 k, ht1 := some (setA h1 k v),
                    rehashIter := some rest, rehashidx := d.rehashidx + 1 } m)
    | _, _ => d

/-- `_rehashStep()` with the instance's step size. -/
def Dict.rehashStep {K V : Type} [DecidableEq K] (d : Dict K V) : Dict K V :=
  if d.isRehashing then
    match d.ht1, d.rehashIter with
    | some _, some _ => d.rehashStepGo d.rehashStepSize
    | _, _ => d
  else d

/-- `Dictionary.get`: rehash step, then check `ht1` (during rehash) before
`ht0`. -/
def Dict.get {K V : Type} [DecidableEq K] (d0 : Dict K V) (k : K) : Option V × Dict K V :=
  let d := d0.rehashStep
  match (if d.isRehashing then d.ht1 else none) with
  | some h1 =>
    (match lookupA h1 k with
     | some v => (some v, d)
     | none => (lookupA d.ht0 k, d))
  | none => (lookupA d.ht0 k, d)

/-- `Dictionary.set`: rehash step; during rehash move the key out of `ht0`
and write to `ht1`, otherwise write to `ht0` and start a rehash once the
table exceeds 1000 entries. -/
def Dict.set {K V : Type} [DecidableEq K] (d0 : Dict K V) (k : K) (v : V) : Dict K V :=
  let d := d0.rehashStep
  match (if d.isRehashing then d.ht1 else none) with
  | some h1 =>
    let d1 := if (lookupA d.ht0 k).isSome then { d with ht0 := eraseA d.ht0 k } else d
    { d1 with ht1 := some (setA h1 k v) }
  | none =>
    let d1 := { d with ht0 := setA d.ht0 k v }
    if 1000 < d1.ht0.length ∧ ¬ d1.isRehashing then d1.startRehash else d1

/-- `Dictionary.delete`: rehash step, delete from both tables, return whether
either held the key. -/
def Dict.delete {K V : Type} [DecidableEq K] (d0 : Dict K V) (k : K) : Bool × Dict K V :=
  let d := d0.rehashStep
  let del1 := match (if d.isRehashing then d.ht1 else none) with
    | some h1 => (lookupA h1 k).isSome
    | none => false
  let d := match (if d.isRehashing then d.ht1 else none) with
    | some h1 => { d with ht1 := some (eraseA h1 k) }
    | none => d
  let del0 := (lookupA d.ht0 k).isSome
  (del1 || del0, { d with ht0 := eraseA d.ht0 k })

/-- `Dictionary.has`. -/
def Dict.has {K V : Type} [DecidableEq K] (d0 : Dict K V) (k : K) : Bool × Dict K V :=
  let d := d0.rehashStep
  match (if d.isRehashing then d.ht1 else none) with
  | some h1 =>
    if (lookupA h1 k).isSome then (true, d) else ((lookupA d.ht0 k).isSome, d)
  | none => ((lookupA d.ht0 k).isSome, d)

/-- `Dictionary.keys`: `ht0` keys followed by `ht1` keys. -/
def Dict.keysD {K V : Type} [DecidableEq K] (d0 : Dict K V) : List K × Dict K V :=
  let d := d0.rehashStep
  match (if d.isRehashing then d.ht1 else none) with
  | some h1 => (keysL d.ht0 ++ keysL h1, d)
  | none => (keysL d.ht0, d)

/-- `Dictionary.size` (a getter: no rehash step). -/
def Dict.size {K V : Type} (d : Dict K V) : Nat :=
  match (if d.isRehashing then d.ht1 else none) with
  | some h1 => d.ht0.length + h1.length
  | none => d.ht0.length

/-! ## TTL manager — `src/expiration/TTLManager.ts` -/

/-- TTL manager state: the deadline map, the long-lived key iterator
(`none` until first used; otherwise the keys not yet visited — keys deleted
in the meantime are skipped at visit time, keys inserted while the iterator
is live are appended, matching a live JS `Map` iterator), and the
pending-delete buffer. -/
structure TTLState where
  expirations : List (String × Int)
  keyIterator : Option (List String)
  pendingDeletes : List String
deriving DecidableEq

def TTLState.empty : TTLState :=
  { expirations := [], keyIterator := none, pendingDeletes := [] }

/-- `TTLManager.set(key, expiresAtMs)`; a fresh key is appended to the live
iterator's pending keys (a JS map iterator sees entries appended after its
creation). -/
def TTLState.set (t : TTLState) (k : String) (e : Int) : TTLState :=
  match t.keyIterator with
  | some it =>
    if (lookupA t.expirations k).isSome then { t with expirations := setA t.expirations k e }
    else { t with expirations := setA t.expirations k e, keyIterator := some (it ++ [k]) }
  | none => { t with expirations := setA t.expirations k e }

/-- `TTLManager.delete(key)`. -/
def TTLState.delete (t : TTLState) (k : String) : TTLState :=
  { t with expirations := eraseA t.expirations k }

/-- `TTLManager.isExpired(key)`: true iff the map has the key and
`Date.now() >= expiresAt`. -/
def TTLState.isExpired (t : TTLState) (k : String) (now : Int) : Bool :=
  match lookupA t.expirations k with
  | none => false
  | some e => decide (e ≤ now)

/-- `next()` on the TTL key iterator, skipping deleted keys. -/
def ttlIterNext (exp : List (String × Int)) : List String → Option String × List String
  | [] => (none, [])
  | k :: rest =>
    if (lookupA exp k).isSome then (some k, rest) else ttlIterNext exp rest

/-- One visited key of `sampleAndPurge`: check the deadline
(`if (expiresAt && now >= expiresAt)`) and push to the pending buffer. -/
def TTLState.visitKey (t : TTLState) (k : String) (now : Int) (rest : List String) :
    TTLState × Nat :=
  let hit : Bool := match lookupA t.expirations k with
    | some e => decide (e ≠ 0) && decide (e ≤ now)
    | none => false
  if hit then
    ({ t with keyIterator := some rest, pendingDeletes := t.pendingDeletes ++ [k] }, 1)
  else
    ({ t with keyIterator := some rest }, 0)

/-- The sampling loop of `sampleAndPurge`: `k` iterator steps, with
wrap-around to a fresh iterator when exhausted (and a `break` if the map is
empty at that point). -/
def TTLState.sampleLoop (now : Int) : Nat → TTLState → TTLState × Nat
  | 0, t => (t, 0)
  | Nat.succ m, t =>
    match ttlIterNext t.expirations (t.keyIterator.getD []) with
    | (some k, rest) =>
      let (t2, h) := t.visitKey k now rest
      let (t3, c) := TTLState.sampleLoop now m t2
      (t3, h + c)
    | (none, _) =>
      let fresh := keysL t.expirations
      match ttlIterNext t.expirations fresh with
      | (none, rest) => ({ t with keyIterator := some rest }, 0)
      | (some k, rest) =>
        let (t2, h) := t.visitKey k now rest
        let (t3, c) := TTLState.sampleLoop now m t2
        (t3, h + c)

/-- `TTLManager.sampleAndPurge(k, onExpire)`.  Returns the expired count,
the new TTL state, and the list of keys flushed to `onExpire` (empty unless
the pending buffer reached 100).  The caller applies its callback to each
flushed key in order. -/
def TTLState.sampleAndPurge (t : TTLState) (k : Nat) (now : Int) :
    Nat × TTLState × List String :=
  if t.expirations.isEmpty then (0, t, [])
  else
    let t0 := match t.keyIterator with
      | some _ => t
      | none => { t with keyIterator := some (keysL t.expirations) }
    let (t1, cnt) := TTLState.sampleLoop now k t0
    if 100 ≤ t1.pendingDeletes.length then
      (cnt, { t1 with pendingDeletes := [] }, t1.pendingDeletes)
    else (cnt, t1, [])

/-! ## Usage tracker — `src/eviction/UsageTracker.ts` -/

inductive EvictionPolicy
  | lru
  | lfu
deriving DecidableEq, Repr

/-- Per-key usage metadata. -/
structure UsageMeta where
  lastAccess : Int
  freq : Nat
  lastDecay : Int
deriving DecidableEq, Repr

/-! ## Cache coordinator — `src/core/Cache.ts` -/

/-- Member values handed to `sadd` (JS `any`): an integer
(`Number.isInteger` true) or a non-integer, modelled as a string. -/
inductive Mem
  | int (i : Int)
  | str (s : String)
deriving DecidableEq, Repr

/-- The value of a cache entry.  The code's `type` tag (`'string' | 'zset' |
'set'`) and `encoding` tag (`'intset' | 'hashtable'`) are always set in lock
step with the class of `value`, so both are fused into the constructor. -/
inductive EntryVal
  | str (v : String)
  | zset (z : ZSet)
  | intset (data : List Int)
  | hset (data : List Mem)
deriving DecidableEq, Repr

/-- A cache entry (`CacheEntry` in src/types): the value plus the optional
`memoryUsed` field. -/
structure CacheEntry where
  val : EntryVal
  memoryUsed : Option Int
deriving DecidableEq, Repr

/-- Truthiness of the optional JS number `entry.memoryUsed`
(`undefined` and `0` are falsy). -/
def truthyNum (o : Option Int) : Bool :=
  o.getD 0 ≠ 0

/-- The stats record. -/
structure Stats where
  hits : Nat
  misses : Nat
  evictions : Nat
  expirations : Nat
  operations : Nat
deriving DecidableEq, Repr

/-- The cache coordinator state.  `rng` is the oracle stream of
`Math.random()` draws (see the header comment).  The three
`activeExpiration*` fields record the arguments the constructor passes to
`ttl.startActiveExpiration` (the timer itself has no state beyond them). -/
structure Cache where
  maxmemory : Int
  evictionPolicy : EvictionPolicy
  evictionSampleSize : Nat
  store : Dict String CacheEntry
  ttl : TTLState
  usage : List (String × UsageMeta)
  currentMemoryUsed : Int
  evictionPool : List String
  operationCount : Nat
  stats : Stats
  rng : List Nat
  activeExpirationIntervalMs : Int
  activeExpirationSampleSize : Nat
  activeExpirationMaxRounds : Nat
deriving DecidableEq

/-- `CacheOptions`. -/
structure CacheOptions where
  maxmemory : Option Int
  evictionPolicy : Option EvictionPolicy
  evictionSampleSize : Option Nat
deriving DecidableEq, Repr

/-- JS `x || dflt` on an optional number (`undefined`, `0` falsy). -/
def jsOrInt (v : Option Int) (dflt : Int) : Int :=
  match v with
  | some x => if x = 0 then dflt else x
  | none => dflt

def jsOrNat (v : Option Nat) (dflt : Nat) : Nat :=
  match v with
  | some x => if x = 0 then dflt else x
  | none => dflt

/-- The `Cache` constructor, with the oracle stream of random draws.  The
constructor starts active expiration with `(interval, sampleSize, maxRounds)
= (200, 10, 2)`, recorded in the three fields. -/
def Cache.init (o : CacheOptions) (rng : List Nat) : Cache :=
  { maxmemory := jsOrInt o.maxmemory 100000000,
    evictionPolicy := o.evictionPolicy.getD EvictionPolicy.lru,
    evictionSampleSize := jsOrNat o.evictionSampleSize 8,
    store := Dict.mk0 String CacheEntry 1,
    ttl := TTLState.empty,
    usage := [],
    currentMemoryUsed := 0,
    evictionPool := [],
    operationCount := 0,
    stats := ⟨0, 0, 0, 0, 0⟩,
    rng := rng,
    activeExpirationIntervalMs := 200,
    activeExpirationSampleSize := 10,
    activeExpirationMaxRounds := 2 }

/-- `_estimateMemberSize`. -/
def memberSizeEst (member : String) : Int :=
  (member.length : Int) * 2 + 80

/-- `_calculateMemoryUsed`: key chars ×2 plus the per-shape estimate
(`String(value).length * 2 + 48`; `zcard() * 80`; `size * 8` for intset;
`size * 40` for a general set). -/
def calculateMemoryUsed (key : String) (e : EntryVal) : Int :=
  (key.length : Int) * 2 +
  match e with
  | .str v => (v.length : Int) * 2 + 48
  | .zset z => (z.zcard : Int) * 80
  | .intset d => (d.length : Int) * 8
  | .hset d => (d.length : Int) * 40

def Cache.bumpOps (c : Cache) : Cache :=
  { c with stats := { c.stats with operations := c.stats.operations + 1 } }

def Cache.bumpHits (c : Cache) : Cache :=
  { c with stats := { c.stats with hits := c.stats.hits + 1 } }

def Cache.bumpMisses (c : Cache) : Cache :=
  { c with stats := { c.stats with misses := c.stats.misses + 1 } }

def Cache.bumpEvictions (c : Cache) : Cache :=
  { c with stats := { c.stats with evictions := c.stats.evictions + 1 } }

def Cache.bumpExpirations (c : Cache) : Cache :=
  { c with stats := { c.stats with expirations := c.stats.expirations + 1 } }

/-- `_deleteKey` (internal delete, no expiration check): subtract the
entry's memory if truthy, then remove the entry, the TTL row, and the usage
metadata. -/
def Cache.deleteKey (c : Cache) (k : String) : Cache :=
  let (e, st1) := c.store.get k
  let c1 := { c with store := st1 }
  let c2 := match e with
    | some en =>
      if truthyNum en.memoryUsed then
        { c1 with currentMemoryUsed := c1.currentMemoryUsed - en.memoryUsed.getD 0 }
      else c1
    | none => c1
  let (_, st2) := c2.store.delete k
  { c2 with store := st2, ttl := c2.ttl.delete k, usage := eraseA c2.usage k }

/-- The constructor's / lazy-purge `onExpire` callback:
`(key) => { this._deleteKey(key); this.stats.expirations++; }`. -/
def Cache.purgeCallback (c : Cache) (k : String) : Cache :=
  (c.deleteKey k).bumpExpirations

/-- `UsageTracker.touch(key)`: set `lastAccess = now` (initializing if
absent); under LFU additionally increment `freq` with probability
`1/(1+freq)` while `freq < 255` — the oracle draw `r` fires the event iff
`r % (freq+1) = 0`. -/
def Cache.touch (c : Cache) (k : String) (now : Int) : Cache :=
  let meta0 := (lookupA c.usage k).getD { lastAccess := now, freq := 0, lastDecay := now }
  let meta1 := { meta0 with lastAccess := now }
  match c.evictionPolicy with
  | .lru => { c with usage := setA c.usage k meta1 }
  | .lfu =>
    let r := c.rng.headD 0
    let meta2 := if r % (meta1.freq + 1) = 0 ∧ meta1.freq < 255 then
        { meta1 with freq := meta1.freq + 1 }
      else meta1
    { c with usage := setA c.usage k meta2, rng := c.rng.tail }

/-- `_checkExpired(key)`: bump the operation counter; every 100 operations
run `ttl.sampleAndPurge(5, purgeCallback)`; then passively expire the key
itself. -/
def Cache.checkExpired (c0 : Cache) (k : String) (now : Int) : Bool × Cache :=
  let c := { c0 with operationCount := c0.operationCount + 1 }
  let c := if c.operationCount % 100 = 0 then
      let spr := c.ttl.sampleAndPurge 5 now
      spr.2.2.foldl Cache.purgeCallback { c with ttl := spr.2.1 }
    else c
  if c.ttl.isExpired k now then (true, (c.deleteKey k).bumpExpirations)
  else (false, c)

/-- `_getEntry(key)`: passive expiration check, lookup, single
`usage.touch`. -/
def Cache.getEntry (c0 : Cache) (k : String) (now : Int) : Option CacheEntry × Cache :=
  let (ex, c) := c0.checkExpired k now
  if ex then (none, c)
  else
    let (e, st) := c.store.get k
    let c := { c with store := st }
    match e with
    | none => (none, c)
    | some en => (some en, c.touch k now)

/-- `dynamicPoolSize`. -/
def Cache.dynamicPoolSize (c : Cache) : Nat :=
  let size := c.store.size
  if size < 1000 then 8
  else if size < 10000 then 16
  else if size < 100000 then 32
  else 64

/-- The eviction comparator as a `mergeSort` "≤" test (`true` = keep `a`
before `b`): missing metadata first; LRU by older `lastAccess`; LFU by
lower `freq`, ties by older `lastAccess`. -/
def evictOrder (policy : EvictionPolicy) (usage : List (String × UsageMeta)) (a b : String) :
    Bool :=
  match lookupA usage a, lookupA usage b with
  | none, _ => true
  | some _, none => false
  | some ma, some mb =>
    match policy with
    | .lru => decide (ma.lastAccess ≤ mb.lastAccess)
    | .lfu =>
      if ma.freq ≠ mb.freq then decide (ma.freq < mb.freq)
      else decide (ma.lastAccess ≤ mb.lastAccess)

/-- Random sampling without replacement
(`while (sampled.size < sampleSize) sampled.add(allKeys[idx])`): each oracle
draw `r` picks index `r % allKeys.length`; the distinct keys accumulate in
first-draw order.  The loop stops when enough distinct keys are collected
(or the oracle list is exhausted — in the code this happens with
probability 0). -/
def drawSample (allKeys : List String) (sampleSize : Nat) :
    List Nat → List String → List String × List Nat
  | rng, acc =>
    if sampleSize ≤ acc.length then (acc, rng)
    else
      match rng with
      | [] => (acc, [])
      | r :: rest =>
        let k := allKeys.getD (r % allKeys.length) ""
        drawSample allKeys sampleSize rest (if k ∈ acc then acc else acc ++ [k])

/-- One iteration of the `_evictIfNeeded` while body.  Returns the new state
and whether the loop continues (`false` = one of the `break`s ran). -/
def Cache.evictIter (c : Cache) : Cache × Bool :=
  let refill : Cache × Bool :=
    if c.evictionPool.isEmpty then
      let (allKeys, st) := c.store.keysD
      let c1 := { c with store := st }
      if allKeys.isEmpty then (c1, true)
      else
        let sampleSize := min (c1.evictionSampleSize * 2) allKeys.length
        let (samples, rng2) := drawSample allKeys sampleSize c1.rng []
        let sorted := samples.mergeSort (evictOrder c1.evictionPolicy c1.usage)
        ({ c1 with evictionPool := sorted.take c1.dynamicPoolSize, rng := rng2 }, false)
    else (c, false)
  if refill.2 then (refill.1, false)
  else
    let c1 := refill.1
    match c1.evictionPool with
    | [] => (c1, false)
    | victim :: rest =>
      let c2 := { c1 with evictionPool := rest }
      let (hasV, st) := c2.store.has victim
      let c3 := { c2 with store := st }
      if hasV then ((c3.deleteKey victim).bumpEvictions, true)
      else (c3, true)

/-- The `while (mem > maxmemory && size > 0)` loop, driven by fuel.  The
code's loop terminates with probability 1; the fuel passed by
`evictIfNeeded` dominates the iteration count (each iteration removes a
pool entry, and a refill both consumes oracle draws and is followed in the
same iteration by the eviction of a live key). -/
def Cache.evictLoop : Nat → Cache → Cache
  | 0, c => c
  | Nat.succ fuel, c =>
    if c.maxmemory < c.currentMemoryUsed ∧ 0 < c.store.size then
      let (c1, cont) := c.evictIter
      if cont then Cache.evictLoop fuel c1 else c1
    else c

/-- `_evictIfNeeded()`. -/
def Cache.evictIfNeeded (c : Cache) : Cache :=
  if c.currentMemoryUsed ≤ c.maxmemory then c
  else Cache.evictLoop (c.store.size + c.evictionPool.length + c.rng.length + 1) c

/-- In-place mutation of the object stored under `k` (the JS code mutates
the entry through the alias returned by `store.get`; this touches neither
table membership nor the rehash state). -/
def Dict.updateInPlace {K V : Type} [DecidableEq K] (d : Dict K V) (k : K) (f : V → V) :
    Dict K V :=
  { d with ht0 := d.ht0.map (fun p => if p.1 = k then (k, f p.2) else p),
           ht1 := d.ht1.map (fun h1 => h1.map (fun p => if p.1 = k then (k, f p.2) else p)) }

/-- WRONGTYPE, the only exception the cache throws. -/
inductive CacheErr
  | wrongtype
deriving DecidableEq, Repr

/-- `Cache.set(key, value, px?)`. -/
def Cache.set (c0 : Cache) (k : String) (v : String) (px : Option Int) (now : Int) : Cache :=
  let c := c0.bumpOps
  let c := c.evictIfNeeded
  let (old, st) := c.store.get k
  let c := { c with store := st }
  let c := match old with
    | some oe =>
      if truthyNum oe.memoryUsed then
        { c with currentMemoryUsed := c.currentMemoryUsed - oe.memoryUsed.getD 0 }
      else c
    | none => c
  let mem := calculateMemoryUsed k (EntryVal.str v)
  let c := { c with currentMemoryUsed := c.currentMemoryUsed + mem,
                    store := c.store.set k { val := EntryVal.str v, memoryUsed := some mem } }
  let c := c.touch k now
  match px with
  | some p =>
    if 0 < p then { c with ttl := c.ttl.set k (now + p) }
    else { c with ttl := c.ttl.delete k }
  | none => { c with ttl := c.ttl.delete k }

/-- `Cache.get(key)`. -/
def Cache.get (c0 : Cache) (k : String) (now : Int) : Except CacheErr (Option String) × Cache :=
  let c := c0.bumpOps
  let (e, c) := c.getEntry k now
  match e with
  | none => (Except.ok none, c.bumpMisses)
  | some en =>
    match en.val with
    | .str v => (Except.ok (some v), c.bumpHits)
    | _ => (Except.error CacheErr.wrongtype, c)

/-- `Cache.del(key)`: 1 if the key existed (no expiration check), else 0. -/
def Cache.del (c0 : Cache) (k : String) : Nat × Cache :=
  let c := c0.bumpOps
  let (ex, st) := c.store.has k
  let c := { c with store := st }
  if ex then (1, c.deleteKey k) else (0, c)

/-- `Cache.zadd(key, score, member)` with the skip-list level oracle. -/
def Cache.zadd (c0 : Cache) (k : String) (score : Int) (member : String) (lvl : Nat)
    (now : Int) : Except CacheErr Nat × Cache :=
  let c := c0.bumpOps
  let (_, c) := c.checkExpired k now
  let c := c.evictIfNeeded
  let (e, st) := c.store.get k
  let c := { c with store := st }
  match e with
  | none =>
    let az := ZSet.empty.zadd member score lvl
    let mem := calculateMemoryUsed k (EntryVal.zset az.2)
    let c := { c with currentMemoryUsed := c.currentMemoryUsed + mem,
                      store := c.store.set k { val := EntryVal.zset az.2, memoryUsed := some mem } }
    let c := c.touch k now
    (Except.ok (if az.1 then 1 else 0), c)
  | some en =>
    match en.val with
    | .zset z =>
      let az := z.zadd member score lvl
      let c := { c with store :=
        c.store.updateInPlace k (fun en0 => { en0 with val := EntryVal.zset az.2 }) }
      let c :=
        if az.1 then
          let delta := memberSizeEst member
          { c with currentMemoryUsed := c.currentMemoryUsed + delta,
                   store := c.store.updateInPlace k
                     (fun en0 => { en0 with memoryUsed := some (en0.memoryUsed.getD 0 + delta) }) }
        else c
      (Except.ok (if az.1 then 1 else 0), c.touch k now)
    | _ => (Except.error CacheErr.wrongtype, c)

/-- `Cache.zrem(key, member)`. -/
def Cache.zrem (c0 : Cache) (k : String) (member : String) (now : Int) :
    Except CacheErr Nat × Cache :=
  let c := c0.bumpOps
  let (e, c) := c.getEntry k now
  match e with
  | none => (Except.ok 0, c)
  | some en =>
    match en.val with
    | .zset z =>
      let rz := z.zrem member
      let c := { c with store :=
        c.store.updateInPlace k (fun en0 => { en0 with val := EntryVal.zset rz.2 }) }
      let c :=
        if rz.1 ∧ truthyNum en.memoryUsed then
          let delta := memberSizeEst member
          { c with currentMemoryUsed := max 0 (c.currentMemoryUsed - delta),
                   store := c.store.updateInPlace k
                     (fun en0 => { en0 with memoryUsed := some (max 0 (en0.memoryUsed.getD 0 - delta)) }) }
        else c
      (Except.ok (if rz.1 then 1 else 0), c)
    | _ => (Except.error CacheErr.wrongtype, c)

/-- `Cache.zscore(key, member)`. -/
def Cache.zscore (c0 : Cache) (k : String) (member : String) (now : Int) :
    Except CacheErr (Option Int) × Cache :=
  let c := c0.bumpOps
  let (e, c) := c.getEntry k now
  match e with
  | none => (Except.ok none, c.bumpMisses)
  | some en =>
    match en.val with
    | .zset z => (Except.ok (z.zscore member), c.bumpHits)
    | _ => (Except.error CacheErr.wrongtype, c)

/-- `Cache.zrank(key, member)`. -/
def Cache.zrank (c0 : Cache) (k : String) (member : String) (now : Int) :
    Except CacheErr (Option Int) × Cache :=
  let c := c0.bumpOps
  let (e, c) := c.getEntry k now
  match e with
  | none => (Except.ok none, c.bumpMisses)
  | some en =>
    match en.val with
    | .zset z => (Except.ok (z.zrank member), c.bumpHits)
    | _ => (Except.error CacheErr.wrongtype, c)

/-- `Cache.zrangeByScore(key, min, max, limit?)`. -/
def Cache.zrangeByScore (c0 : Cache) (k : String) (mn mx : Int) (limit : Option Nat)
    (now : Int) : Except CacheErr (List (String × Int)) × Cache :=
  let c := c0.bumpOps
  let (e, c) := c.getEntry k now
  match e with
  | none => (Except.ok [], c.bumpMisses)
  | some en =>
    match en.val with
    | .zset z => (Except.ok (z.zrangeByScore mn mx limit), c.bumpHits)
    | _ => (Except.error CacheErr.wrongtype, c)

/-- `IntSet.add(value)` result. -/
inductive IntSetAddRes
  | upgrade
  | added (data : List Int)
  | already
deriving DecidableEq, Repr

/-- Insertion into the sorted intset array (the binary-search splice). -/
def insertSortedInt (v : Int) : List Int → List Int
  | [] => [v]
  | x :: t => if v < x then v :: x :: t else x :: insertSortedInt v t

/-- `IntSet.add(value)` (src/encodings/IntSet.ts, default cap 512):
non-integer → upgrade; present → no-op; at the cap → upgrade; else insert in
sorted position. -/
def intsetAdd (data : List Int) (m : Mem) : IntSetAddRes :=
  match m with
  | .str _ => IntSetAddRes.upgrade
  | .int v =>
    if v ∈ data then IntSetAddRes.already
    else if 512 ≤ data.length then IntSetAddRes.upgrade
    else IntSetAddRes.added (insertSortedInt v data)

/-- Size of a set-shaped entry value (`entry.value.size`). -/
def setValSize : EntryVal → Nat
  | .intset d => d.length
  | .hset d => d.length
  | _ => 0

/-- The member loop of `sadd`: for each member, add to the intset, or
upgrade (`upgradeToSet` = `new Set(data)` in sorted order, then re-add the
member in place), or add to the general set.  Returns (value, addedCount). -/
def saddLoop : EntryVal × Nat → Mem → EntryVal × Nat
  | (EntryVal.intset d, cnt), m =>
    (match intsetAdd d m with
     | IntSetAddRes.upgrade =>
       let s := d.map Mem.int
       if m ∈ s then (EntryVal.hset s, cnt) else (EntryVal.hset (s ++ [m]), cnt + 1)
     | IntSetAddRes.added d2 => (EntryVal.intset d2, cnt + 1)
     | IntSetAddRes.already => (EntryVal.intset d, cnt))
  | (EntryVal.hset s, cnt), m =>
    if m ∈ s then (EntryVal.hset s, cnt) else (EntryVal.hset (s ++ [m]), cnt + 1)
  | (v, cnt), _ => (v, cnt)

/-- `Cache.sadd(key, ...members)`. -/
def Cache.sadd (c0 : Cache) (k : String) (members : List Mem) (now : Int) :
    Except CacheErr Nat × Cache :=
  let c := c0.bumpOps
  let (_, c) := c.checkExpired k now
  let c := c.evictIfNeeded
  let (e0, st) := c.store.get k
  let c := { c with store := st }
  let ce : Cache × CacheEntry := match e0 with
    | none =>
      let mem := calculateMemoryUsed k (EntryVal.intset [])
      let entry : CacheEntry := { val := EntryVal.intset [], memoryUsed := some mem }
      ({ c with currentMemoryUsed := c.currentMemoryUsed + mem, store := c.store.set k entry },
       entry)
    | some en => (c, en)
  let c := ce.1
  let en := ce.2
  match en.val with
  | .str _ => (Except.error CacheErr.wrongtype, c)
  | .zset _ => (Except.error CacheErr.wrongtype, c)
  | v0 =>
    let oldSize := setValSize v0
    let res := members.foldl saddLoop (v0, 0)
    let c := { c with store :=
      c.store.updateInPlace k (fun en0 => { en0 with val := res.1 }) }
    let c :=
      if 0 < res.2 then
        let newSize := setValSize res.1
        let memoryDelta : Int :=
          ((newSize : Int) - (oldSize : Int)) *
            (match res.1 with | .intset _ => 8 | _ => 40)
        { c with currentMemoryUsed := c.currentMemoryUsed + memoryDelta,
                 store := c.store.updateInPlace k
                   (fun en0 => { en0 with memoryUsed := some (en0.memoryUsed.getD 0 + memoryDelta) }) }
      else c
    (Except.ok res.2, c.touch k now)

/-- `Cache.smembers(key)`. -/
def Cache.smembers (c0 : Cache) (k : String) (now : Int) :
    Except CacheErr (List Mem) × Cache :=
  let c := c0.bumpOps
  let (e, c) := c.getEntry k now
  match e with
  | none => (Except.ok [], c.bumpMisses)
  | some en =>
    match en.val with
    | .intset d => (Except.ok (d.map Mem.int), c.bumpHits)
    | .hset s => (Except.ok s, c.bumpHits)
    | _ => (Except.error CacheErr.wrongtype, c)

/-- One round sequence of the active-expiration timer callback (the closure
in `startActiveExpiration`): up to `budget` remaining rounds; each round
samples `min(sampleSize, ttl.size)` keys (stopping if 0), applies the
flushed deletes through `purgeCallback`, and continues only while
`expiredCount > sampledCount * 0.25` (0.25 is exactly representable and
both counts are small integers, so the float comparison holds exactly when
`4 * expiredCount > sampledCount`, the integer form used here).  Also
returns the per-round `(sampled, expired)` list. -/
def Cache.activeRounds (now : Int) : Nat → Cache → Cache × List (Nat × Nat)
  | 0, c => (c, [])
  | Nat.succ budget, c =>
    let sampled := min c.activeExpirationSampleSize c.ttl.expirations.length
    if sampled = 0 then (c, [])
    else
      let spr := c.ttl.sampleAndPurge sampled now
      let c2 := spr.2.2.foldl Cache.purgeCallback { c with ttl := spr.2.1 }
      if sampled < 4 * spr.1 then
        let cr := Cache.activeRounds now budget c2
        (cr.1, (sampled, spr.1) :: cr.2)
      else (c2, [(sampled, spr.1)])

/-- One tick of the active-expiration interval timer. -/
def Cache.activeTick (c : Cache) (now : Int) : Cache × List (Nat × Nat) :=
  Cache.activeRounds now c.activeExpirationMaxRounds c

/-- Public operations (and the background tick) for reachability traces. -/
inductive CacheOp
  | setOp (k v : String) (px : Option Int) (now : Int)
  | getOp (k : String) (now : Int)
  | delOp (k : String)
  | zaddOp (k : String) (score : Int) (member : String) (lvl : Nat) (now : Int)
  | zremOp (k member : String) (now : Int)
  | zscoreOp (k member : String) (now : Int)
  | zrankOp (k member : String) (now : Int)
  | zrangeOp (k : String) (mn mx : Int) (limit : Option Nat) (now : Int)
  | saddOp (k : String) (members : List Mem) (now : Int)
  | smembersOp (k : String) (now : Int)
  | tickOp (now : Int)
deriving DecidableEq

def Cache.applyOp (c : Cache) : CacheOp → Cache
  | .setOp k v px now => c.set k v px now
  | .getOp k now => (c.get k now).2
  | .delOp k => (c.del k).2
  | .zaddOp k score member lvl now => (c.zadd k score member lvl now).2
  | .zremOp k member now => (c.zrem k member now).2
  | .zscoreOp k member now => (c.zscore k member now).2
  | .zrankOp k member now => (c.zrank k member now).2
  | .zrangeOp k mn mx limit now => (c.zrangeByScore k mn mx limit now).2
  | .saddOp k members now => (c.sadd k members now).2
  | .smembersOp k now => (c.smembers k now).2
  | .tickOp now => (c.activeTick now).1

def Cache.applyOps (c : Cache) (ops : List CacheOp) : Cache :=
  ops.foldl Cache.applyOp c

/-! ## Association-list lemmas -/

def NodupK {K V : Type} (l : List (K × V)) : Prop := (keysL l).Nodup

theorem lookupA_isSome_iff {K V : Type} [DecidableEq K] {l : List (K × V)} {k : K} :
    (lookupA l k).isSome ↔ k ∈ keysL l := by
  induction l with
  | nil => simp [lookupA, keysL]
  | cons p t ih =>
    by_cases h : p.1 = k
    · simp [lookupA, h, keysL]
    · simp [lookupA, h, keysL, ih]
      intro he
      exact absurd he.symm h

theorem lookupA_eq_none_iff {K V : Type} [DecidableEq K] {l : List (K × V)} {k : K} :
    lookupA l k = none ↔ k ∉ keysL l := by
  rw [← lookupA_isSome_iff]
  cases lookupA l k <;> simp

theorem lookupA_mem {K V : Type} [DecidableEq K] {l : List (K × V)} {k : K} {v : V}
    (h : lookupA l k = some v) : (k, v) ∈ l := by
  induction l with
  | nil => simp [lookupA] at h
  | cons p t ih =>
    by_cases hp : p.1 = k
    · simp only [lookupA, hp, if_pos] at h
      cases h
      subst hp
      simp
    · simp only [lookupA, hp, if_neg, ite_false] at h
      exact List.mem_cons_of_mem _ (ih h)

theorem keysL_cons {K V : Type} {p : K × V} {t : List (K × V)} :
    keysL (p :: t) = p.1 :: keysL t := rfl

theorem keysL_append {K V : Type} {l1 l2 : List (K × V)} :
    keysL (l1 ++ l2) = keysL l1 ++ keysL l2 := by
  simp [keysL]

theorem mem_keysL_of_mem {K V : Type} {l : List (K × V)} {k : K} {v : V}
    (h : (k, v) ∈ l) : k ∈ keysL l :=
  List.mem_map_of_mem Prod.fst h

theorem NodupK_cons_iff {K V : Type} {p : K × V} {t : List (K × V)} :
    NodupK (p :: t) ↔ p.1 ∉ keysL t ∧ NodupK t := by
  simp [NodupK, keysL]

theorem mem_lookupA {K V : Type} [DecidableEq K] {l : List (K × V)} {k : K} {v : V}
    (hn : NodupK l) (h : (k, v) ∈ l) : lookupA l k = some v := by
  induction l with
  | nil => simp at h
  | cons p t ih =>
    rcases List.mem_cons.1 h with he | ht
    · rw [← he]
      simp [lookupA]
    · have hne : p.1 ≠ k := by
        intro hpe
        exact (NodupK_cons_iff.1 hn).1 (hpe ▸ mem_keysL_of_mem ht)
      simp only [lookupA, hne, if_neg, ite_false]
      exact ih (NodupK_cons_iff.1 hn).2 ht

theorem lookupA_perm {K V : Type} [DecidableEq K] {l1 l2 : List (K × V)}
    (hp : l1.Perm l2) (hn : NodupK l1) (k : K) : lookupA l1 k = lookupA l2 k := by
  have hn2 : NodupK l2 := (hp.map Prod.fst).nodup_iff.1 hn
  cases h1 : lookupA l1 k with
  | some v => exact (mem_lookupA hn2 (hp.mem_iff.1 (lookupA_mem h1))).symm
  | none =>
    cases h2 : lookupA l2 k with
    | none => rfl
    | some v =>
      have := mem_keysL_of_mem (hp.mem_iff.2 (lookupA_mem h2))
      exact absurd this (lookupA_eq_none_iff.1 h1)

theorem lookupA_append {K V : Type} [DecidableEq K] {l1 l2 : List (K × V)} {k : K} :
    lookupA (l1 ++ l2) k = match lookupA l1 k with
      | some v => some v
      | none => lookupA l2 k := by
  induction l1 with
  | nil => simp [lookupA]
  | cons p t ih =>
    by_cases hp : p.1 = k <;> simp [lookupA, hp, ih]

theorem lookupA_cons {K V : Type} [DecidableEq K] {p : K × V} {t : List (K × V)} {k : K} :
    lookupA (p :: t) k = if p.1 = k then some p.2 else lookupA t k := rfl

theorem eraseA_cons {K V : Type} [DecidableEq K] {p : K × V} {t : List (K × V)} {k : K} :
    eraseA (p :: t) k = if p.1 = k then eraseA t k else p :: eraseA t k := by
  by_cases hp : p.1 = k <;> simp [eraseA, List.filter_cons, hp]

theorem keysL_eraseA {K V : Type} [DecidableEq K] {l : List (K × V)} {k : K} :
    keysL (eraseA l k) = (keysL l).filter (fun x => decide (x ≠ k)) := by
  induction l with
  | nil => rfl
  | cons p t ih =>
    rw [eraseA_cons, keysL_cons, List.filter_cons]
    by_cases hp : p.1 = k <;> simp [hp, ih, keysL_cons]

theorem lookupA_eraseA {K V : Type} [DecidableEq K] {l : List (K × V)} {k k2 : K} :
    lookupA (eraseA l k) k2 = if k2 = k then none else lookupA l k2 := by
  induction l with
  | nil => simp [eraseA, lookupA]
  | cons p t ih =>
    rw [eraseA_cons]
    by_cases hp : p.1 = k
    · rw [if_pos hp, ih]
      by_cases h2 : k2 = k
      · simp [h2]
      · have hne : ¬ p.1 = k2 := by rw [hp]; intro he; exact h2 he.symm
        simp [h2, lookupA_cons, hne]
    · rw [if_neg hp, lookupA_cons]
      by_cases hpk : p.1 = k2
      · have h2 : ¬ k2 = k := by intro he; exact hp (hpk.trans he)
        simp [lookupA_cons, hpk, h2]
      · simp [lookupA_cons, hpk, ih]

theorem NodupK_eraseA {K V : Type} [DecidableEq K] {l : List (K × V)} {k : K}
    (hn : NodupK l) : NodupK (eraseA l k) := by
  unfold NodupK
  rw [keysL_eraseA]
  exact List.Nodup.filter _ hn

theorem eraseA_eq_self {K V : Type} [DecidableEq K] {l : List (K × V)} {k : K}
    (h : k ∉ keysL l) : eraseA l k = l := by
  induction l with
  | nil => rfl
  | cons p t ih =>
    rw [keysL_cons, List.mem_cons, not_or] at h
    have hp : ¬ p.1 = k := fun he => h.1 he.symm
    rw [eraseA_cons, if_neg hp, ih h.2]

theorem eraseA_append {K V : Type} [DecidableEq K] {l1 l2 : List (K × V)} {k : K} :
    eraseA (l1 ++ l2) k = eraseA l1 k ++ eraseA l2 k := by
  simp [eraseA]

theorem perm_cons_eraseA {K V : Type} [DecidableEq K] {l : List (K × V)} {k : K} {v : V}
    (hn : NodupK l) (h : (k, v) ∈ l) : l.Perm ((k, v) :: eraseA l k) := by
  induction l with
  | nil => simp at h
  | cons p t ih =>
    rcases List.mem_cons.1 h with he | ht
    · have hp1 : p.1 = k := by rw [← he]
      have hkt : k ∉ keysL t := hp1 ▸ (NodupK_cons_iff.1 hn).1
      rw [eraseA_cons, if_pos hp1, eraseA_eq_self hkt, ← he]
    · have hne : p.1 ≠ k := by
        intro hpe
        exact (NodupK_cons_iff.1 hn).1 (hpe ▸ mem_keysL_of_mem ht)
      have step := (ih (NodupK_cons_iff.1 hn).2 ht).cons p
      rw [eraseA_cons, if_neg hne]
      exact step.trans (List.Perm.swap _ _ _)

/-- The in-place `Map.set` replacement map. -/
theorem keysL_map_replace {K V : Type} [DecidableEq K] {l : List (K × V)} {k : K} {v : V} :
    keysL (l.map (fun p => if p.1 = k then (k, v) else p)) = keysL l := by
  unfold keysL
  rw [List.map_map]
  apply List.map_congr_left
  intro p _
  by_cases hp : p.1 = k <;> simp [hp]

theorem map_replace_eq_self {K V : Type} [DecidableEq K] {l : List (K × V)} {k : K} {v : V}
    (h : k ∉ keysL l) : l.map (fun p => if p.1 = k then (k, v) else p) = l := by
  induction l with
  | nil => rfl
  | cons p t ih =>
    rw [keysL_cons, List.mem_cons, not_or] at h
    have hp : ¬ p.1 = k := fun he => h.1 he.symm
    simp only [List.map_cons, hp, ite_false, if_neg]
    rw [ih h.2]

theorem map_replace_perm {K V : Type} [DecidableEq K] {l : List (K × V)} {k : K} {v : V}
    (hn : NodupK l) (hm : k ∈ keysL l) :
    (l.map (fun p => if p.1 = k then (k, v) else p)).Perm ((k, v) :: eraseA l k) := by
  induction l with
  | nil => simp [keysL] at hm
  | cons p t ih =>
    rw [keysL_cons, List.mem_cons] at hm
    by_cases hp : p.1 = k
    · have hkt : k ∉ keysL t := hp ▸ (NodupK_cons_iff.1 hn).1
      rw [eraseA_cons, if_pos hp, eraseA_eq_self hkt]
      simp only [List.map_cons, hp, ite_true, if_pos]
      exact (map_replace_eq_self hkt).symm ▸ List.Perm.refl _
    · have hmt : k ∈ keysL t := by
        rcases hm with he | ht
        · exact absurd he.symm hp
        · exact ht
      have step := (ih (NodupK_cons_iff.1 hn).2 hmt).cons p
      rw [eraseA_cons, if_neg hp]
      simp only [List.map_cons, hp, ite_false, if_neg]
      exact step.trans (List.Perm.swap _ _ _)

theorem setA_perm {K V : Type} [DecidableEq K] {l : List (K × V)} {k : K} {v : V}
    (hn : NodupK l) : (setA l k v).Perm ((k, v) :: eraseA l k) := by
  unfold setA
  by_cases h : (lookupA l k).isSome
  · rw [if_pos h]
    exact map_replace_perm hn (lookupA_isSome_iff.1 h)
  · rw [if_neg h]
    have hk : k ∉ keysL l := by
      rw [← lookupA_isSome_iff]
      exact h
    rw [eraseA_eq_self hk]
    exact List.perm_append_singleton _ _

theorem keysL_setA {K V : Type} [DecidableEq K] {l : List (K × V)} {k : K} {v : V} :
    keysL (setA l k v) = if (lookupA l k).isSome then keysL l else keysL l ++ [k] := by
  unfold setA
  by_cases h : (lookupA l k).isSome
  · rw [if_pos h, if_pos h, keysL_map_replace]
  · rw [if_neg h, if_neg h, keysL_append]
    rfl

theorem NodupK_setA {K V : Type} [DecidableEq K] {l : List (K × V)} {k : K} {v : V}
    (hn : NodupK l) : NodupK (setA l k v) := by
  unfold NodupK
  rw [keysL_setA]
  by_cases h : (lookupA l k).isSome
  · rw [if_pos h]
    exact hn
  · rw [if_neg h]
    have hk : k ∉ keysL l := by rw [← lookupA_isSome_iff]; exact h
    have hn2 : (keysL l).Nodup := hn
    simp [List.nodup_append, hn2, hk]

theorem lookupA_setA_self {K V : Type} [DecidableEq K] {l : List (K × V)} {k : K} {v : V}
    (hn : NodupK l) : lookupA (setA l k v) k = some v := by
  rw [lookupA_perm (setA_perm hn) (NodupK_setA hn) k]
  simp [lookupA_cons]

theorem lookupA_setA_other {K V : Type} [DecidableEq K] {l : List (K × V)} {k k2 : K} {v : V}
    (hn : NodupK l) (h2 : k2 ≠ k) : lookupA (setA l k v) k2 = lookupA l k2 := by
  rw [lookupA_perm (setA_perm hn) (NodupK_setA hn) k2]
  rw [lookupA_cons, if_neg (fun he : k = k2 => h2 he.symm), lookupA_eraseA, if_neg h2]

theorem length_setA {K V : Type} [DecidableEq K] {l : List (K × V)} {k : K} {v : V} :
    (setA l k v).length = if (lookupA l k).isSome then l.length else l.length + 1 := by
  unfold setA
  by_cases h : (lookupA l k).isSome <;> simp [h]

/-! ## Dictionary refinement -/

def optAllP {α : Type} (o : Option α) (p : α → Prop) : Prop :=
  match o with
  | none => True
  | some a => p a

instance optAllP.dec {α : Type} (o : Option α) (p : α → Prop) [∀ a, Decidable (p a)] :
    Decidable (optAllP o p) :=
  match o with
  | none => isTrue trivial
  | some a => if h : p a then isTrue h else isFalse h

instance NodupK.dec {K V : Type} [DecidableEq K] (l : List (K × V)) : Decidable (NodupK l) := by
  unfold NodupK
  infer_instance

/-- Well-formedness of a `Dict`: no duplicate keys in either table, the two
tables disjoint, the three rehash fields in sync, and every live `ht0` key
still ahead of the migration iterator. -/
def DictWF {K V : Type} [DecidableEq K] (d : Dict K V) : Prop :=
  NodupK d.ht0 ∧
  optAllP d.ht1 (fun h1 => NodupK h1 ∧ ∀ k ∈ keysL d.ht0, k ∉ keysL h1) ∧
  ((0 ≤ d.rehashidx) ↔ d.ht1.isSome) ∧
  (d.ht1.isSome ↔ d.rehashIter.isSome) ∧
  optAllP d.rehashIter (fun it => ∀ k ∈ keysL d.ht0, k ∈ it)

instance DictWF.dec {K V : Type} [DecidableEq K] (d : Dict K V) : Decidable (DictWF d) := by
  unfold DictWF
  infer_instance

/-- The abstract map a `Dict` represents: all live entries. -/
def DictAbs {K V : Type} (d : Dict K V) : List (K × V) :=
  d.ht0 ++ (d.ht1.getD [])

/-- Refinement relation to a plain insertion-ordered map. -/
def DictR {K V : Type} [DecidableEq K] (d : Dict K V) (m : List (K × V)) : Prop :=
  DictWF d ∧ NodupK m ∧ (DictAbs d).Perm m

theorem setA_absent {K V : Type} [DecidableEq K] {l : List (K × V)} {k : K} {v : V}
    (h : lookupA l k = none) : setA l k v = l ++ [(k, v)] := by
  unfold setA
  rw [h]
  rfl

theorem iterNext_none {K V : Type} [DecidableEq K] {ht0 : List (K × V)} {it : List K}
    (h : (iterNext ht0 it).1 = none) : ∀ x ∈ it, lookupA ht0 x = none := by
  induction it with
  | nil => simp
  | cons k rest ih =>
    intro x hx
    cases hk : lookupA ht0 k with
    | some v => rw [iterNext, hk] at h; simp at h
    | none =>
      rw [iterNext, hk] at h
      rcases List.mem_cons.1 hx with he | ht
      · rw [he, hk]
      · exact ih h x ht

theorem iterNext_some {K V : Type} [DecidableEq K] {ht0 : List (K × V)} {it : List K}
    {k : K} {v : V} {rest : List K}
    (h : iterNext ht0 it = (some (k, v), rest)) :
    lookupA ht0 k = some v ∧
      ∃ pre, it = pre ++ k :: rest ∧ ∀ x ∈ pre, lookupA ht0 x = none := by
  induction it with
  | nil => rw [iterNext] at h; simp at h
  | cons k0 rest0 ih =>
    cases hk : lookupA ht0 k0 with
    | some v0 =>
      rw [iterNext, hk] at h
      have h1 : k0 = k ∧ v0 = v ∧ rest0 = rest := by
        cases h
        exact ⟨rfl, rfl, rfl⟩
      obtain ⟨he, hv, hr⟩ := h1
      subst he; subst hv; subst hr
      exact ⟨hk, [], rfl, by simp⟩
    | none =>
      rw [iterNext, hk] at h
      obtain ⟨hl, pre, hit, hpre⟩ := ih h
      refine ⟨hl, k0 :: pre, by rw [hit]; rfl, ?_⟩
      intro x hx
      rcases List.mem_cons.1 hx with he | ht
      · rw [he, hk]
      · exact hpre x ht

theorem DictWF.nodupAbs {K V : Type} [DecidableEq K] {d : Dict K V} (h : DictWF d) :
    NodupK (DictAbs d) := by
  obtain ⟨h0, h1, _, _, _⟩ := h
  unfold DictAbs
  cases hh : d.ht1 with
  | none => simpa [NodupK, keysL] using h0
  | some t1 =>
    rw [hh] at h1
    unfold optAllP at h1
    unfold NodupK at *
    rw [keysL_append, List.nodup_append]
    exact ⟨h0, h1.1, fun a ha hb => h1.2 a ha hb⟩

theorem DictR.lookupAbs {K V : Type} [DecidableEq K] {d : Dict K V} {m : List (K × V)}
    (h : DictR d m) (k : K) : lookupA (DictAbs d) k = lookupA m k :=
  lookupA_perm h.2.2 h.1.nodupAbs k

/-- Invariance of `DictWF`/`DictR` under one migration sub-step. -/
theorem migrate_R {K V : Type} [DecidableEq K] {m : List (K × V)} {d : Dict K V}
    {h1 : List (K × V)} {it : List K} {k : K} {v : V} {rest : List K}
    (hR : DictR d m) (hh1 : d.ht1 = some h1) (hit : d.rehashIter = some it)
    (hnext : iterNext d.ht0 it = (some (k, v), rest)) :
    DictR { d with ht0 := eraseA d.ht0 k, ht1 := some (setA h1 k v),
                   rehashIter := some rest, rehashidx := d.rehashidx + 1 } m := by
  obtain ⟨⟨hn0, hwf1, hsyncI, hsyncIt, hcover⟩, hnm, hperm⟩ := hR
  rw [hh1] at hwf1
  rw [hit] at hcover
  unfold optAllP at hwf1 hcover
  obtain ⟨hlk, pre, hitsplit, hpre⟩ := iterNext_some hnext
  have hk0 : k ∈ keysL d.ht0 := lookupA_isSome_iff.1 (by rw [hlk]; rfl)
  have hknot1 : k ∉ keysL h1 := hwf1.2 k hk0
  have hsetA : setA h1 k v = h1 ++ [(k, v)] :=
    setA_absent (lookupA_eq_none_iff.2 hknot1)
  refine ⟨⟨NodupK_eraseA hn0, ?_, ?_, ?_, ?_⟩, hnm, ?_⟩
  · unfold optAllP
    constructor
    · exact NodupK_setA hwf1.1
    · intro k2 hk2
      rw [keysL_eraseA, List.mem_filter] at hk2
      have hk2m : k2 ∈ keysL d.ht0 := hk2.1
      have hk2ne : k2 ≠ k := by simpa using hk2.2
      rw [keysL_setA, if_neg (by rw [lookupA_eq_none_iff.2 hknot1]; simp)]
      simp only [List.mem_append, List.mem_singleton]
      rintro (hc | hc)
      · exact hwf1.2 k2 hk2m hc
      · exact hk2ne hc
  · rw [hh1] at hsyncI
    simp only [Option.isSome_some, iff_true] at hsyncI
    simp only [Option.isSome_some, iff_true]
    omega
  · simp
  · unfold optAllP
    intro k2 hk2
    rw [keysL_eraseA, List.mem_filter] at hk2
    have hk2m : k2 ∈ keysL d.ht0 := hk2.1
    have hk2ne : k2 ≠ k := by simpa using hk2.2
    have hk2it : k2 ∈ it := hcover k2 hk2m
    rw [hitsplit] at hk2it
    rcases List.mem_append.1 hk2it with hc | hc
    · exact absurd hk2m (lookupA_eq_none_iff.1 (hpre k2 hc))
    · rcases List.mem_cons.1 hc with hc2 | hc2
      · exact absurd hc2 hk2ne
      · exact hc2
  · show List.Perm (eraseA d.ht0 k ++ (some (setA h1 k v)).getD []) m
    unfold DictAbs at hperm
    rw [hh1] at hperm
    simp only [Option.getD_some] at hperm ⊢
    rw [hsetA]
    have hmem : (k, v) ∈ d.ht0 := lookupA_mem hlk
    have step1 : List.Perm (eraseA d.ht0 k ++ (h1 ++ [(k, v)]))
        ((k, v) :: (eraseA d.ht0 k ++ h1)) := by
      rw [← List.append_assoc]
      exact List.perm_append_singleton _ _
    have step2 : List.Perm ((k, v) :: (eraseA d.ht0 k ++ h1)) (d.ht0 ++ h1) :=
      ((perm_cons_eraseA hn0 hmem).append_right h1).symm
    exact step1.trans (step2.trans hperm)

/-- Finishing the rehash (iterator exhausted) preserves the refinement. -/
theorem finish_R {K V : Type} [DecidableEq K] {m : List (K × V)} {d : Dict K V}
    {h1 : List (K × V)} {it : List K}
    (hR : DictR d m) (hh1 : d.ht1 = some h1) (hit : d.rehashIter = some it)
    (hnext : (iterNext d.ht0 it).1 = none) :
    DictR { d with ht0 := h1, ht1 := none, rehashidx := -1, rehashIter := none } m := by
  obtain ⟨⟨hn0, hwf1, _, _, hcover⟩, hnm, hperm⟩ := hR
  rw [hh1] at hwf1
  rw [hit] at hcover
  unfold optAllP at hwf1 hcover
  have hdead := iterNext_none hnext
  have hempty : d.ht0 = [] := by
    cases hh0 : d.ht0 with
    | nil => rfl
    | cons p t =>
      have hkm : p.1 ∈ keysL d.ht0 := by rw [hh0, keysL_cons]; simp
      have := hdead p.1 (hcover p.1 hkm)
      rw [lookupA_eq_none_iff] at this
      exact absurd hkm this
  refine ⟨⟨hwf1.1, trivial, by simp, by simp, trivial⟩, hnm, ?_⟩
  show List.Perm (h1 ++ (none : Option (List (K × V))).getD []) m
  unfold DictAbs at hperm
  rw [hempty, hh1] at hperm
  simpa using hperm

theorem rehashStepGo_R {K V : Type} [DecidableEq K] {m : List (K × V)} :
    ∀ (n : Nat) (d : Dict K V), DictR d m → DictR (d.rehashStepGo n) m := by
  intro n
  induction n with
  | zero => intro d h; exact h
  | succ n ih =>
    intro d h
    rw [Dict.rehashStepGo]
    cases hh1 : d.ht1 with
    | none =>
      dsimp only
      exact h
    | some h1 =>
      cases hit : d.rehashIter with
      | none =>
        dsimp only
        exact h
      | some it =>
        dsimp only
        cases hnext : iterNext d.ht0 it with
        | mk onx rest =>
          cases onx with
          | none =>
            dsimp only
            exact finish_R h hh1 hit (by rw [hnext])
          | some kv =>
            cases kv with
            | mk k v =>
              dsimp only
              exact ih _ (migrate_R h hh1 hit hnext)

theorem rehashStep_R {K V : Type} [DecidableEq K] {m : List (K × V)} {d : Dict K V}
    (h : DictR d m) : DictR d.rehashStep m := by
  unfold Dict.rehashStep
  by_cases hr : d.isRehashing
  · rw [if_pos hr]
    cases d.ht1 with
    | none => exact h
    | some h1 =>
      cases d.rehashIter with
      | none => exact h
      | some it => exact rehashStepGo_R _ _ h
  · rw [if_neg hr]
    exact h

theorem startRehash_R {K V : Type} [DecidableEq K] {m : List (K × V)} {d : Dict K V}
    (h : DictR d m) : DictR d.startRehash m := by
  unfold Dict.startRehash
  by_cases hr : d.isRehashing
  · rw [if_pos hr]
    exact h
  · rw [if_neg hr]
    obtain ⟨⟨hn0, _, hsyncI, _, _⟩, hnm, hperm⟩ := h
    have hh1 : d.ht1 = none := by
      unfold Dict.isRehashing at hr
      cases hc : d.ht1 with
      | none => rfl
      | some t1 =>
        rw [hc] at hsyncI
        simp only [Option.isSome_some, iff_true] at hsyncI
        exact absurd (by simpa using hsyncI) (by simpa using hr)
    refine ⟨⟨hn0, ?_, by simp, by simp, ?_⟩, hnm, ?_⟩
    · unfold optAllP
      exact ⟨by simp [NodupK, keysL], by simp [keysL]⟩
    · unfold optAllP
      intro k hk
      exact hk
    · show List.Perm (d.ht0 ++ (some ([] : List (K × V))).getD []) m
      unfold DictAbs at hperm
      rw [hh1] at hperm
      simpa using hperm

theorem rehashGuard_eq {K V : Type} [DecidableEq K] {d : Dict K V} (hwf : DictWF d) :
    (if d.isRehashing then d.ht1 else none) = d.ht1 := by
  by_cases hr : d.isRehashing
  · rw [if_pos hr]
  · rw [if_neg hr]
    obtain ⟨_, _, hsyncI, _, _⟩ := hwf
    unfold Dict.isRehashing at hr
    cases hc : d.ht1 with
    | none => rfl
    | some t1 =>
      rw [hc] at hsyncI
      simp only [Option.isSome_some, iff_true] at hsyncI
      exact absurd (by simpa using hsyncI) (by simpa using hr)

theorem eraseA_perm {K V : Type} [DecidableEq K] {l1 l2 : List (K × V)} {k : K}
    (h : List.Perm l1 l2) : List.Perm (eraseA l1 k) (eraseA l2 k) :=
  h.filter _

theorem keysL_perm {K V : Type} {l1 l2 : List (K × V)}
    (h : List.Perm l1 l2) : List.Perm (keysL l1) (keysL l2) :=
  h.map _

/-- Under disjoint key sets, looking the second table up first (as the code
does during rehash) agrees with the append lookup. -/
theorem lookupA_append_comm {K V : Type} [DecidableEq K] {l1 l2 : List (K × V)} {k : K}
    (hdisj : ∀ k2 ∈ keysL l1, k2 ∉ keysL l2) :
    lookupA (l1 ++ l2) k = match lookupA l2 k with
      | some v => some v
      | none => lookupA l1 k := by
  rw [lookupA_append]
  cases h1 : lookupA l1 k with
  | none => cases lookupA l2 k <;> rfl
  | some v1 =>
    cases h2 : lookupA l2 k with
    | none => rfl
    | some v2 =>
      exfalso
      have hk1 : k ∈ keysL l1 := lookupA_isSome_iff.1 (by rw [h1]; rfl)
      have hk2 : k ∈ keysL l2 := lookupA_isSome_iff.1 (by rw [h2]; rfl)
      exact hdisj k hk1 hk2

theorem Dict.get_spec {K V : Type} [DecidableEq K] {d : Dict K V} {m : List (K × V)} (k : K)
    (h : DictR d m) : (d.get k).1 = lookupA m k ∧ DictR (d.get k).2 m := by
  have hR1 : DictR d.rehashStep m := rehashStep_R h
  unfold Dict.get
  dsimp only
  rw [rehashGuard_eq hR1.1]
  have habs := hR1.lookupAbs k
  unfold DictAbs at habs
  cases hh1 : d.rehashStep.ht1 with
  | none =>
    rw [hh1] at habs
    simp only [Option.getD_none, List.append_nil] at habs
    dsimp only
    exact ⟨habs, hR1⟩
  | some h1 =>
    rw [hh1] at habs
    simp only [Option.getD_some] at habs
    have hdisj : ∀ k2 ∈ keysL d.rehashStep.ht0, k2 ∉ keysL h1 := by
      have := hR1.1.2.1
      rw [hh1] at this
      exact this.2
    rw [lookupA_append_comm hdisj] at habs
    dsimp only
    cases h2 : lookupA h1 k with
    | some v =>
      rw [h2] at habs
      dsimp only
      exact ⟨habs, hR1⟩
    | none =>
      rw [h2] at habs
      dsimp only
      exact ⟨habs, hR1⟩

theorem Dict.has_spec {K V : Type} [DecidableEq K] {d : Dict K V} {m : List (K × V)} (k : K)
    (h : DictR d m) : (d.has k).1 = (lookupA m k).isSome ∧ DictR (d.has k).2 m := by
  have hR1 : DictR d.rehashStep m := rehashStep_R h
  unfold Dict.has
  dsimp only
  rw [rehashGuard_eq hR1.1]
  have habs := hR1.lookupAbs k
  unfold DictAbs at habs
  cases hh1 : d.rehashStep.ht1 with
  | none =>
    rw [hh1] at habs
    simp only [Option.getD_none, List.append_nil] at habs
    dsimp only
    exact ⟨by rw [habs], hR1⟩
  | some h1 =>
    rw [hh1] at habs
    simp only [Option.getD_some] at habs
    have hdisj : ∀ k2 ∈ keysL d.rehashStep.ht0, k2 ∉ keysL h1 := by
      have := hR1.1.2.1
      rw [hh1] at this
      exact this.2
    rw [lookupA_append_comm hdisj] at habs
    dsimp only
    cases h2e : lookupA h1 k with
    | some v =>
      rw [h2e] at habs
      dsimp only at habs ⊢
      exact ⟨by rw [← habs]; simp, hR1⟩
    | none =>
      rw [h2e] at habs
      dsimp only at habs ⊢
      exact ⟨by simp [habs], hR1⟩

theorem Dict.size_spec {K V : Type} [DecidableEq K] {d : Dict K V} {m : List (K × V)}
    (h : DictR d m) : d.size = m.length := by
  unfold Dict.size
  rw [rehashGuard_eq h.1]
  have hlen : (DictAbs d).length = m.length := h.2.2.length_eq
  unfold DictAbs at hlen
  cases hh1 : d.ht1 with
  | none =>
    rw [hh1] at hlen
    simpa using hlen
  | some h1 =>
    rw [hh1] at hlen
    simpa using hlen

theorem Dict.keysD_spec {K V : Type} [DecidableEq K] {d : Dict K V} {m : List (K × V)}
    (h : DictR d m) : List.Perm (d.keysD).1 (keysL m) ∧ DictR (d.keysD).2 m := by
  have hR1 : DictR d.rehashStep m := rehashStep_R h
  unfold Dict.keysD
  dsimp only
  rw [rehashGuard_eq hR1.1]
  have hkp : List.Perm (keysL (DictAbs d.rehashStep)) (keysL m) := keysL_perm hR1.2.2
  unfold DictAbs at hkp
  cases hh1 : d.rehashStep.ht1 with
  | none =>
    rw [hh1] at hkp
    simp only [Option.getD_none, List.append_nil] at hkp
    dsimp only
    exact ⟨hkp, hR1⟩
  | some h1 =>
    rw [hh1] at hkp
    simp only [Option.getD_some] at hkp
    rw [keysL_append] at hkp
    dsimp only
    exact ⟨hkp, hR1⟩

theorem Dict.delete_spec {K V : Type} [DecidableEq K] {d : Dict K V} {m : List (K × V)} (k : K)
    (h : DictR d m) :
    (d.delete k).1 = (lookupA m k).isSome ∧ DictR (d.delete k).2 (eraseA m k) := by
  have hR1 : DictR d.rehashStep m := rehashStep_R h
  obtain ⟨⟨hn0, hwf1, hsyncI, hsyncIt, hcover⟩, hnm, hperm⟩ := hR1
  unfold Dict.delete
  dsimp only
  rw [rehashGuard_eq ⟨hn0, hwf1, hsyncI, hsyncIt, hcover⟩]
  have habs := lookupA_perm hperm (DictWF.nodupAbs ⟨hn0, hwf1, hsyncI, hsyncIt, hcover⟩) k
  unfold DictAbs at habs
  cases hh1 : d.rehashStep.ht1 with
  | none =>
    rw [hh1] at habs
    simp only [Option.getD_none, List.append_nil] at habs
    dsimp only
    constructor
    · rw [← habs]
      simp
    · refine ⟨⟨NodupK_eraseA hn0, ?_, by simpa [hh1] using hsyncI,
        by simpa [hh1] using hsyncIt, ?_⟩, NodupK_eraseA hnm, ?_⟩
      · rw [hh1]
        trivial
      · cases hhit : d.rehashStep.rehashIter with
        | none => trivial
        | some it =>
          unfold optAllP
          rw [hhit] at hcover
          unfold optAllP at hcover
          intro k2 hk2
          rw [keysL_eraseA, List.mem_filter] at hk2
          exact hcover k2 hk2.1
      · show List.Perm (eraseA d.rehashStep.ht0 k ++ (d.rehashStep.ht1.getD [])) (eraseA m k)
        rw [hh1]
        simp only [Option.getD_none, List.append_nil]
        apply eraseA_perm
        unfold DictAbs at hperm
        rw [hh1] at hperm
        simpa using hperm
  | some h1 =>
    rw [hh1] at habs
    simp only [Option.getD_some] at habs
    rw [hh1] at hwf1
    unfold optAllP at hwf1
    dsimp only
    constructor
    · rw [← habs, lookupA_append]
      cases hl0 : lookupA d.rehashStep.ht0 k <;> cases hl1 : lookupA h1 k <;>
        simp [hl0, hl1]
    · refine ⟨⟨NodupK_eraseA hn0, ?_, by simpa [hh1] using hsyncI,
        by simpa [hh1] using hsyncIt, ?_⟩, NodupK_eraseA hnm, ?_⟩
      · unfold optAllP
        refine ⟨NodupK_eraseA hwf1.1, ?_⟩
        intro k2 hk2
        rw [keysL_eraseA, List.mem_filter] at hk2
        rw [keysL_eraseA, List.mem_filter]
        rintro ⟨hc, _⟩
        exact hwf1.2 k2 hk2.1 hc
      · cases hhit : d.rehashStep.rehashIter with
        | none => trivial
        | some it =>
          unfold optAllP
          rw [hhit] at hcover
          unfold optAllP at hcover
          intro k2 hk2
          rw [keysL_eraseA, List.mem_filter] at hk2
          exact hcover k2 hk2.1
      · show List.Perm (eraseA d.rehashStep.ht0 k ++ ((some (eraseA h1 k)).getD []))
          (eraseA m k)
        simp only [Option.getD_some]
        rw [← eraseA_append]
        apply eraseA_perm
        unfold DictAbs at hperm
        rw [hh1] at hperm
        simpa using hperm

theorem Dict.set_spec {K V : Type} [DecidableEq K] {d : Dict K V} {m : List (K × V)}
    (k : K) (v : V) (h : DictR d m) : DictR (d.set k v) (setA m k v) := by
  have hR1 : DictR d.rehashStep m := rehashStep_R h
  obtain ⟨⟨hn0, hwf1, hsyncI, hsyncIt, hcover⟩, hnm, hperm⟩ := hR1
  have hnm2 : NodupK (setA m k v) := NodupK_setA hnm
  have hm2 : List.Perm (setA m k v) ((k, v) :: eraseA m k) := setA_perm hnm
  unfold Dict.set
  dsimp only
  rw [rehashGuard_eq ⟨hn0, hwf1, hsyncI, hsyncIt, hcover⟩]
  cases hh1 : d.rehashStep.ht1 with
  | some h1 =>
    rw [hh1] at hwf1
    unfold optAllP at hwf1
    have hperm0 : List.Perm (d.rehashStep.ht0 ++ h1) m := by
      unfold DictAbs at hperm
      rw [hh1] at hperm
      simpa using hperm
    have hiter : d.rehashStep.rehashIter.isSome := by
      rw [← hsyncIt, hh1]
      rfl
    dsimp only
    by_cases hk0 : (lookupA d.rehashStep.ht0 k).isSome
    · rw [if_pos hk0]
      have hkm0 : k ∈ keysL d.rehashStep.ht0 := lookupA_isSome_iff.1 hk0
      have hknot1 : k ∉ keysL h1 := hwf1.2 k hkm0
      have hsetA : setA h1 k v = h1 ++ [(k, v)] :=
        setA_absent (lookupA_eq_none_iff.2 hknot1)
      refine ⟨⟨NodupK_eraseA hn0, ?_, ?_, ?_, ?_⟩, hnm2, ?_⟩
      · unfold optAllP
        refine ⟨NodupK_setA hwf1.1, ?_⟩
        intro k2 hk2
        rw [keysL_eraseA, List.mem_filter] at hk2
        have hk2ne : k2 ≠ k := by simpa using hk2.2
        rw [keysL_setA, if_neg (by rw [lookupA_eq_none_iff.2 hknot1]; simp)]
        simp only [List.mem_append, List.mem_singleton]
        rintro (hc | hc)
        · exact hwf1.2 k2 hk2.1 hc
        · exact hk2ne hc
      · rw [hh1] at hsyncI
        simpa using hsyncI
      · rw [hh1] at hsyncIt
        simpa using hsyncIt
      · cases hhit : d.rehashStep.rehashIter with
        | none => trivial
        | some it =>
          unfold optAllP
          rw [hhit] at hcover
          unfold optAllP at hcover
          intro k2 hk2
          rw [keysL_eraseA, List.mem_filter] at hk2
          exact hcover k2 hk2.1
      · show List.Perm (eraseA d.rehashStep.ht0 k ++ (some (setA h1 k v)).getD [])
          (setA m k v)
        simp only [Option.getD_some]
        rw [hsetA]
        have herase1 : eraseA h1 k = h1 := eraseA_eq_self hknot1
        have step1 : List.Perm (eraseA d.rehashStep.ht0 k ++ (h1 ++ [(k, v)]))
            ((k, v) :: (eraseA d.rehashStep.ht0 k ++ h1)) := by
          rw [← List.append_assoc]
          exact List.perm_append_singleton _ _
        have step2 : List.Perm (eraseA d.rehashStep.ht0 k ++ h1) (eraseA m k) := by
          have := eraseA_perm (k := k) hperm0
          rw [eraseA_append, herase1] at this
          exact this
        exact step1.trans ((step2.cons (k, v)).trans hm2.symm)
    · rw [if_neg hk0]
      have hknot0 : k ∉ keysL d.rehashStep.ht0 := by
        rw [← lookupA_isSome_iff]
        exact hk0
      refine ⟨⟨hn0, ?_, ?_, ?_, ?_⟩, hnm2, ?_⟩
      · unfold optAllP
        refine ⟨NodupK_setA hwf1.1, ?_⟩
        intro k2 hk2
        rw [keysL_setA]
        have hk2ne : k2 ≠ k := fun he => hknot0 (he ▸ hk2)
        by_cases hc : (lookupA h1 k).isSome
        · rw [if_pos hc]
          exact hwf1.2 k2 hk2
        · rw [if_neg hc]
          simp only [List.mem_append, List.mem_singleton]
          rintro (hd | hd)
          · exact hwf1.2 k2 hk2 hd
          · exact hk2ne hd
      · rw [hh1] at hsyncI
        simpa using hsyncI
      · rw [hh1] at hsyncIt
        simpa using hsyncIt
      · cases hhit : d.rehashStep.rehashIter with
        | none => trivial
        | some it =>
          unfold optAllP
          rw [hhit] at hcover
          unfold optAllP at hcover
          intro k2 hk2
          exact hcover k2 hk2
      · show List.Perm (d.rehashStep.ht0 ++ (some (setA h1 k v)).getD []) (setA m k v)
        simp only [Option.getD_some]
        have step1 : List.Perm (d.rehashStep.ht0 ++ setA h1 k v)
            (d.rehashStep.ht0 ++ ((k, v) :: eraseA h1 k)) :=
          (setA_perm hwf1.1).append_left _
        have step2 : List.Perm (d.rehashStep.ht0 ++ ((k, v) :: eraseA h1 k))
            ((k, v) :: (d.rehashStep.ht0 ++ eraseA h1 k)) := List.perm_middle
        have step3 : List.Perm (d.rehashStep.ht0 ++ eraseA h1 k) (eraseA m k) := by
          have := eraseA_perm (k := k) hperm0
          rw [eraseA_append, eraseA_eq_self hknot0] at this
          exact this
        exact (step1.trans step2).trans ((step3.cons (k, v)).trans hm2.symm)
  | none =>
    have hiter : d.rehashStep.rehashIter = none := by
      cases hc : d.rehashStep.rehashIter with
      | none => rfl
      | some it =>
        rw [hh1, hc] at hsyncIt
        simp at hsyncIt
    have hperm0 : List.Perm d.rehashStep.ht0 m := by
      unfold DictAbs at hperm
      rw [hh1] at hperm
      simpa using hperm
    have hR2 : DictR { ht0 := setA d.rehashStep.ht0 k v, ht1 := none,
                       rehashidx := d.rehashStep.rehashidx,
                       rehashStepSize := d.rehashStep.rehashStepSize,
                       rehashIter := d.rehashStep.rehashIter } (setA m k v) := by
      refine ⟨⟨NodupK_setA hn0, trivial, by simpa [hh1] using hsyncI,
        by simp [hiter], by rw [hiter]; trivial⟩, hnm2, ?_⟩
      unfold DictAbs
      dsimp only
      simp only [Option.getD_none, List.append_nil]
      have step1 : List.Perm (setA d.rehashStep.ht0 k v)
          ((k, v) :: eraseA d.rehashStep.ht0 k) := setA_perm hn0
      have step2 : List.Perm (eraseA d.rehashStep.ht0 k) (eraseA m k) :=
        eraseA_perm hperm0
      exact step1.trans ((step2.cons (k, v)).trans hm2.symm)
    dsimp only
    split
    · exact startRehash_R hR2
    · exact hR2

/-- The plain-map analogue of mutating the value stored under `k` through
its alias. -/
def mapAtA {K V : Type} [DecidableEq K] (m : List (K × V)) (k : K) (f : V → V) :
    List (K × V) :=
  m.map (fun p => if p.1 = k then (k, f p.2) else p)

theorem keysL_mapAtA {K V : Type} [DecidableEq K] {m : List (K × V)} {k : K} {f : V → V} :
    keysL (mapAtA m k f) = keysL m := by
  unfold mapAtA keysL
  rw [List.map_map]
  apply List.map_congr_left
  intro p _
  by_cases hp : p.1 = k <;> simp [hp]

theorem NodupK_mapAtA {K V : Type} [DecidableEq K] {m : List (K × V)} {k : K} {f : V → V}
    (h : NodupK m) : NodupK (mapAtA m k f) := by
  unfold NodupK
  rw [keysL_mapAtA]
  exact h

theorem lookupA_mapAtA_self {K V : Type} [DecidableEq K] {m : List (K × V)} {k : K}
    {f : V → V} : lookupA (mapAtA m k f) k = (lookupA m k).map f := by
  induction m with
  | nil => rfl
  | cons p t ih =>
    by_cases hp : p.1 = k <;> simp [mapAtA, lookupA_cons, hp] at ih ⊢ <;> exact ih

theorem lookupA_mapAtA_other {K V : Type} [DecidableEq K] {m : List (K × V)} {k k2 : K}
    {f : V → V} (hne : k2 ≠ k) : lookupA (mapAtA m k f) k2 = lookupA m k2 := by
  induction m with
  | nil => rfl
  | cons p t ih =>
    unfold mapAtA at ih ⊢
    rw [List.map_cons, lookupA_cons, lookupA_cons]
    by_cases hp : p.1 = k
    · rw [if_pos hp]
      have hcond : ¬ ((k, f p.2).1 = k2) := by
        intro he
        exact hne (by simpa using he.symm)
      rw [if_neg hcond, if_neg (by rw [hp]; exact fun he => hne he.symm)]
      exact ih
    · rw [if_neg hp]
      by_cases hp2 : p.1 = k2
      · rw [if_pos hp2, if_pos hp2]
      · rw [if_neg hp2, if_neg hp2]
        exact ih

theorem mapAtA_def {K V : Type} [DecidableEq K] (l : List (K × V)) (k : K) (f : V → V) :
    l.map (fun p => if p.1 = k then (k, f p.2) else p) = mapAtA l k f := rfl

theorem mapAtA_perm {K V : Type} [DecidableEq K] {m1 m2 : List (K × V)} {k : K} {f : V → V}
    (h : List.Perm m1 m2) : List.Perm (mapAtA m1 k f) (mapAtA m2 k f) :=
  h.map _

theorem Dict.updateInPlace_spec {K V : Type} [DecidableEq K] {d : Dict K V}
    {m : List (K × V)} (k : K) (f : V → V) (h : DictR d m) :
    DictR (d.updateInPlace k f) (mapAtA m k f) := by
  obtain ⟨⟨hn0, hwf1, hsyncI, hsyncIt, hcover⟩, hnm, hperm⟩ := h
  unfold Dict.updateInPlace
  simp only [mapAtA_def]
  refine ⟨⟨?_, ?_, by simpa using hsyncI, by simpa using hsyncIt, ?_⟩,
    NodupK_mapAtA hnm, ?_⟩
  · exact NodupK_mapAtA hn0
  · cases hh1 : d.ht1 with
    | none => trivial
    | some h1 =>
      rw [hh1] at hwf1
      unfold optAllP at hwf1 ⊢
      dsimp only
      constructor
      · exact NodupK_mapAtA hwf1.1
      · intro k2 hk2
        rw [keysL_mapAtA] at hk2
        rw [keysL_mapAtA]
        exact hwf1.2 k2 hk2
  · cases hhit : d.rehashIter with
    | none => trivial
    | some it =>
      rw [hhit] at hcover
      unfold optAllP at hcover ⊢
      intro k2 hk2
      rw [keysL_mapAtA] at hk2
      exact hcover k2 hk2
  · show List.Perm (DictAbs _) (mapAtA m k f)
    unfold DictAbs
    cases hh1 : d.ht1 with
    | none =>
      dsimp only
      simp only [Option.map_none', Option.getD_none, List.append_nil]
      have hperm0 : List.Perm d.ht0 m := by
        unfold DictAbs at hperm
        rw [hh1] at hperm
        simpa using hperm
      exact mapAtA_perm hperm0
    | some h1 =>
      dsimp only
      simp only [Option.map_some', Option.getD_some]
      have hperm0 : List.Perm (d.ht0 ++ h1) m := by
        unfold DictAbs at hperm
        rw [hh1] at hperm
        simpa using hperm
      have happ : mapAtA d.ht0 k f ++ mapAtA h1 k f = mapAtA (d.ht0 ++ h1) k f := by
        unfold mapAtA
        simp
      rw [happ]
      exact mapAtA_perm hperm0

/-! ## The Dictionary operation traces (claim C9) -/

inductive DOp (K V : Type)
  | set (k : K) (v : V)
  | get (k : K)
  | del (k : K)
  | has (k : K)
  | keys
  | size
deriving DecidableEq

inductive DOut (K V : Type)
  | unitO
  | valO (o : Option V)
  | boolO (b : Bool)
  | keysO (l : List K)
  | natO (n : Nat)
deriving DecidableEq

def Dict.runOp {K V : Type} [DecidableEq K] (d : Dict K V) : DOp K V → DOut K V × Dict K V
  | DOp.set k v => (DOut.unitO, d.set k v)
  | DOp.get k => ((d.get k).map DOut.valO id : DOut K V × Dict K V)
  | DOp.del k => ((d.delete k).map DOut.boolO id : DOut K V × Dict K V)
  | DOp.has k => ((d.has k).map DOut.boolO id : DOut K V × Dict K V)
  | DOp.keys => ((d.keysD).map DOut.keysO id : DOut K V × Dict K V)
  | DOp.size => (DOut.natO d.size, d)

def Dict.runOps {K V : Type} [DecidableEq K] (d : Dict K V) :
    List (DOp K V) → List (DOut K V) × Dict K V
  | [] => ([], d)
  | op :: rest =>
    let od := d.runOp op
    let rec2 := od.2.runOps rest
    (od.1 :: rec2.1, rec2.2)

/-- The same operations on one ordinary insertion-ordered key → value map
(the specification side of the refinement). -/
def plainRunOp {K V : Type} [DecidableEq K] (m : List (K × V)) :
    DOp K V → DOut K V × List (K × V)
  | DOp.set k v => (DOut.unitO, setA m k v)
  | DOp.get k => (DOut.valO (lookupA m k), m)
  | DOp.del k => (DOut.boolO (lookupA m k).isSome, eraseA m k)
  | DOp.has k => (DOut.boolO (lookupA m k).isSome, m)
  | DOp.keys => (DOut.keysO (keysL m), m)
  | DOp.size => (DOut.natO m.length, m)

def plainRunOps {K V : Type} [DecidableEq K] (m : List (K × V)) :
    List (DOp K V) → List (DOut K V) × List (K × V)
  | [] => ([], m)
  | op :: rest =>
    let om := plainRunOp m op
    let rec2 := plainRunOps om.2 rest
    (om.1 :: rec2.1, rec2.2)

/-- Output correspondence: `keys` results agree up to order, everything else
is equal on the nose. -/
def outRel {K V : Type} (a b : DOut K V) : Prop :=
  match a, b with
  | DOut.keysO l1, DOut.keysO l2 => List.Perm l1 l2
  | o1, o2 => o1 = o2

theorem runOps_R {K V : Type} [DecidableEq K] :
    ∀ (ops : List (DOp K V)) (d : Dict K V) (m : List (K × V)), DictR d m →
      List.Forall₂ outRel (d.runOps ops).1 (plainRunOps m ops).1 ∧
        DictR (d.runOps ops).2 (plainRunOps m ops).2 := by
  intro ops
  induction ops with
  | nil =>
    intro d m h
    exact ⟨List.Forall₂.nil, h⟩
  | cons op rest ih =>
    intro d m h
    rw [Dict.runOps, plainRunOps]
    cases op with
    | set k v =>
      have := ih (d.set k v) (setA m k v) (Dict.set_spec k v h)
      exact ⟨List.Forall₂.cons rfl this.1, this.2⟩
    | get k =>
      obtain ⟨ho, hR⟩ := Dict.get_spec k h
      have := ih _ _ hR
      refine ⟨List.Forall₂.cons ?_ this.1, this.2⟩
      show outRel (DOut.valO (d.get k).1) (DOut.valO (lookupA m k))
      unfold outRel
      rw [ho]
    | del k =>
      obtain ⟨ho, hR⟩ := Dict.delete_spec k h
      have := ih _ _ hR
      refine ⟨List.Forall₂.cons ?_ this.1, this.2⟩
      show outRel (DOut.boolO (d.delete k).1) (DOut.boolO (lookupA m k).isSome)
      unfold outRel
      rw [ho]
    | has k =>
      obtain ⟨ho, hR⟩ := Dict.has_spec k h
      have := ih _ _ hR
      refine ⟨List.Forall₂.cons ?_ this.1, this.2⟩
      show outRel (DOut.boolO (d.has k).1) (DOut.boolO (lookupA m k).isSome)
      unfold outRel
      rw [ho]
    | keys =>
      obtain ⟨ho, hR⟩ := Dict.keysD_spec h
      have := ih _ _ hR
      refine ⟨List.Forall₂.cons ?_ this.1, this.2⟩
      show outRel (DOut.keysO (d.keysD).1) (DOut.keysO (keysL m))
      unfold outRel
      exact ho
    | size =>
      have hsz := Dict.size_spec h
      have := ih d m h
      refine ⟨List.Forall₂.cons ?_ this.1, this.2⟩
      show (DOut.natO d.size : DOut K V) = DOut.natO m.length
      rw [hsz]

theorem DictR_mk0 {K V : Type} [DecidableEq K] (stepSize : Nat) :
    DictR (Dict.mk0 K V stepSize) [] := by
  refine ⟨⟨?_, trivial, by simp [Dict.mk0], by simp [Dict.mk0], trivial⟩, ?_, ?_⟩
  · simp [Dict.mk0, NodupK, keysL]
  · simp [NodupK, keysL]
  · simp [Dict.mk0, DictAbs]

theorem runOps_append {K V : Type} [DecidableEq K] (l1 : List (DOp K V)) :
    ∀ (d : Dict K V) (l2 : List (DOp K V)),
      d.runOps (l1 ++ l2) =
        ((d.runOps l1).1 ++ ((d.runOps l1).2.runOps l2).1, ((d.runOps l1).2.runOps l2).2) := by
  induction l1 with
  | nil => intro d l2; rfl
  | cons op rest ih =>
    intro d l2
    rw [List.cons_append, Dict.runOps, Dict.runOps, ih]
    simp

theorem plainRunOps_append {K V : Type} [DecidableEq K] (l1 : List (DOp K V)) :
    ∀ (m : List (K × V)) (l2 : List (DOp K V)),
      plainRunOps m (l1 ++ l2) =
        ((plainRunOps m l1).1 ++ (plainRunOps (plainRunOps m l1).2 l2).1,
          (plainRunOps (plainRunOps m l1).2 l2).2) := by
  induction l1 with
  | nil => intro m l2; rfl
  | cons op rest ih =>
    intro m l2
    rw [List.cons_append, plainRunOps, plainRunOps, ih]
    simp

/-- While no rehash is active and the table stays within the 1000-entry
threshold, `Dictionary.set` is a plain map update. -/
theorem Dict.set_plainMode {K V : Type} [DecidableEq K] {d : Dict K V} {k : K} {v : V}
    (hh1 : d.ht1 = none) (hidx : d.rehashidx < 0)
    (hlen : (setA d.ht0 k v).length ≤ 1000) :
    d.set k v = { d with ht0 := setA d.ht0 k v } := by
  have hrh : d.isRehashing = false := by
    unfold Dict.isRehashing
    simp only [decide_eq_false_iff_not]
    omega
  have hstep : d.rehashStep = d := by
    unfold Dict.rehashStep
    rw [hrh]
    simp
  have hguard : (if d.isRehashing = true then d.ht1 else none) = none := by
    rw [hrh, hh1]
    simp
  simp only [Dict.set]
  rw [hstep, hguard]
  dsimp only
  have hcond : ¬ (1000 < (setA d.ht0 k v).length ∧
      ¬ ({ d with ht0 := setA d.ht0 k v } : Dict K V).isRehashing = true) := by
    intro hc
    exact absurd hc.1 (by omega)
  rw [if_neg hcond]

def natPairs (n : Nat) : List (Nat × Unit) :=
  (List.range n).map (fun j => (j, ()))

def plainD (l : List (Nat × Unit)) : Dict Nat Unit :=
  { ht0 := l, ht1 := none, rehashidx := -1, rehashStepSize := 1, rehashIter := none }

def c9setOps (n : Nat) : List (DOp Nat Unit) :=
  (List.range n).map (fun i => DOp.set i ())

theorem natPairs_succ (n : Nat) : natPairs (n + 1) = natPairs n ++ [(n, ())] := by
  unfold natPairs
  rw [List.range_succ, List.map_append]
  rfl

theorem length_natPairs (n : Nat) : (natPairs n).length = n := by
  unfold natPairs
  simp

theorem keysL_natPairs (n : Nat) : keysL (natPairs n) = List.range n := by
  unfold natPairs keysL
  rw [List.map_map]
  have hcomp : (Prod.fst ∘ fun j : Nat => (j, ())) = id := rfl
  rw [hcomp, List.map_id]

theorem lookupA_natPairs (n k : Nat) :
    lookupA (natPairs n) k = if k < n then some () else none := by
  induction n with
  | zero => simp [natPairs, lookupA]
  | succ n ih =>
    rw [natPairs_succ, lookupA_append, ih]
    by_cases h : k < n
    · simp [h, Nat.lt_succ_of_lt h]
    · by_cases h2 : n = k
      · subst h2
        simp [lookupA_cons, Nat.lt_irrefl, Nat.lt_succ_self]
      · have : ¬ k < n + 1 := by omega
        simp [h, h2, this, lookupA_cons, lookupA]

theorem c9setOps_succ (n : Nat) :
    c9setOps (n + 1) = c9setOps n ++ [DOp.set n ()] := by
  unfold c9setOps
  rw [List.range_succ, List.map_append]
  rfl

theorem dictRun_sets :
    ∀ n, n ≤ 1000 →
      (Dict.mk0 Nat Unit 1).runOps (c9setOps n) =
        (List.replicate n DOut.unitO, plainD (natPairs n)) := by
  intro n
  induction n with
  | zero => intro _; rfl
  | succ n ih =>
    intro hle
    rw [c9setOps_succ, runOps_append, ih (by omega)]
    have hset : (plainD (natPairs n)).set n () = plainD (natPairs (n + 1)) := by
      have hlk : lookupA (natPairs n) n = none := by
        rw [lookupA_natPairs]
        simp
      have hpm := Dict.set_plainMode (d := plainD (natPairs n)) (k := n) (v := ())
        rfl (by norm_num [plainD])
        (by show (setA (natPairs n) n ()).length ≤ 1000
            rw [setA_absent hlk, List.length_append, length_natPairs]
            simp only [List.length_singleton]
            omega)
      rw [hpm]
      show ({ plainD (natPairs n) with ht0 := setA (natPairs n) n () } : Dict Nat Unit) = _
      rw [setA_absent hlk, ← natPairs_succ]
      rfl
    dsimp only
    rw [Dict.runOps]
    dsimp only
    rw [Dict.runOp]
    rw [hset]
    rw [Dict.runOps]
    simp [List.replicate_succ']

theorem plainRun_sets :
    ∀ n, plainRunOps ([] : List (Nat × Unit)) (c9setOps n) =
      (List.replicate n DOut.unitO, natPairs n) := by
  intro n
  induction n with
  | zero => rfl
  | succ n ih =>
    rw [c9setOps_succ, plainRunOps_append, ih]
    have hlk : lookupA (natPairs n) n = none := by
      rw [lookupA_natPairs]
      simp
    dsimp only
    rw [plainRunOps]
    dsimp only
    rw [plainRunOp]
    rw [plainRunOps]
    rw [setA_absent hlk, ← natPairs_succ]
    simp [List.replicate_succ']

/-- When the insert pushes `ht0` beyond 1000 entries, `Dictionary.set`
starts an incremental rehash. -/
theorem Dict.set_triggerRehash {K V : Type} [DecidableEq K] {d : Dict K V} {k : K} {v : V}
    (hh1 : d.ht1 = none) (hidx : d.rehashidx < 0)
    (hlen : 1000 < (setA d.ht0 k v).length) :
    d.set k v = { ht0 := setA d.ht0 k v, ht1 := some [], rehashidx := 0,
                  rehashStepSize := d.rehashStepSize,
                  rehashIter := some (keysL (setA d.ht0 k v)) } := by
  have hrh : d.isRehashing = false := by
    unfold Dict.isRehashing
    simp only [decide_eq_false_iff_not]
    omega
  have hstep : d.rehashStep = d := by
    unfold Dict.rehashStep
    rw [hrh]
    rfl
  have hguard : (if d.isRehashing = true then d.ht1 else none) = none := by
    rw [hrh, hh1]
    simp
  simp only [Dict.set]
  rw [hstep, hguard]
  dsimp only
  have hcond : (1000 < (setA d.ht0 k v).length ∧
      ¬ ({ d with ht0 := setA d.ht0 k v } : Dict K V).isRehashing = true) := by
    refine ⟨hlen, ?_⟩
    show ¬ ({ d with ht0 := setA d.ht0 k v } : Dict K V).isRehashing = true
    unfold Dict.isRehashing
    simp only [decide_eq_true_eq]
    show ¬ (0 ≤ d.rehashidx)
    omega
  rw [if_pos hcond]
  unfold Dict.startRehash
  rw [if_neg (by
    unfold Dict.isRehashing
    simp only [decide_eq_true_eq]
    show ¬ (0 ≤ d.rehashidx)
    omega)]

/-- The dictionary state right after the 1001st insert: the rehash has just
started. -/
def dictA : Dict Nat Unit :=
  { ht0 := natPairs 1001, ht1 := some [], rehashidx := 0, rehashStepSize := 1,
    rehashIter := some (List.range 1001) }

theorem dictRun_1001 :
    (Dict.mk0 Nat Unit 1).runOps (c9setOps 1001) =
      (List.replicate 1001 DOut.unitO, dictA) := by
  have h1000 := dictRun_sets 1000 (by omega)
  rw [show (1001 : Nat) = 1000 + 1 from rfl, c9setOps_succ, runOps_append, h1000]
  have hlk : lookupA (natPairs 1000) 1000 = none := by
    rw [lookupA_natPairs]
    simp
  have hset : (plainD (natPairs 1000)).set 1000 () = dictA := by
    rw [Dict.set_triggerRehash rfl (by show (-1 : Int) < 0; norm_num)
        (by show 1000 < (setA (natPairs 1000) 1000 ()).length
            rw [setA_absent hlk, List.length_append, length_natPairs]
            simp)]
    have hsetA : setA (plainD (natPairs 1000)).ht0 1000 () = natPairs 1001 := by
      show setA (natPairs 1000) 1000 () = natPairs 1001
      rw [setA_absent hlk, ← natPairs_succ]
    rw [hsetA, keysL_natPairs]
    rfl
  dsimp only
  rw [Dict.runOps]
  dsimp only
  rw [Dict.runOp]
  rw [hset]
  rw [Dict.runOps]
  dsimp only
  have hrep : List.replicate (1000 + 1) (DOut.unitO : DOut Nat Unit) =
      List.replicate 1000 (DOut.unitO : DOut Nat Unit) ++ [DOut.unitO] := by
    rw [List.replicate_succ']
  rw [hrep]

/-- The operation sequence that distinguishes the Dictionary from a plain
map: 1002 inserts of fresh keys (pushing `ht0` past the 1000-entry rehash
threshold) followed by `keys()`. -/
def c9ops : List (DOp Nat Unit) :=
  c9setOps 1001 ++ [DOp.set 1001 (), DOp.keys]

set_option maxRecDepth 100000 in
theorem c9_tail_ne :
    ((dictA.runOps [DOp.set 1001 (), DOp.keys]).1 =
      (plainRunOps (natPairs 1001) [DOp.set 1001 (), DOp.keys]).1) → False := by
  decide

/-- Claim C9, counterexample: the incremental-rehash Dictionary is *not*
observationally equal to a single ordinary map on every sequence — after
1002 inserts (which start an incremental rehash at the 1001st), `keys()`
returns the migrated order `[2, …, 1000, 0, 1001, 1]` instead of the plain
map's insertion order `[0, 1, …, 1001]`. -/
theorem c9_dictionary_counterexample :
    ¬ ((Dict.mk0 Nat Unit 1).runOps c9ops).1 = (plainRunOps [] c9ops).1 := by
  intro h
  rw [c9ops, runOps_append, plainRunOps_append, dictRun_1001, plainRun_sets] at h
  dsimp only at h
  exact c9_tail_ne (List.append_cancel_left h)

/-- Claim C9 (amended): for every sequence of `set`, `get`, `delete`, `has`,
`keys`, and `size` calls, in any rehash state, every call returns exactly
the result the same sequence would produce on one ordinary key → value map —
except `keys`, which returns the same key set up to order; in particular
`size` always equals the number of distinct live keys. -/
theorem c9_dictionary_refinement {K V : Type} [DecidableEq K] (stepSize : Nat)
    (ops : List (DOp K V)) :
    List.Forall₂ outRel ((Dict.mk0 K V stepSize).runOps ops).1
      (plainRunOps ([] : List (K × V)) ops).1 :=
  (runOps_R ops (Dict.mk0 K V stepSize) [] (DictR_mk0 stepSize)).1

/-! ## Cache-level well-formedness and observation -/

/-- Observable store content: the live key → entry map of the dictionary. -/
def storeLook (c : Cache) (k : String) : Option CacheEntry :=
  lookupA (DictAbs c.store) k

/-- TTL record of a key. -/
def ttlLook (c : Cache) (k : String) : Option Int :=
  lookupA c.ttl.expirations k

/-- Usage metadata of a key. -/
def usageLook (c : Cache) (k : String) : Option UsageMeta :=
  lookupA c.usage k

/-- Cache well-formedness: the dictionary invariant plus no duplicate keys in
the TTL and usage maps. -/
def CacheWF (c : Cache) : Prop :=
  DictWF c.store ∧ NodupK c.ttl.expirations ∧ NodupK c.usage

instance CacheWF.dec (c : Cache) : Decidable (CacheWF c) := by
  unfold CacheWF
  infer_instance

theorem storeLook_def (c : Cache) (k : String) :
    storeLook c k = lookupA (DictAbs c.store) k := rfl

theorem ttlLook_def (c : Cache) (k : String) :
    ttlLook c k = lookupA c.ttl.expirations k := rfl

theorem usageLook_def (c : Cache) (k : String) :
    usageLook c k = lookupA c.usage k := rfl

theorem DictR_self {K V : Type} [DecidableEq K] {d : Dict K V} (h : DictWF d) :
    DictR d (DictAbs d) :=
  ⟨h, h.nodupAbs, List.Perm.refl _⟩

/-- `store.get` through the abstraction. -/
theorem dget_look {d : Dict String CacheEntry} (k : String) (hwf : DictWF d) :
    (d.get k).1 = lookupA (DictAbs d) k ∧ DictWF (d.get k).2 ∧
      (∀ k2, lookupA (DictAbs (d.get k).2) k2 = lookupA (DictAbs d) k2) ∧
      (d.get k).2.size = d.size := by
  obtain ⟨h1, h2⟩ := Dict.get_spec k (DictR_self hwf)
  refine ⟨h1, h2.1, fun k2 => h2.lookupAbs k2, ?_⟩
  rw [Dict.size_spec h2, Dict.size_spec (DictR_self hwf)]

/-- `store.has` through the abstraction. -/
theorem dhas_look {d : Dict String CacheEntry} (k : String) (hwf : DictWF d) :
    (d.has k).1 = (lookupA (DictAbs d) k).isSome ∧ DictWF (d.has k).2 ∧
      (∀ k2, lookupA (DictAbs (d.has k).2) k2 = lookupA (DictAbs d) k2) ∧
      (d.has k).2.size = d.size := by
  obtain ⟨h1, h2⟩ := Dict.has_spec k (DictR_self hwf)
  refine ⟨h1, h2.1, fun k2 => h2.lookupAbs k2, ?_⟩
  rw [Dict.size_spec h2, Dict.size_spec (DictR_self hwf)]

/-- `store.delete` through the abstraction. -/
theorem ddelete_look {d : Dict String CacheEntry} (k : String) (hwf : DictWF d) :
    DictWF (d.delete k).2 ∧
      (∀ k2, lookupA (DictAbs (d.delete k).2) k2 =
        if k2 = k then none else lookupA (DictAbs d) k2) := by
  obtain ⟨_, h2⟩ := Dict.delete_spec k (DictR_self hwf)
  refine ⟨h2.1, fun k2 => ?_⟩
  rw [h2.lookupAbs k2, lookupA_eraseA]

/-- `store.set` through the abstraction. -/
theorem dset_look {d : Dict String CacheEntry} (k : String) (v : CacheEntry)
    (hwf : DictWF d) :
    DictWF (d.set k v) ∧
      (∀ k2, lookupA (DictAbs (d.set k v)) k2 =
        if k2 = k then some v else lookupA (DictAbs d) k2) := by
  have h2 := Dict.set_spec k v (DictR_self hwf)
  refine ⟨h2.1, fun k2 => ?_⟩
  rw [h2.lookupAbs k2]
  by_cases he : k2 = k
  · rw [if_pos he, he, lookupA_setA_self hwf.nodupAbs]
  · rw [if_neg he, lookupA_setA_other hwf.nodupAbs he]

/-- In-place entry mutation through the abstraction. -/
theorem dupd_look {d : Dict String CacheEntry} (k : String) (f : CacheEntry → CacheEntry)
    (hwf : DictWF d) :
    DictWF (d.updateInPlace k f) ∧
      (∀ k2, lookupA (DictAbs (d.updateInPlace k f)) k2 =
        if k2 = k then (lookupA (DictAbs d) k).map f else lookupA (DictAbs d) k2) := by
  have h2 := Dict.updateInPlace_spec k f (DictR_self hwf)
  refine ⟨h2.1, fun k2 => ?_⟩
  rw [h2.lookupAbs k2]
  by_cases he : k2 = k
  · rw [if_pos he, he, lookupA_mapAtA_self]
  · rw [if_neg he, lookupA_mapAtA_other he]

/-! ## `_deleteKey` and the lazy-purge callback -/

/-- Full effect of `_deleteKey`: the entry, TTL row, and usage metadata of
`k` are removed and nothing else (besides the memory counter) changes. -/
theorem deleteKey_spec (c : Cache) (k : String) (hwf : CacheWF c) :
    CacheWF (c.deleteKey k) ∧
      (∀ k2, storeLook (c.deleteKey k) k2 = if k2 = k then none else storeLook c k2) ∧
      (c.deleteKey k).ttl = { c.ttl with expirations := eraseA c.ttl.expirations k } ∧
      (c.deleteKey k).usage = eraseA c.usage k ∧
      (c.deleteKey k).stats = c.stats ∧
      (c.deleteKey k).operationCount = c.operationCount ∧
      (c.deleteKey k).maxmemory = c.maxmemory ∧
      (c.deleteKey k).evictionPolicy = c.evictionPolicy ∧
      (c.deleteKey k).evictionSampleSize = c.evictionSampleSize ∧
      (c.deleteKey k).evictionPool = c.evictionPool ∧
      (c.deleteKey k).rng = c.rng ∧
      (c.deleteKey k).activeExpirationSampleSize = c.activeExpirationSampleSize ∧
      (c.deleteKey k).activeExpirationMaxRounds = c.activeExpirationMaxRounds := by
  obtain ⟨hg1, hg2, hg3, hg4⟩ := dget_look (d := c.store) k hwf.1
  obtain ⟨hd1, hd2⟩ := ddelete_look (d := (c.store.get k).2) k hg2
  have hform : ∃ memv : Int, c.deleteKey k =
      { c with store := ((c.store.get k).2.delete k).2,
               currentMemoryUsed := memv,
               ttl := c.ttl.delete k,
               usage := eraseA c.usage k } := by
    simp only [Cache.deleteKey]
    cases (c.store.get k).1 with
    | none => exact ⟨c.currentMemoryUsed, rfl⟩
    | some en =>
      dsimp only
      by_cases ht : truthyNum en.memoryUsed
      · rw [if_pos ht]; exact ⟨c.currentMemoryUsed - en.memoryUsed.getD 0, rfl⟩
      · rw [if_neg ht]; exact ⟨c.currentMemoryUsed, rfl⟩
  obtain ⟨memv, hform⟩ := hform
  rw [hform]
  refine ⟨⟨hd1, NodupK_eraseA hwf.2.1, NodupK_eraseA hwf.2.2⟩, ?_, rfl, rfl, rfl, rfl,
    rfl, rfl, rfl, rfl, rfl, rfl, rfl⟩
  intro k2
  show lookupA (DictAbs ((c.store.get k).2.delete k).2) k2 = _
  rw [hd2 k2]
  by_cases he : k2 = k
  · rw [if_pos he, if_pos he]
  · rw [if_neg he, if_neg he, hg3 k2]; rfl

/-- Folding the constructor's `onExpire` callback over a list of flushed
keys deletes exactly those keys from the entry map, the TTL map, and the
usage map. -/
theorem purgeFold_spec (flushed : List String) (c : Cache) (hwf : CacheWF c) :
    CacheWF (flushed.foldl Cache.purgeCallback c) ∧
      (∀ k2, storeLook (flushed.foldl Cache.purgeCallback c) k2 =
        if k2 ∈ flushed then none else storeLook c k2) ∧
      (∀ k2, lookupA (flushed.foldl Cache.purgeCallback c).ttl.expirations k2 =
        if k2 ∈ flushed then none else lookupA c.ttl.expirations k2) ∧
      (∀ k2, lookupA (flushed.foldl Cache.purgeCallback c).usage k2 =
        if k2 ∈ flushed then none else lookupA c.usage k2) ∧
      (flushed.foldl Cache.purgeCallback c).operationCount = c.operationCount := by
  induction flushed generalizing c with
  | nil => exact ⟨hwf, fun k2 => by simp, fun k2 => by simp, fun k2 => by simp, rfl⟩
  | cons a t ih =>
    obtain ⟨hw, hst, httl, hus, hop⟩ := deleteKey_spec c a hwf
    have hw2 : CacheWF ((c.deleteKey a).bumpExpirations) := hw
    have step : t.foldl Cache.purgeCallback ((c.deleteKey a).bumpExpirations) =
        (a :: t).foldl Cache.purgeCallback c := rfl
    obtain ⟨ih1, ih2, ih3, ih4, ih5⟩ := ih ((c.deleteKey a).bumpExpirations) hw2
    rw [← step]
    refine ⟨ih1, fun k2 => ?_, fun k2 => ?_, fun k2 => ?_, ?_⟩
    · rw [ih2 k2]
      by_cases hm : k2 ∈ t
      · simp [hm]
      · rw [if_neg hm]
        have : storeLook ((c.deleteKey a).bumpExpirations) k2 = storeLook (c.deleteKey a) k2 := rfl
        rw [this, hst k2]
        by_cases ha : k2 = a
        · simp [ha]
        · simp [ha, hm]
    · rw [ih3 k2]
      by_cases hm : k2 ∈ t
      · simp [hm]
      · rw [if_neg hm]
        have h1 : ((c.deleteKey a).bumpExpirations).ttl = (c.deleteKey a).ttl := rfl
        rw [h1, httl]
        show lookupA (eraseA c.ttl.expirations a) k2 = _
        rw [lookupA_eraseA]
        by_cases ha : k2 = a
        · simp [ha]
        · simp [ha, hm]
    · rw [ih4 k2]
      by_cases hm : k2 ∈ t
      · simp [hm]
      · rw [if_neg hm]
        have h1 : ((c.deleteKey a).bumpExpirations).usage = (c.deleteKey a).usage := rfl
        rw [h1, hus]
        show lookupA (eraseA c.usage a) k2 = _
        rw [lookupA_eraseA]
        by_cases ha : k2 = a
        · simp [ha]
        · simp [ha, hm]
    · rw [ih5]; exact hop.2.1

/-- `visitKey` leaves the expirations map untouched. -/
theorem visitKey_expirations (t : TTLState) (k : String) (now : Int) (rest : List String) :
    (t.visitKey k now rest).1.expirations = t.expirations := by
  unfold TTLState.visitKey
  split <;> (dsimp only; split <;> rfl)

/-- The sampling loop leaves the expirations map untouched. -/
theorem sampleLoop_expirations (now : Int) (n : Nat) (t : TTLState) :
    ((TTLState.sampleLoop now n t).1).expirations = t.expirations := by
  induction n generalizing t with
  | zero => rfl
  | succ m ih =>
    unfold TTLState.sampleLoop
    cases h1 : ttlIterNext t.expirations (t.keyIterator.getD []) with
    | mk o rest =>
      cases o with
      | some k =>
        dsimp only
        rw [ih]
        exact visitKey_expirations t k now rest
      | none =>
        dsimp only
        cases h2 : ttlIterNext t.expirations (keysL t.expirations) with
        | mk o2 rest2 =>
          cases o2 with
          | none => rfl
          | some k =>
            dsimp only
            rw [ih]
            exact visitKey_expirations t k now rest2

/-- `sampleAndPurge` leaves the expirations map untouched (deletions are
only buffered; the flushed keys are deleted by the caller's callback). -/
theorem sampleAndPurge_expirations (t : TTLState) (n : Nat) (now : Int) :
    ((t.sampleAndPurge n now).2.1).expirations = t.expirations := by
  unfold TTLState.sampleAndPurge
  by_cases he : t.expirations.isEmpty
  · rw [if_pos he]
  · rw [if_neg he]
    cases hki : t.keyIterator with
    | none =>
      dsimp only
      cases hsl : TTLState.sampleLoop now n
          { t with keyIterator := some (keysL t.expirations) } with
      | mk t1 cnt =>
        have h := sampleLoop_expirations now n
          { t with keyIterator := some (keysL t.expirations) }
        rw [hsl] at h
        dsimp only
        split
        · exact h
        · exact h
    | some it =>
      dsimp only
      cases hsl : TTLState.sampleLoop now n t with
      | mk t1 cnt =>
        have h := sampleLoop_expirations now n t
        rw [hsl] at h
        dsimp only
        split
        · exact h
        · exact h

/-- The final passive-expiration step of `_checkExpired`: if the key's
record is already gone the state is returned as is, and if the record shows
a past deadline the key is deleted — either way the entry, TTL record, and
usage metadata of the key are absent afterwards. -/
theorem expiredBranch_spec (cm : Cache) (k : String) (dl now : Int) (hwf : CacheWF cm)
    (hcase : (lookupA cm.ttl.expirations k = none ∧ storeLook cm k = none ∧
        lookupA cm.usage k = none) ∨ lookupA cm.ttl.expirations k = some dl)
    (hle : dl ≤ now) :
    CacheWF (if cm.ttl.isExpired k now then (true, (cm.deleteKey k).bumpExpirations)
        else (false, cm)).2 ∧
      storeLook (if cm.ttl.isExpired k now then (true, (cm.deleteKey k).bumpExpirations)
        else (false, cm)).2 k = none ∧
      lookupA (if cm.ttl.isExpired k now then (true, (cm.deleteKey k).bumpExpirations)
        else (false, cm)).2.ttl.expirations k = none ∧
      lookupA (if cm.ttl.isExpired k now then (true, (cm.deleteKey k).bumpExpirations)
        else (false, cm)).2.usage k = none := by
  rcases hcase with ⟨h1, h2, h3⟩ | hsome
  · have hx : cm.ttl.isExpired k now = false := by
      unfold TTLState.isExpired
      rw [h1]
    rw [hx]
    exact ⟨hwf, h2, h1, h3⟩
  · have hx : cm.ttl.isExpired k now = true := by
      unfold TTLState.isExpired
      rw [hsome]
      exact decide_eq_true hle
    rw [hx]
    obtain ⟨hw, hst, httl, hus, _⟩ := deleteKey_spec cm k hwf
    refine ⟨hw, ?_, ?_, ?_⟩
    · show storeLook (cm.deleteKey k) k = none
      rw [hst k, if_pos rfl]
    · show lookupA (cm.deleteKey k).ttl.expirations k = none
      rw [httl]
      show lookupA (eraseA cm.ttl.expirations k) k = none
      rw [lookupA_eraseA, if_pos rfl]
    · show lookupA (cm.deleteKey k).usage k = none
      rw [hus, lookupA_eraseA, if_pos rfl]

/-- `_checkExpired` on a key whose TTL deadline has passed: whether the key
is reclaimed by the lazy purge or by the passive check, afterwards its
entry, TTL record, and usage metadata are all gone. -/
theorem checkExpired_expired (c : Cache) (k : String) (dl now : Int) (hwf : CacheWF c)
    (hdl : ttlLook c k = some dl) (hle : dl ≤ now) :
    CacheWF (c.checkExpired k now).2 ∧
      storeLook (c.checkExpired k now).2 k = none ∧
      lookupA (c.checkExpired k now).2.ttl.expirations k = none ∧
      lookupA (c.checkExpired k now).2.usage k = none := by
  simp only [Cache.checkExpired]
  by_cases htick : (c.operationCount + 1) % 100 = 0
  · rw [if_pos htick]
    have hb : CacheWF
        { c with
            operationCount := c.operationCount + 1
            ttl := (c.ttl.sampleAndPurge 5 now).2.1 } := by
      refine ⟨hwf.1, ?_, hwf.2.2⟩
      show NodupK ((c.ttl.sampleAndPurge 5 now).2.1).expirations
      rw [sampleAndPurge_expirations]
      exact hwf.2.1
    obtain ⟨hfw, hfst, hfttl, hfus, hfop⟩ :=
      purgeFold_spec ((c.ttl.sampleAndPurge 5 now).2.2)
        { c with
            operationCount := c.operationCount + 1
            ttl := (c.ttl.sampleAndPurge 5 now).2.1 } hb
    have hcase : (lookupA (((c.ttl.sampleAndPurge 5 now).2.2).foldl Cache.purgeCallback
          { c with
              operationCount := c.operationCount + 1
              ttl := (c.ttl.sampleAndPurge 5 now).2.1 }).ttl.expirations k = none ∧
        storeLook (((c.ttl.sampleAndPurge 5 now).2.2).foldl Cache.purgeCallback
          { c with
              operationCount := c.operationCount + 1
              ttl := (c.ttl.sampleAndPurge 5 now).2.1 }) k = none ∧
        lookupA (((c.ttl.sampleAndPurge 5 now).2.2).foldl Cache.purgeCallback
          { c with
              operationCount := c.operationCount + 1
              ttl := (c.ttl.sampleAndPurge 5 now).2.1 }).usage k = none) ∨
        lookupA (((c.ttl.sampleAndPurge 5 now).2.2).foldl Cache.purgeCallback
          { c with
              operationCount := c.operationCount + 1
              ttl := (c.ttl.sampleAndPurge 5 now).2.1 }).ttl.expirations k = some dl := by
      by_cases hmem : k ∈ (c.ttl.sampleAndPurge 5 now).2.2
      · left
        refine ⟨?_, ?_, ?_⟩
        · rw [hfttl k, if_pos hmem]
        · rw [hfst k, if_pos hmem]
        · rw [hfus k, if_pos hmem]
      · right
        rw [hfttl k, if_neg hmem]
        show lookupA ((c.ttl.sampleAndPurge 5 now).2.1).expirations k = some dl
        rw [sampleAndPurge_expirations]
        exact hdl
    exact expiredBranch_spec _ k dl now hfw hcase hle
  · rw [if_neg htick]
    exact expiredBranch_spec { c with operationCount := c.operationCount + 1 } k dl now
      hwf (Or.inr hdl) hle

/-- `_getEntry` on a key whose TTL deadline has passed returns `null`, with
the key's entry, TTL record, and usage metadata all reclaimed. -/
theorem getEntry_expired (c : Cache) (k : String) (dl now : Int) (hwf : CacheWF c)
    (hdl : ttlLook c k = some dl) (hle : dl ≤ now) :
    (c.getEntry k now).1 = none ∧ CacheWF (c.getEntry k now).2 ∧
      storeLook (c.getEntry k now).2 k = none ∧
      lookupA (c.getEntry k now).2.ttl.expirations k = none ∧
      lookupA (c.getEntry k now).2.usage k = none := by
  obtain ⟨hw, hst, httl, hus⟩ := checkExpired_expired c k dl now hwf hdl hle
  simp only [Cache.getEntry]
  cases hce : c.checkExpired k now with
  | mk ex c1 =>
    rw [hce] at hw hst httl hus
    dsimp only at hw hst httl hus
    cases ex with
    | true => exact ⟨rfl, hw, hst, httl, hus⟩
    | false =>
      obtain ⟨hg1, hg2, hg3, hg4⟩ := dget_look (d := c1.store) k hw.1
      cases hgp : c1.store.get k with
      | mk e st =>
        rw [hgp] at hg1 hg2 hg3
        dsimp only at hg1 hg2 hg3
        have he : e = none := by rw [hg1]; exact hst
        subst he
        have hstX : lookupA (DictAbs st) k = none := by
          rw [hg3 k]; exact hst
        exact ⟨rfl, ⟨hg2, hw.2.1, hw.2.2⟩, hstX, httl, hus⟩

/-- **C1.** For every key whose TTL record's deadline is in the past, none
of the read operations (`get`, `zscore`, `zrank`, `zrangeByScore`,
`smembers`) returns the entry's value: each first reclaims the entry, its
TTL record, and its usage metadata, and returns the missing-key result
(`null` / the empty list). -/
theorem c1_expired_reads_reclaim (c : Cache) (k member : String) (mn mx dl now : Int)
    (limit : Option Nat) (hwf : CacheWF c) (hdl : ttlLook c k = some dl) (hpast : dl < now) :
    ((c.get k now).1 = Except.ok none ∧ storeLook (c.get k now).2 k = none ∧
      ttlLook (c.get k now).2 k = none ∧ usageLook (c.get k now).2 k = none) ∧
    ((c.zscore k member now).1 = Except.ok none ∧ storeLook (c.zscore k member now).2 k = none ∧
      ttlLook (c.zscore k member now).2 k = none ∧
      usageLook (c.zscore k member now).2 k = none) ∧
    ((c.zrank k member now).1 = Except.ok none ∧ storeLook (c.zrank k member now).2 k = none ∧
      ttlLook (c.zrank k member now).2 k = none ∧
      usageLook (c.zrank k member now).2 k = none) ∧
    ((c.zrangeByScore k mn mx limit now).1 = Except.ok [] ∧
      storeLook (c.zrangeByScore k mn mx limit now).2 k = none ∧
      ttlLook (c.zrangeByScore k mn mx limit now).2 k = none ∧
      usageLook (c.zrangeByScore k mn mx limit now).2 k = none) ∧
    ((c.smembers k now).1 = Except.ok [] ∧ storeLook (c.smembers k now).2 k = none ∧
      ttlLook (c.smembers k now).2 k = none ∧ usageLook (c.smembers k now).2 k = none) := by
  have hle : dl ≤ now := le_of_lt hpast
  refine ⟨?_, ?_, ?_, ?_, ?_⟩
  · have h := getEntry_expired c.bumpOps k dl now hwf hdl hle
    simp only [Cache.get]
    cases hge : c.bumpOps.getEntry k now with
    | mk e c1 =>
      rw [hge] at h
      obtain ⟨he, hw1, hs1, ht1, hu1⟩ := h
      dsimp only at he hs1 ht1 hu1
      subst he
      exact ⟨rfl, hs1, ht1, hu1⟩
  · have h := getEntry_expired c.bumpOps k dl now hwf hdl hle
    simp only [Cache.zscore]
    cases hge : c.bumpOps.getEntry k now with
    | mk e c1 =>
      rw [hge] at h
      obtain ⟨he, hw1, hs1, ht1, hu1⟩ := h
      dsimp only at he hs1 ht1 hu1
      subst he
      exact ⟨rfl, hs1, ht1, hu1⟩
  · have h := getEntry_expired c.bumpOps k dl now hwf hdl hle
    simp only [Cache.zrank]
    cases hge : c.bumpOps.getEntry k now with
    | mk e c1 =>
      rw [hge] at h
      obtain ⟨he, hw1, hs1, ht1, hu1⟩ := h
      dsimp only at he hs1 ht1 hu1
      subst he
      exact ⟨rfl, hs1, ht1, hu1⟩
  · have h := getEntry_expired c.bumpOps k dl now hwf hdl hle
    simp only [Cache.zrangeByScore]
    cases hge : c.bumpOps.getEntry k now with
    | mk e c1 =>
      rw [hge] at h
      obtain ⟨he, hw1, hs1, ht1, hu1⟩ := h
      dsimp only at he hs1 ht1 hu1
      subst he
      exact ⟨rfl, hs1, ht1, hu1⟩
  · have h := getEntry_expired c.bumpOps k dl now hwf hdl hle
    simp only [Cache.smembers]
    cases hge : c.bumpOps.getEntry k now with
    | mk e c1 =>
      rw [hge] at h
      obtain ⟨he, hw1, hs1, ht1, hu1⟩ := h
      dsimp only at he hs1 ht1 hu1
      subst he
      exact ⟨rfl, hs1, ht1, hu1⟩

/-- A one-entry cache whose key `"a"` has TTL deadline 5. -/
def c1W : Cache := (Cache.init ⟨none, none, none⟩ []).set "a" "v" (some 5) 0

theorem c1_expired_reads_reclaim_witness :
    CacheWF c1W ∧ ttlLook c1W "a" = some 5 ∧ (5 : Int) < 10 ∧
      (c1W.get "a" 10).1 = Except.ok none ∧ storeLook (c1W.get "a" 10).2 "a" = none ∧
      ttlLook (c1W.get "a" 10).2 "a" = none ∧ usageLook (c1W.get "a" 10).2 "a" = none := by
  have h := c1_expired_reads_reclaim c1W "a" "m" 0 0 5 10 none (by decide) (by decide)
    (by decide)
  exact ⟨by decide, by decide, by decide, h.1.1, h.1.2.1, h.1.2.2.1, h.1.2.2.2⟩

/-- **C10.** `del(key)` performs no expiration check: a key whose TTL
deadline has already passed but that still has an entry is deleted with
return value 1 (not 0), counted as an operation but not as an expiration. -/
theorem c10_del_ignores_expired_ttl (c : Cache) (k : String) (en : CacheEntry)
    (dl now : Int) (hwf : CacheWF c) (hst : storeLook c k = some en)
    (hdl : ttlLook c k = some dl) (hpast : dl < now) :
    (c.del k).1 = 1 ∧ storeLook (c.del k).2 k = none ∧
      ttlLook (c.del k).2 k = none ∧ usageLook (c.del k).2 k = none ∧
      (c.del k).2.stats.expirations = c.stats.expirations ∧
      (c.del k).2.stats.operations = c.stats.operations + 1 := by
  simp only [Cache.del, Cache.bumpOps]
  obtain ⟨hh1, hh2, hh3, hh4⟩ := dhas_look (d := c.store) k hwf.1
  cases hhp : c.store.has k with
  | mk ex st =>
    rw [hhp] at hh1 hh2 hh3
    dsimp only at hh1 hh2 hh3
    have hex : ex = true := by
      rw [hh1, show lookupA (DictAbs c.store) k = some en from hst]
      rfl
    subst hex
    have hwf2 : CacheWF
        { c with
            stats := { c.stats with operations := c.stats.operations + 1 }
            store := st } := ⟨hh2, hwf.2.1, hwf.2.2⟩
    obtain ⟨hdw, hdst, hdttl, hdus, hdstats, hdrest⟩ := deleteKey_spec
      { c with
          stats := { c.stats with operations := c.stats.operations + 1 }
          store := st } k hwf2
    refine ⟨rfl, ?_, ?_, ?_, ?_, ?_⟩
    · show storeLook
        ({ c with
            stats := { c.stats with operations := c.stats.operations + 1 }
            store := st }.deleteKey k) k = none
      rw [hdst k, if_pos rfl]
    · show ttlLook
        ({ c with
            stats := { c.stats with operations := c.stats.operations + 1 }
            store := st }.deleteKey k) k = none
      rw [ttlLook_def, hdttl]
      show lookupA (eraseA c.ttl.expirations k) k = none
      rw [lookupA_eraseA, if_pos rfl]
    · show usageLook
        ({ c with
            stats := { c.stats with operations := c.stats.operations + 1 }
            store := st }.deleteKey k) k = none
      rw [usageLook_def, hdus]
      show lookupA (eraseA c.usage k) k = none
      rw [lookupA_eraseA, if_pos rfl]
    · show ({ c with
            stats := { c.stats with operations := c.stats.operations + 1 }
            store := st }.deleteKey k).stats.expirations = c.stats.expirations
      rw [hdstats]
    · show ({ c with
            stats := { c.stats with operations := c.stats.operations + 1 }
            store := st }.deleteKey k).stats.operations = c.stats.operations + 1
      rw [hdstats]

/-- A cache whose key `"a"` holds an entry and an already-past TTL
deadline. -/
def c10W : Cache := (Cache.init ⟨none, none, none⟩ []).set "a" "v" (some 5) 0

theorem c10_del_ignores_expired_ttl_witness :
    CacheWF c10W ∧ storeLook c10W "a" =
        some { val := EntryVal.str "v", memoryUsed := some 52 } ∧
      ttlLook c10W "a" = some 5 ∧ (5 : Int) < 10 ∧
      (c10W.del "a").1 = 1 ∧ storeLook (c10W.del "a").2 "a" = none ∧
      ttlLook (c10W.del "a").2 "a" = none ∧ usageLook (c10W.del "a").2 "a" = none ∧
      (c10W.del "a").2.stats.expirations = c10W.stats.expirations := by
  have h := c10_del_ignores_expired_ttl c10W "a"
    { val := EntryVal.str "v", memoryUsed := some 52 } 5 10
    (by decide) (by decide) (by decide) (by decide)
  exact ⟨by decide, by decide, by decide, by decide, h.1, h.2.1, h.2.2.1, h.2.2.2.1,
    h.2.2.2.2.1⟩

/-- The five-operation trace driving the memory counter negative: create a
string entry, add a one-member ordered collection under the empty key,
remove the member (which floors the entry's `memoryUsed` at 0 but leaves
the global counter at 46), delete both keys. -/
def c4trace : List CacheOp :=
  [CacheOp.setOp "x" "v" none 0, CacheOp.zaddOp "" 1 "abc" 1 0,
   CacheOp.zremOp "" "abc" 0, CacheOp.delOp "", CacheOp.delOp "x"]

/-- **C4.** Refuted: `current_memory_used` is *not* nonnegative in every
reachable state.  After `c4trace` (set, zadd, zrem, del, del from a fresh
cache) the counter is −6: `zrem` subtracts the member estimate from the
global counter but floors only the per-entry `memoryUsed` at 0, so the
final `_deleteKey` of `"x"` subtracts more than the counter holds. -/
theorem c4_memory_counter_negative :
    ((Cache.init ⟨none, none, none⟩ []).applyOps c4trace).currentMemoryUsed = -6 ∧
      ¬ (0 ≤ ((Cache.init ⟨none, none, none⟩ []).applyOps c4trace).currentMemoryUsed) := by
  refine ⟨by decide, ?_⟩
  intro h
  rw [show ((Cache.init ⟨none, none, none⟩ []).applyOps c4trace).currentMemoryUsed = -6
    from by decide] at h
  exact absurd h (by decide)

/-! ## WRONGTYPE paths (C2) -/

/-- Shape tests on an entry value (the code's `entry.type` checks). -/
def EntryVal.isStr : EntryVal → Bool
  | .str _ => true
  | _ => false

def EntryVal.isZset : EntryVal → Bool
  | .zset _ => true
  | _ => false

/-- What a failing WRONGTYPE call leaves intact: every entry, the TTL map,
the memory counter, the eviction pool, all stats except the operation
counter (which the call bumps by one), and the usage metadata of every key
other than the touched one. -/
def wrongtypeFrame (c c2 : Cache) (k : String) : Prop :=
  (∀ k2, storeLook c2 k2 = storeLook c k2) ∧
  c2.ttl.expirations = c.ttl.expirations ∧
  c2.currentMemoryUsed = c.currentMemoryUsed ∧
  c2.evictionPool = c.evictionPool ∧
  c2.stats.hits = c.stats.hits ∧
  c2.stats.misses = c.stats.misses ∧
  c2.stats.evictions = c.stats.evictions ∧
  c2.stats.expirations = c.stats.expirations ∧
  c2.stats.operations = c.stats.operations + 1 ∧
  (∀ k2, k2 ≠ k → usageLook c2 k2 = usageLook c k2)

/-- `usage.touch` changes nothing but the touched key's usage metadata (and
the random stream under LFU). -/
theorem touch_frame (c : Cache) (k : String) (now : Int) (hnd : NodupK c.usage) :
    (c.touch k now).store = c.store ∧ (c.touch k now).ttl = c.ttl ∧
      (c.touch k now).currentMemoryUsed = c.currentMemoryUsed ∧
      (c.touch k now).evictionPool = c.evictionPool ∧
      (c.touch k now).stats = c.stats ∧
      (c.touch k now).maxmemory = c.maxmemory ∧
      (c.touch k now).operationCount = c.operationCount ∧
      NodupK (c.touch k now).usage ∧
      (∀ k2, k2 ≠ k → lookupA (c.touch k now).usage k2 = lookupA c.usage k2) := by
  unfold Cache.touch
  cases c.evictionPolicy with
  | lru =>
    dsimp only
    exact ⟨rfl, rfl, rfl, rfl, rfl, rfl, rfl, NodupK_setA hnd,
      fun k2 hne => lookupA_setA_other hnd hne⟩
  | lfu =>
    dsimp only
    exact ⟨rfl, rfl, rfl, rfl, rfl, rfl, rfl, NodupK_setA hnd,
      fun k2 hne => lookupA_setA_other hnd hne⟩

/-- `_checkExpired` away from a purge tick, on a non-expired key, only
bumps the internal operation counter. -/
theorem checkExpired_live (c : Cache) (k : String) (now : Int)
    (hnt : (c.operationCount + 1) % 100 ≠ 0) (hnx : c.ttl.isExpired k now = false) :
    c.checkExpired k now = (false, { c with operationCount := c.operationCount + 1 }) := by
  simp only [Cache.checkExpired]
  rw [if_neg hnt]
  have hnx2 : ({ c with operationCount := c.operationCount + 1 } : Cache).ttl.isExpired
      k now = false := hnx
  rw [hnx2]
  rfl

/-- `checkExpired_live` through the public entry points' `bumpOps`. -/
theorem checkExpired_live_bump (c : Cache) (k : String) (now : Int)
    (hnt : (c.operationCount + 1) % 100 ≠ 0) (hnx : c.ttl.isExpired k now = false) :
    c.bumpOps.checkExpired k now = (false,
      { c with
          operationCount := c.operationCount + 1
          stats := { c.stats with operations := c.stats.operations + 1 } }) :=
  (checkExpired_live c.bumpOps k now hnt hnx).trans rfl

/-- `_evictIfNeeded` does nothing while memory is within bounds. -/
theorem evictIfNeeded_noop (c : Cache) (h : c.currentMemoryUsed ≤ c.maxmemory) :
    c.evictIfNeeded = c := by
  unfold Cache.evictIfNeeded
  rw [if_pos h]

/-- `_getEntry` on a live, non-expired key away from a purge tick: returns
the entry, and changes nothing except the internal operation counter and
the touched key's usage metadata. -/
theorem getEntry_live (c : Cache) (k : String) (now : Int) (en : CacheEntry)
    (hwf : CacheWF c) (hnt : (c.operationCount + 1) % 100 ≠ 0)
    (hnx : c.ttl.isExpired k now = false) (hst : storeLook c k = some en) :
    (c.getEntry k now).1 = some en ∧ CacheWF (c.getEntry k now).2 ∧
      (∀ k2, storeLook (c.getEntry k now).2 k2 = storeLook c k2) ∧
      (c.getEntry k now).2.ttl = c.ttl ∧
      (c.getEntry k now).2.currentMemoryUsed = c.currentMemoryUsed ∧
      (c.getEntry k now).2.evictionPool = c.evictionPool ∧
      (c.getEntry k now).2.stats = c.stats ∧
      (c.getEntry k now).2.maxmemory = c.maxmemory ∧
      (c.getEntry k now).2.operationCount = c.operationCount + 1 ∧
      (∀ k2, k2 ≠ k → usageLook (c.getEntry k now).2 k2 = usageLook c k2) := by
  simp only [Cache.getEntry]
  rw [checkExpired_live c k now hnt hnx]
  dsimp only
  obtain ⟨hg1, hg2, hg3, hg4⟩ := dget_look (d := c.store) k hwf.1
  cases hgp : c.store.get k with
  | mk e st =>
    rw [hgp] at hg1 hg2 hg3
    dsimp only at hg1 hg2 hg3
    have he : e = some en := by rw [hg1]; exact hst
    subst he
    dsimp only
    obtain ⟨ht1, ht2, ht3, ht4, ht5, ht6, ht7, ht8, ht9⟩ :=
      touch_frame { c with operationCount := c.operationCount + 1, store := st } k now
        hwf.2.2
    refine ⟨rfl, ⟨?_, ?_, ht8⟩, ?_, ht2.trans rfl, ht3.trans rfl, ht4.trans rfl,
      ht5.trans rfl, ht6.trans rfl, ht7.trans rfl, fun k2 hne => (ht9 k2 hne).trans rfl⟩
    · show DictWF
        ({ c with
            operationCount := c.operationCount + 1
            store := st }.touch k now).store
      rw [ht1]
      exact hg2
    · show NodupK
        ({ c with
            operationCount := c.operationCount + 1
            store := st }.touch k now).ttl.expirations
      rw [ht2]
      exact hwf.2.1
    · intro k2
      show storeLook
        ({ c with
            operationCount := c.operationCount + 1
            store := st }.touch k now) k2 = storeLook c k2
      rw [storeLook_def, ht1]
      exact hg3 k2

/-- `_getEntry` behind `bumpOps`, packaged as the WRONGTYPE frame. -/
theorem getEntry_bump_frame (c : Cache) (k : String) (now : Int) (en : CacheEntry)
    (hwf : CacheWF c) (hnt : (c.operationCount + 1) % 100 ≠ 0)
    (hnx : c.ttl.isExpired k now = false) (hst : storeLook c k = some en) :
    (c.bumpOps.getEntry k now).1 = some en ∧
      wrongtypeFrame c (c.bumpOps.getEntry k now).2 k := by
  obtain ⟨he0, hw0, hs0, htl0, hm0, hp0, hst0, hmax0, hoc0, hu0⟩ :=
    getEntry_live c.bumpOps k now en hwf hnt hnx hst
  refine ⟨he0, fun k2 => (hs0 k2).trans rfl,
    (congrArg TTLState.expirations htl0).trans rfl, hm0.trans rfl, hp0.trans rfl,
    (congrArg Stats.hits hst0).trans rfl, (congrArg Stats.misses hst0).trans rfl,
    (congrArg Stats.evictions hst0).trans rfl,
    (congrArg Stats.expirations hst0).trans rfl,
    (congrArg Stats.operations hst0).trans rfl,
    fun k2 hne => (hu0 k2 hne).trans rfl⟩

/-- A cache whose single key `"a"` holds an ordered collection. -/
def c2X : Cache := ((Cache.init ⟨none, none, none⟩ []).zadd "a" 1 "m" 1 0).2

/-- **C2 (counterexample).** As stated the claim is false: `get` on an
ordered-collection entry fails with WRONGTYPE, but the cache state is *not*
unchanged — `_getEntry` touches the key's usage metadata before the shape
check, so its `lastAccess` moves to the current time. -/
theorem c2_wrongtype_counterexample :
    (c2X.get "a" 5).1 = Except.error CacheErr.wrongtype ∧
      ¬ ((c2X.get "a" 5).2.usage = c2X.usage) :=
  ⟨rfl, by decide⟩

/-- **C2 (amended).** A WRONGTYPE call on a live, non-expired entry (away
from a lazy-purge tick, within the memory bound) fails without mutating any
entry, TTL record, memory counter, eviction state, or hit/miss/eviction/
expiration statistic; only the operation counter and — on the read-path
operations — the touched key's usage metadata may change. -/
theorem c2_wrongtype_frame (c : Cache) (k member : String) (score mn mx : Int)
    (lvl : Nat) (limit : Option Nat) (now : Int) (en : CacheEntry)
    (hwf : CacheWF c) (hst : storeLook c k = some en)
    (hnt : (c.operationCount + 1) % 100 ≠ 0) (hnx : c.ttl.isExpired k now = false)
    (hmem : c.currentMemoryUsed ≤ c.maxmemory) :
    (en.val.isStr = false →
      (c.get k now).1 = Except.error CacheErr.wrongtype ∧
        wrongtypeFrame c (c.get k now).2 k) ∧
    (en.val.isZset = false →
      (c.zscore k member now).1 = Except.error CacheErr.wrongtype ∧
        wrongtypeFrame c (c.zscore k member now).2 k) ∧
    (en.val.isZset = false →
      (c.zrank k member now).1 = Except.error CacheErr.wrongtype ∧
        wrongtypeFrame c (c.zrank k member now).2 k) ∧
    (en.val.isZset = false →
      (c.zrangeByScore k mn mx limit now).1 = Except.error CacheErr.wrongtype ∧
        wrongtypeFrame c (c.zrangeByScore k mn mx limit now).2 k) ∧
    (en.val.isZset = false →
      (c.zrem k member now).1 = Except.error CacheErr.wrongtype ∧
        wrongtypeFrame c (c.zrem k member now).2 k) ∧
    ((en.val.isStr || en.val.isZset) = true →
      (c.smembers k now).1 = Except.error CacheErr.wrongtype ∧
        wrongtypeFrame c (c.smembers k now).2 k) ∧
    (en.val.isZset = false →
      (c.zadd k score member lvl now).1 = Except.error CacheErr.wrongtype ∧
        wrongtypeFrame c (c.zadd k score member lvl now).2 k) ∧
    ((en.val.isStr || en.val.isZset) = true →
      (c.sadd k [Mem.int score] now).1 = Except.error CacheErr.wrongtype ∧
        wrongtypeFrame c (c.sadd k [Mem.int score] now).2 k) := by
  obtain ⟨hb1, hb2⟩ := getEntry_bump_frame c k now en hwf hnt hnx hst
  refine ⟨?_, ?_, ?_, ?_, ?_, ?_, ?_, ?_⟩
  · intro hshape
    simp only [Cache.get]
    cases hgp : c.bumpOps.getEntry k now with
    | mk e c1 =>
      rw [hgp] at hb1 hb2
      dsimp only at hb1 hb2
      subst hb1
      dsimp only
      cases hv : en.val with
      | str v => rw [hv] at hshape; simp [EntryVal.isStr] at hshape
      | zset z => exact ⟨rfl, hb2⟩
      | intset d => exact ⟨rfl, hb2⟩
      | hset d => exact ⟨rfl, hb2⟩
  · intro hshape
    simp only [Cache.zscore]
    cases hgp : c.bumpOps.getEntry k now with
    | mk e c1 =>
      rw [hgp] at hb1 hb2
      dsimp only at hb1 hb2
      subst hb1
      dsimp only
      cases hv : en.val with
      | zset z => rw [hv] at hshape; simp [EntryVal.isZset] at hshape
      | str v => exact ⟨rfl, hb2⟩
      | intset d => exact ⟨rfl, hb2⟩
      | hset d => exact ⟨rfl, hb2⟩
  · intro hshape
    simp only [Cache.zrank]
    cases hgp : c.bumpOps.getEntry k now with
    | mk e c1 =>
      rw [hgp] at hb1 hb2
      dsimp only at hb1 hb2
      subst hb1
      dsimp only
      cases hv : en.val with
      | zset z => rw [hv] at hshape; simp [EntryVal.isZset] at hshape
      | str v => exact ⟨rfl, hb2⟩
      | intset d => exact ⟨rfl, hb2⟩
      | hset d => exact ⟨rfl, hb2⟩
  · intro hshape
    simp only [Cache.zrangeByScore]
    cases hgp : c.bumpOps.getEntry k now with
    | mk e c1 =>
      rw [hgp] at hb1 hb2
      dsimp only at hb1 hb2
      subst hb1
      dsimp only
      cases hv : en.val with
      | zset z => rw [hv] at hshape; simp [EntryVal.isZset] at hshape
      | str v => exact ⟨rfl, hb2⟩
      | intset d => exact ⟨rfl, hb2⟩
      | hset d => exact ⟨rfl, hb2⟩
  · intro hshape
    simp only [Cache.zrem]
    cases hgp : c.bumpOps.getEntry k now with
    | mk e c1 =>
      rw [hgp] at hb1 hb2
      dsimp only at hb1 hb2
      subst hb1
      dsimp only
      cases hv : en.val with
      | zset z => rw [hv] at hshape; simp [EntryVal.isZset] at hshape
      | str v => exact ⟨rfl, hb2⟩
      | intset d => exact ⟨rfl, hb2⟩
      | hset d => exact ⟨rfl, hb2⟩
  · intro hshape
    simp only [Cache.smembers]
    cases hgp : c.bumpOps.getEntry k now with
    | mk e c1 =>
      rw [hgp] at hb1 hb2
      dsimp only at hb1 hb2
      subst hb1
      dsimp only
      cases hv : en.val with
      | intset d => rw [hv] at hshape; simp [EntryVal.isStr, EntryVal.isZset] at hshape
      | hset d => rw [hv] at hshape; simp [EntryVal.isStr, EntryVal.isZset] at hshape
      | str v => exact ⟨rfl, hb2⟩
      | zset z => exact ⟨rfl, hb2⟩
  · intro hshape
    simp only [Cache.zadd]
    rw [checkExpired_live_bump c k now hnt hnx]
    dsimp only
    rw [evictIfNeeded_noop
      { c with
          operationCount := c.operationCount + 1
          stats := { c.stats with operations := c.stats.operations + 1 } } hmem]
    obtain ⟨hg1, hg2, hg3, hg4⟩ := dget_look (d := c.store) k hwf.1
    cases hgp : c.store.get k with
    | mk e st =>
      rw [hgp] at hg1 hg3
      dsimp only at hg1 hg3
      have he : e = some en := by rw [hg1]; exact hst
      subst he
      dsimp only
      cases hv : en.val with
      | zset z => rw [hv] at hshape; simp [EntryVal.isZset] at hshape
      | str v => exact ⟨rfl, fun k2 => hg3 k2, rfl, rfl, rfl, rfl, rfl, rfl, rfl, rfl,
          fun k2 hne => rfl⟩
      | intset d => exact ⟨rfl, fun k2 => hg3 k2, rfl, rfl, rfl, rfl, rfl, rfl, rfl, rfl,
          fun k2 hne => rfl⟩
      | hset d => exact ⟨rfl, fun k2 => hg3 k2, rfl, rfl, rfl, rfl, rfl, rfl, rfl, rfl,
          fun k2 hne => rfl⟩
  · intro hshape
    simp only [Cache.sadd]
    rw [checkExpired_live_bump c k now hnt hnx]
    dsimp only
    rw [evictIfNeeded_noop
      { c with
          operationCount := c.operationCount + 1
          stats := { c.stats with operations := c.stats.operations + 1 } } hmem]
    obtain ⟨hg1, hg2, hg3, hg4⟩ := dget_look (d := c.store) k hwf.1
    cases hgp : c.store.get k with
    | mk e st =>
      rw [hgp] at hg1 hg3
      dsimp only at hg1 hg3
      have he : e = some en := by rw [hg1]; exact hst
      subst he
      dsimp only
      cases hv : en.val with
      | intset d => rw [hv] at hshape; simp [EntryVal.isStr, EntryVal.isZset] at hshape
      | hset d => rw [hv] at hshape; simp [EntryVal.isStr, EntryVal.isZset] at hshape
      | str v => exact ⟨rfl, fun k2 => hg3 k2, rfl, rfl, rfl, rfl, rfl, rfl, rfl, rfl,
          fun k2 hne => rfl⟩
      | zset z => exact ⟨rfl, fun k2 => hg3 k2, rfl, rfl, rfl, rfl, rfl, rfl, rfl, rfl,
          fun k2 hne => rfl⟩

/-- A cache whose single key `"a"` holds a string entry. -/
def c2W : Cache := (Cache.init ⟨none, none, none⟩ []).set "a" "v" none 0

theorem c2_wrongtype_frame_witness :
    CacheWF c2W ∧
      storeLook c2W "a" = some { val := EntryVal.str "v", memoryUsed := some 52 } ∧
      (c2W.operationCount + 1) % 100 ≠ 0 ∧ c2W.ttl.isExpired "a" 5 = false ∧
      c2W.currentMemoryUsed ≤ c2W.maxmemory ∧
      ((c2W.zscore "a" "m" 5).1 = Except.error CacheErr.wrongtype ∧
        wrongtypeFrame c2W (c2W.zscore "a" "m" 5).2 "a") := by
  have h := c2_wrongtype_frame c2W "a" "m" 0 0 0 1 none 5
    { val := EntryVal.str "v", memoryUsed := some 52 }
    (by decide) (by decide) (by decide) (by decide) (by decide)
  exact ⟨by decide, by decide, by decide, by decide, by decide, h.2.1 (by decide)⟩

/-! ## Active expiration (C8) -/

theorem deleteKey_aess (c : Cache) (k : String) :
    (c.deleteKey k).activeExpirationSampleSize = c.activeExpirationSampleSize := by
  simp only [Cache.deleteKey]
  cases c.store.get k with
  | mk e st =>
    dsimp only
    cases e with
    | none => rfl
    | some en =>
      dsimp only
      split <;> rfl

theorem purgeFold_aess (l : List String) (c : Cache) :
    (l.foldl Cache.purgeCallback c).activeExpirationSampleSize =
      c.activeExpirationSampleSize := by
  induction l generalizing c with
  | nil => rfl
  | cons a t ih =>
    have hstep : (a :: t).foldl Cache.purgeCallback c =
        t.foldl Cache.purgeCallback (Cache.purgeCallback c a) := rfl
    rw [hstep, ih]
    exact deleteKey_aess c a

/-- For natural counts, `expired > sampled * 0.25` over the exactly
representable rationals is the integer comparison `4 * expired >
sampled`. -/
theorem quarterCond (a b : Nat) : ((a : ℚ) > (b : ℚ) * (1 / 4)) ↔ b < 4 * a := by
  rw [gt_iff_lt, mul_one_div, div_lt_iff (by norm_num : (0 : ℚ) < 4)]
  rw [show ((4 : ℚ)) = ((4 : Nat) : ℚ) by norm_num, ← Nat.cast_mul, Nat.cast_lt]
  omega

theorem activeRounds_succ (now : Int) (b : Nat) (c : Cache) :
    Cache.activeRounds now (b + 1) c =
      (let sampled := min c.activeExpirationSampleSize c.ttl.expirations.length
       if sampled = 0 then (c, [])
       else
         let spr := c.ttl.sampleAndPurge sampled now
         let c2 := spr.2.2.foldl Cache.purgeCallback { c with ttl := spr.2.1 }
         if sampled < 4 * spr.1 then
           let cr := Cache.activeRounds now b c2
           (cr.1, (sampled, spr.1) :: cr.2)
         else (c2, [(sampled, spr.1)])) := rfl

/-- The timer callback's round list: at most `budget` rounds, each round
after the first only runs because the previous round's expired count beat a
quarter of its sampled count, and no round samples more keys than the
configured sample size. -/
theorem activeRounds_spec (now : Int) (budget : Nat) (c : Cache) :
    ((Cache.activeRounds now budget c).2).length ≤ budget ∧
      (∀ j, j + 1 < ((Cache.activeRounds now budget c).2).length →
        ((((Cache.activeRounds now budget c).2.getD j (0, 0)).2 : ℚ) >
          (((Cache.activeRounds now budget c).2.getD j (0, 0)).1 : ℚ) * (1 / 4))) ∧
      (∀ j, ((Cache.activeRounds now budget c).2.getD j (0, 0)).1 ≤
        c.activeExpirationSampleSize) := by
  induction budget generalizing c with
  | zero =>
    have h0 : Cache.activeRounds now 0 c = (c, []) := rfl
    rw [h0]
    refine ⟨Nat.le_refl 0, fun j hj => by simp at hj, fun j => ?_⟩
    simp [List.getD]
  | succ b ih =>
    rw [activeRounds_succ]
    dsimp only
    by_cases hs : min c.activeExpirationSampleSize c.ttl.expirations.length = 0
    · rw [if_pos hs]
      refine ⟨Nat.zero_le _, fun j hj => by simp at hj, fun j => ?_⟩
      simp [List.getD]
    · rw [if_neg hs]
      by_cases hcond : (min c.activeExpirationSampleSize c.ttl.expirations.length <
          4 * (c.ttl.sampleAndPurge
            (min c.activeExpirationSampleSize c.ttl.expirations.length) now).1)
      · rw [if_pos hcond]
        obtain ⟨ih1, ih2, ih3⟩ := ih (((c.ttl.sampleAndPurge
            (min c.activeExpirationSampleSize c.ttl.expirations.length) now).2.2).foldl
            Cache.purgeCallback
            { c with ttl := (c.ttl.sampleAndPurge
                (min c.activeExpirationSampleSize c.ttl.expirations.length) now).2.1 })
        refine ⟨?_, ?_, ?_⟩
        · show _ + 1 ≤ b + 1
          omega
        · intro j hj
          cases j with
          | zero =>
            rw [List.getD_cons_zero]
            exact (quarterCond _ _).mpr hcond
          | succ jj =>
            rw [List.getD_cons_succ]
            refine ih2 jj ?_
            rw [List.length_cons] at hj
            omega
        · intro j
          cases j with
          | zero =>
            rw [List.getD_cons_zero]
            exact Nat.min_le_left _ _
          | succ jj =>
            rw [List.getD_cons_succ]
            refine le_trans (ih3 jj) ?_
            rw [purgeFold_aess]
      · rw [if_neg hcond]
        refine ⟨by simp, fun j hj => ?_, fun j => ?_⟩
        · rw [List.length_singleton] at hj
          omega
        · cases j with
          | zero =>
            rw [List.getD_cons_zero]
            exact Nat.min_le_left _ _
          | succ jj =>
            show ((([] : List (Nat × Nat)).getD jj (0, 0)).1 ≤ _)
            simp [List.getD]

/-- **C8.** The constructor starts active expiration with the defaults
`interval_ms = 200`, `sample_size = 10`, `max_rounds = 2`; a tick runs at
most `max_rounds` rounds of `sampleAndPurge` over at most `sample_size`
keys each, and a further round runs only when the previous round's expired
count exceeds a quarter of its sampled count. -/
theorem c8_active_expiration (o : CacheOptions) (rng : List Nat) (c : Cache) (now : Int) :
    (Cache.init o rng).activeExpirationIntervalMs = 200 ∧
      (Cache.init o rng).activeExpirationSampleSize = 10 ∧
      (Cache.init o rng).activeExpirationMaxRounds = 2 ∧
      ((c.activeTick now).2).length ≤ c.activeExpirationMaxRounds ∧
      (∀ j, j + 1 < ((c.activeTick now).2).length →
        ((((c.activeTick now).2.getD j (0, 0)).2 : ℚ) >
          (((c.activeTick now).2.getD j (0, 0)).1 : ℚ) * (1 / 4))) ∧
      (∀ j, ((c.activeTick now).2.getD j (0, 0)).1 ≤ c.activeExpirationSampleSize) := by
  obtain ⟨h1, h2, h3⟩ := activeRounds_spec now c.activeExpirationMaxRounds c
  exact ⟨rfl, rfl, rfl, h1, h2, h3⟩

/-- A cache with two keys whose TTL deadlines are both past at time 5. -/
def c8W : Cache :=
  ((Cache.init ⟨none, none, none⟩ []).set "a" "v" (some 1) 0).set "b" "v" (some 1) 0

theorem c8_active_expiration_witness :
    (c8W.activeTick 5).2 = [(2, 2), (2, 2)] ∧
      ((c8W.activeTick 5).2).length ≤ c8W.activeExpirationMaxRounds ∧
      (∀ j, j + 1 < ((c8W.activeTick 5).2).length →
        ((((c8W.activeTick 5).2.getD j (0, 0)).2 : ℚ) >
          (((c8W.activeTick 5).2.getD j (0, 0)).1 : ℚ) * (1 / 4))) := by
  have h := c8_active_expiration ⟨none, none, none⟩ [] c8W 5
  exact ⟨by decide, h.2.2.2.1, h.2.2.2.2.1⟩

/-! ## Eviction (C3) -/

/-- Number of (score, member) pairs below `t` — in a sorted duplicate-free
list, the 0-based index where `t` belongs. -/
def cntLt (P : List (Int × String)) (t : Int × String) : Nat :=
  P.countP (fun y => decide (pairLt y t))

theorem cntLt_le (P : List (Int × String)) (t : Int × String) : cntLt P t ≤ P.length :=
  List.countP_le_length _

theorem sorted_get_lt {P : List (Int × String)} (hs : P.Pairwise pairLt) {i j : Nat}
    (hj : j < P.length) (hij : i < j) :
    pairLt (P.get ⟨i, lt_trans hij hj⟩) (P.get ⟨j, hj⟩) := by
  have h := List.pairwise_iff_getElem.mp hs i j (lt_trans hij hj) hj hij
  simpa using h

/-- In a sorted list, the predicate "below `t`" holds exactly on the prefix
of length `cntLt`. -/
theorem sorted_prefix_iff {P : List (Int × String)} (hs : P.Pairwise pairLt)
    (t : Int × String) {j : Nat} (hj : j < P.length) :
    pairLt (P.get ⟨j, hj⟩) t ↔ j < cntLt P t := by
  constructor
  · intro hjt
    have htake : (P.take (j + 1)).countP (fun y => decide (pairLt y t)) = j + 1 := by
      have hall : ∀ a ∈ P.take (j + 1), (fun y => decide (pairLt y t)) a = true := by
        intro a ha
        obtain ⟨i, hi, hEq⟩ := List.mem_iff_getElem.mp ha
        have himin : i < j + 1 := by
          have := hi
          simp at this
          omega
        have hgete : (P.take (j + 1))[i] = P.get ⟨i, by omega⟩ := by
          rw [List.getElem_take]
          rfl
        rw [← hEq, hgete]
        rcases Nat.lt_or_ge i j with hij | hij
        · exact decide_eq_true (pairLt_trans (sorted_get_lt hs hj hij) hjt)
        · have hieq : i = j := by omega
          subst hieq
          exact decide_eq_true hjt
      rw [List.countP_eq_length.mpr hall, List.length_take]
      omega
    have hsplit := List.countP_append (P.take (j + 1)) (P.drop (j + 1))
      (p := fun y => decide (pairLt y t))
    rw [List.take_append_drop] at hsplit
    show j < P.countP _
    rw [hsplit, htake]
    omega
  · intro hcnt
    by_contra hnlt
    have hdrop : (P.drop j).countP (fun y => decide (pairLt y t)) = 0 := by
      refine List.countP_eq_zero.mpr ?_
      intro a ha
      obtain ⟨i, hi, hEq⟩ := List.mem_iff_getElem.mp ha
      have hji : j + i < P.length := by
        have := hi
        simp at this
        omega
      have hgete : (P.drop j)[i] = P.get ⟨j + i, hji⟩ := by
        rw [List.getElem_drop]
        rfl
      rw [← hEq, hgete]
      simp only [decide_eq_true_eq]
      intro hlt
      rcases Nat.eq_zero_or_pos i with h0 | h0
      · subst h0
        exact hnlt (by simpa using hlt)
      · have hjlt : pairLt (P.get ⟨j, hj⟩) (P.get ⟨j + i, hji⟩) :=
          sorted_get_lt hs hji (by omega)
        exact hnlt (pairLt_trans hjlt hlt)
    have hsplit := List.countP_append (P.take j) (P.drop j)
      (p := fun y => decide (pairLt y t))
    rw [List.take_append_drop] at hsplit
    have hle : cntLt P t ≤ j := by
      show P.countP _ ≤ j
      rw [hsplit, hdrop]
      have := List.countP_le_length (p := fun y => decide (pairLt y t)) (l := P.take j)
      rw [List.length_take] at this
      omega
    omega

/-- A pair present in a sorted list sits exactly at index `cntLt`. -/
theorem sorted_mem_index {P : List (Int × String)} (hs : P.Pairwise pairLt)
    {t : Int × String} (ht : t ∈ P) :
    ∃ h : cntLt P t < P.length, P.get ⟨cntLt P t, h⟩ = t := by
  obtain ⟨⟨idx, hidx⟩, hEq⟩ := List.mem_iff_get.mp ht
  have hcnt : cntLt P t = idx := by
    by_contra hne
    rcases Nat.lt_or_ge (cntLt P t) idx with hlt | hge
    · have := (sorted_prefix_iff hs t (j := cntLt P t) (by omega)).mp
      have h2 : ¬ (cntLt P t < cntLt P t) := lt_irrefl _
      have h3 : pairLt (P.get ⟨cntLt P t, by omega⟩) t :=
        hEq ▸ sorted_get_lt hs hidx hlt
      exact h2 ((sorted_prefix_iff hs t (j := cntLt P t) (by omega)).mp h3)
    · have hgt : idx < cntLt P t := by omega
      have h3 : pairLt (P.get ⟨idx, hidx⟩) t :=
        (sorted_prefix_iff hs t hidx).mpr hgt
      rw [hEq] at h3
      exact pairLt_irrefl t h3
  subst hcnt
  exact ⟨hidx, hEq⟩

/-- Splicing a fresh pair in at index `cntLt` keeps the list sorted. -/
theorem sorted_insert_at_cnt {P : List (Int × String)} (hs : P.Pairwise pairLt)
    {x : Int × String} (hx : x ∉ P) :
    (P.take (cntLt P x) ++ x :: P.drop (cntLt P x)).Pairwise pairLt := by
  rw [List.pairwise_append]
  refine ⟨hs.sublist (List.take_sublist _ _), ?_, ?_⟩
  · rw [List.pairwise_cons]
    refine ⟨?_, hs.sublist (List.drop_sublist _ _)⟩
    intro b hb
    obtain ⟨i, hi, hEq⟩ := List.mem_iff_getElem.mp hb
    have hci : cntLt P x + i < P.length := by
      have := hi
      simp at this
      omega
    have hgete : (P.drop (cntLt P x))[i] = P.get ⟨cntLt P x + i, hci⟩ := by
      rw [List.getElem_drop]
      rfl
    have hnlt : ¬ pairLt (P.get ⟨cntLt P x + i, hci⟩) x := by
      intro h
      have := (sorted_prefix_iff hs x hci).mp h
      omega
    have hne : P.get ⟨cntLt P x + i, hci⟩ ≠ x := by
      intro h
      exact hx (h ▸ List.get_mem P _ _)
    rcases pairLt_trichotomy x (P.get ⟨cntLt P x + i, hci⟩) with h | h | h
    · rw [← hEq, hgete]; exact h
    · exact absurd h.symm hne
    · exact absurd h hnlt
  · intro a ha b hb
    obtain ⟨i, hi, hEqa⟩ := List.mem_iff_getElem.mp ha
    have hicnt : i < cntLt P x := by
      have := hi
      simp at this
      omega
    have hilen : i < P.length := lt_of_lt_of_le hicnt (cntLt_le P x)
    have hgeta : (P.take (cntLt P x))[i] = P.get ⟨i, hilen⟩ := by
      rw [List.getElem_take]
      rfl
    have hax : pairLt a x := by
      rw [← hEqa, hgeta]
      exact (sorted_prefix_iff hs x hilen).mpr hicnt
    rcases List.mem_cons.mp hb with hbx | hbd
    · rw [hbx]; exact hax
    · obtain ⟨i2, hi2, hEqb⟩ := List.mem_iff_getElem.mp hbd
      have hci2 : cntLt P x + i2 < P.length := by
        have := hi2
        simp at this
        omega
      have hgetb : (P.drop (cntLt P x))[i2] = P.get ⟨cntLt P x + i2, hci2⟩ := by
        rw [List.getElem_drop]
        rfl
      rw [← hEqa, ← hEqb, hgeta, hgetb]
      exact sorted_get_lt hs hci2 (by omega)

/-! ## Skip-list invariant -/

/-- The (score, member) pairs of the level-0 chain, in order. -/
def pairsOf (sl : SkipList) : List (Int × String) :=
  sl.nodes.map (fun n => (n.score, n.member))

/-- Length of the stored span array at position `p`. -/
def spanLenAt (sl : SkipList) (p : Nat) : Nat :=
  match p with
  | 0 => sl.headerSpan.length
  | Nat.succ j => match sl.nodes[j]? with | some nd => nd.span.length | none => 0

/-- Every stored span that a search can read (level below the list's level
cursor, slot live at its node's level, forward pointer non-null) equals the
number of level-0 steps its forward pointer covers. -/
def SpanOK (sl : SkipList) : Prop :=
  ∀ p, p < sl.nodes.length + 1 → ∀ i, i < sl.level → i < sl.lvlAt p →
    optAllP (sl.fwd i p) (fun q => sl.spanAt p i = (q : Int) - (p : Int))

instance SpanOK.dec (sl : SkipList) : Decidable (SpanOK sl) := by
  unfold SpanOK
  infer_instance

/-- The full skip-list invariant: sorted level-0 chain; every node level in
`[1, level]` with a span array of its own length; level cursor in `[1, 32]`;
32-slot header span array; correct stored spans. -/
def SLInv (sl : SkipList) : Prop :=
  (pairsOf sl).Pairwise pairLt ∧
  (∀ nd ∈ sl.nodes, 1 ≤ nd.lvl ∧ nd.lvl ≤ sl.level ∧ nd.span.length = nd.lvl) ∧
  1 ≤ sl.level ∧ sl.level ≤ 32 ∧ sl.headerSpan.length = 32 ∧ SpanOK sl

instance SLInv.dec (sl : SkipList) : Decidable (SLInv sl) := by
  unfold SLInv
  infer_instance

theorem SpanOK.spec {sl : SkipList} (h : SpanOK sl) {p i q : Nat} (hi : i < sl.level)
    (hl : i < sl.lvlAt p) (hq : sl.fwd i p = some q) :
    sl.spanAt p i = (q : Int) - (p : Int) := by
  have hb := fwd_bounds hq
  have h2 := h p (by omega) i hi hl
  rw [hq] at h2
  exact h2

theorem length_pairsOf (sl : SkipList) : (pairsOf sl).length = sl.nodes.length :=
  List.length_map _ _

theorem valAt_get {sl : SkipList} {j : Nat} (h : j < sl.nodes.length) :
    sl.valAt (j + 1) = (pairsOf sl).get ⟨j, by rw [length_pairsOf]; exact h⟩ := by
  show (match sl.nodes[j]? with
    | some nd => (nd.score, nd.member)
    | none => ((0 : Int), "")) = _
  rw [List.getElem?_eq_getElem h]
  simp only [pairsOf, List.get_eq_getElem, List.getElem_map]

theorem lvlAt_zero (sl : SkipList) : sl.lvlAt 0 = 33 := rfl

theorem lvlAt_succ_lt {sl : SkipList} {j : Nat} (h : j < sl.nodes.length) :
    sl.lvlAt (j + 1) = sl.nodes[j].lvl := by
  show (match sl.nodes[j]? with | some nd => nd.lvl | none => 0) = _
  rw [List.getElem?_eq_getElem h]

theorem lvlAt_succ_ge {sl : SkipList} {j : Nat} (h : sl.nodes.length ≤ j) :
    sl.lvlAt (j + 1) = 0 := by
  show (match sl.nodes[j]? with | some nd => nd.lvl | none => 0) = _
  rw [List.getElem?_eq_none h]

/-- `fwdAux` only looks at the node levels: lists with the same length and
levels have the same forward pointers. -/
theorem fwdAux_congr {sl sl2 : SkipList} (hlen : sl2.nodes.length = sl.nodes.length)
    (hlvl : ∀ q, sl2.lvlAt q = sl.lvlAt q) (i q : Nat) :
    sl2.fwdAux i q = sl.fwdAux i q := by
  unfold SkipList.fwdAux
  rw [hlen, hlvl q]
  split
  · rfl
  · split
    · rfl
    · exact fwdAux_congr hlen hlvl i (q + 1)
termination_by sl.nodes.length + 1 - q
decreasing_by omega

theorem fwd_congr {sl sl2 : SkipList} (hlen : sl2.nodes.length = sl.nodes.length)
    (hlvl : ∀ q, sl2.lvlAt q = sl.lvlAt q) (i p : Nat) :
    sl2.fwd i p = sl.fwd i p :=
  fwdAux_congr hlen hlvl i (p + 1)

/-- Completeness of `fwdAux`: a position with the first higher level is
found. -/
theorem fwdAux_eq_some {sl : SkipList} {i : Nat} :
    ∀ q r, q ≤ r → r ≤ sl.nodes.length → i < sl.lvlAt r →
      (∀ s, q ≤ s → s < r → sl.lvlAt s ≤ i) → sl.fwdAux i q = some r := by
  have H : ∀ m q r, r - q ≤ m → q ≤ r → r ≤ sl.nodes.length → i < sl.lvlAt r →
      (∀ s, q ≤ s → s < r → sl.lvlAt s ≤ i) → sl.fwdAux i q = some r := by
    intro m
    induction m with
    | zero =>
      intro q r hm h1 h2 h3 h4
      have hqr : q = r := by omega
      subst hqr
      unfold SkipList.fwdAux
      rw [dif_neg (by omega), if_pos h3]
    | succ m ih =>
      intro q r hm h1 h2 h3 h4
      unfold SkipList.fwdAux
      rw [dif_neg (by omega)]
      by_cases hq : i < sl.lvlAt q
      · rw [if_pos hq]
        have : q = r := by
          by_contra hne
          have := h4 q (le_refl q) (by omega)
          omega
        rw [this]
      · rw [if_neg hq]
        have hqr : q ≠ r := by
          intro hEq
          exact hq (hEq ▸ h3)
        exact ih (q + 1) r (by omega) (by omega) h2 h3
          (fun s hs1 hs2 => h4 s (by omega) hs2)
  exact fun q r => H (r - q) q r (le_refl _)

theorem fwdAux_eq_none {sl : SkipList} {i : Nat} :
    ∀ q, (∀ s, q ≤ s → s ≤ sl.nodes.length → sl.lvlAt s ≤ i) →
      sl.fwdAux i q = none := by
  have H : ∀ m q, sl.nodes.length + 1 - q ≤ m →
      (∀ s, q ≤ s → s ≤ sl.nodes.length → sl.lvlAt s ≤ i) → sl.fwdAux i q = none := by
    intro m
    induction m with
    | zero =>
      intro q hm h
      unfold SkipList.fwdAux
      rw [dif_pos (by omega)]
    | succ m ih =>
      intro q hm h
      unfold SkipList.fwdAux
      by_cases hlt : sl.nodes.length < q
      · rw [dif_pos hlt]
      · rw [dif_neg hlt]
        rw [if_neg (by have := h q (le_refl q) (by omega); omega)]
        exact ih (q + 1) (by omega) (fun s hs1 hs2 => h s (by omega) hs2)
  exact fun q => H (sl.nodes.length + 1 - q) q (le_refl _)

theorem fwdAux_between {sl : SkipList} {i : Nat} :
    ∀ {q r : Nat}, sl.fwdAux i q = some r → ∀ s, q ≤ s → s < r → sl.lvlAt s ≤ i := by
  have H : ∀ m {q r}, sl.nodes.length + 1 - q ≤ m → sl.fwdAux i q = some r →
      ∀ s, q ≤ s → s < r → sl.lvlAt s ≤ i := by
    intro m
    induction m with
    | zero =>
      intro q r hm h
      unfold SkipList.fwdAux at h
      rw [dif_pos (by omega)] at h
      exact absurd h (by simp)
    | succ m ih =>
      intro q r hm h
      unfold SkipList.fwdAux at h
      split at h
      · exact absurd h (by simp)
      · rename_i hnlt
        split at h
        · cases h
          intro s hs1 hs2
          omega
        · rename_i hnl
          intro s hs1 hs2
          rcases Nat.eq_or_lt_of_le hs1 with hEq | hlt
          · subst hEq
            omega
          · exact ih (by omega) h s (by omega) hs2
  exact fun {q r} h => H (sl.nodes.length + 1 - q) (le_refl _) h

theorem fwdAux_none_all {sl : SkipList} {i : Nat} :
    ∀ {q : Nat}, sl.fwdAux i q = none → ∀ s, q ≤ s → s ≤ sl.nodes.length →
      sl.lvlAt s ≤ i := by
  have H : ∀ m {q}, sl.nodes.length + 1 - q ≤ m → sl.fwdAux i q = none →
      ∀ s, q ≤ s → s ≤ sl.nodes.length → sl.lvlAt s ≤ i := by
    intro m
    induction m with
    | zero =>
      intro q hm h s hs1 hs2
      omega
    | succ m ih =>
      intro q hm h
      unfold SkipList.fwdAux at h
      split at h
      · rename_i hlt
        intro s hs1 hs2
        omega
      · rename_i hnlt
        split at h
        · exact absurd h (by simp)
        · rename_i hnl
          intro s hs1 hs2
          rcases Nat.eq_or_lt_of_le hs1 with hEq | hlt
          · subst hEq
            omega
          · exact ih (by omega) h s (by omega) hs2
  exact fun {q} h => H (sl.nodes.length + 1 - q) (le_refl _) h

/-- Combined characterization of the derived forward pointer. -/
theorem fwd_eq_some {sl : SkipList} {i p q : Nat} (h1 : p < q) (h2 : q ≤ sl.nodes.length)
    (h3 : i < sl.lvlAt q) (h4 : ∀ s, p < s → s < q → sl.lvlAt s ≤ i) :
    sl.fwd i p = some q :=
  fwdAux_eq_some (p + 1) q (by omega) h2 h3 (fun s hs1 hs2 => h4 s (by omega) hs2)

theorem fwd_eq_none {sl : SkipList} {i p : Nat}
    (h : ∀ s, p < s → s ≤ sl.nodes.length → sl.lvlAt s ≤ i) :
    sl.fwd i p = none :=
  fwdAux_eq_none (p + 1) (fun s hs1 hs2 => h s (by omega) hs2)

theorem fwd_between {sl : SkipList} {i p q : Nat} (h : sl.fwd i p = some q) :
    ∀ s, p < s → s < q → sl.lvlAt s ≤ i :=
  fun s hs1 hs2 => fwdAux_between h s (by omega) hs2

theorem fwd_none_all {sl : SkipList} {i p : Nat} (h : sl.fwd i p = none) :
    ∀ s, p < s → s ≤ sl.nodes.length → sl.lvlAt s ≤ i :=
  fun s hs1 hs2 => fwdAux_none_all h s (by omega) hs2

/-- At level 0 the forward chain is the node list itself. -/
theorem fwd_zero {sl : SkipList} (hlv : ∀ nd ∈ sl.nodes, 1 ≤ nd.lvl) (p : Nat) :
    sl.fwd 0 p = if p < sl.nodes.length then some (p + 1) else none := by
  by_cases hp : p < sl.nodes.length
  · rw [if_pos hp]
    have h3 : 0 < sl.lvlAt (p + 1) := by
      rw [lvlAt_succ_lt hp]
      exact hlv _ (List.getElem_mem hp)
    exact fwd_eq_some (by omega) (by omega) h3 (fun s hs1 hs2 => by omega)
  · rw [if_neg hp]
    refine fwd_eq_none (fun s hs1 hs2 => ?_)
    cases s with
    | zero => omega
    | succ j =>
      have hz := @lvlAt_succ_ge sl j (by omega)
      omega

theorem set_get_self {α : Type} (l : List α) (n : Nat) (h : n < l.length) :
    l.set n (l.get ⟨n, h⟩) = l := by
  apply List.ext_getElem
  · simp
  · intro i h1 h2
    by_cases hi : i = n
    · subst hi
      simp
    · rw [List.getElem_set_ne (by omega)]

/-- Two skip lists with the same nodes up to span contents: same length,
levels, values, pairs, level cursor and span-array lengths. -/
def SameSkel (sl0 sl2 : SkipList) : Prop :=
  sl2.nodes.length = sl0.nodes.length ∧
  (∀ q, sl2.lvlAt q = sl0.lvlAt q) ∧
  (∀ q, sl2.valAt q = sl0.valAt q) ∧
  sl2.level = sl0.level ∧
  pairsOf sl2 = pairsOf sl0 ∧
  (∀ q, spanLenAt sl2 q = spanLenAt sl0 q) ∧
  sl2.headerSpan.length = sl0.headerSpan.length

theorem SameSkel.refl (sl : SkipList) : SameSkel sl sl :=
  ⟨rfl, fun _ => rfl, fun _ => rfl, rfl, rfl, fun _ => rfl, rfl⟩

theorem SameSkel.trans {a b c : SkipList} (h1 : SameSkel a b) (h2 : SameSkel b c) :
    SameSkel a c :=
  ⟨h2.1.trans h1.1, fun q => (h2.2.1 q).trans (h1.2.1 q),
   fun q => (h2.2.2.1 q).trans (h1.2.2.1 q), h2.2.2.2.1.trans h1.2.2.2.1,
   h2.2.2.2.2.1.trans h1.2.2.2.2.1,
   fun q => (h2.2.2.2.2.2.1 q).trans (h1.2.2.2.2.2.1 q),
   h2.2.2.2.2.2.2.trans h1.2.2.2.2.2.2⟩

theorem SameSkel.fwd_eq {sl0 sl2 : SkipList} (h : SameSkel sl0 sl2) (i p : Nat) :
    sl2.fwd i p = sl0.fwd i p :=
  fwd_congr h.1 h.2.1 i p

/-- `writeSpan` leaves the skeleton unchanged. -/
theorem writeSpan_skel (sl : SkipList) (p i : Nat) (v : Int) :
    SameSkel sl (sl.writeSpan p i v) := by
  unfold SkipList.writeSpan
  cases p with
  | zero =>
    dsimp only
    refine ⟨rfl, fun q => rfl, fun q => rfl, rfl, rfl, fun q => ?_, by simp⟩
    cases q with
    | zero => show (sl.headerSpan.set i v).length = _; simp [spanLenAt]
    | succ j => rfl
  | succ j =>
    dsimp only
    cases hnd : sl.nodes[j]? with
    | none => exact SameSkel.refl sl
    | some nd =>
      have hjlen : j < sl.nodes.length := by
        by_contra hge
        rw [List.getElem?_eq_none (by omega)] at hnd
        cases hnd
      dsimp only
      refine ⟨by simp, fun q => ?_, fun q => ?_, rfl, ?_, fun q => ?_, rfl⟩
      · cases q with
        | zero => rfl
        | succ j2 =>
          show (match (sl.nodes.set j _)[j2]? with | some nd => nd.lvl | none => 0) = _
          by_cases hj : j2 = j
          · subst hj
            rw [List.getElem?_set_self hjlen, lvlAt_succ_lt hjlen]
            rw [List.getElem?_eq_getElem hjlen] at hnd
            cases hnd
            rfl
          · rw [List.getElem?_set_ne (fun h => hj h.symm)]
            rfl
      · cases q with
        | zero => rfl
        | succ j2 =>
          show (match (sl.nodes.set j _)[j2]? with
            | some nd => (nd.score, nd.member) | none => ((0 : Int), "")) = _
          by_cases hj : j2 = j
          · subst hj
            rw [List.getElem?_set_self hjlen]
            show _ = sl.valAt (j2 + 1)
            rw [List.getElem?_eq_getElem hjlen] at hnd
            cases hnd
            show ((sl.nodes[j2].score, sl.nodes[j2].member) : Int × String) = _
            show _ = (match sl.nodes[j2]? with
              | some nd => (nd.score, nd.member) | none => ((0 : Int), ""))
            rw [List.getElem?_eq_getElem hjlen]
          · rw [List.getElem?_set_ne (fun h => hj h.symm)]
            rfl
      · show (sl.nodes.set j _).map _ = _
        rw [List.map_set]
        rw [List.getElem?_eq_getElem hjlen] at hnd
        cases hnd
        show (pairsOf sl).set j ((sl.nodes[j].score, sl.nodes[j].member)) = pairsOf sl
        have hjp : j < (pairsOf sl).length := by rw [length_pairsOf]; exact hjlen
        have hthis : ((sl.nodes[j].score, sl.nodes[j].member) : Int × String) =
            (pairsOf sl).get ⟨j, hjp⟩ := by
          simp [pairsOf]
        rw [hthis, set_get_self]
      · cases q with
        | zero => rfl
        | succ j2 =>
          show (match (sl.nodes.set j _)[j2]? with
            | some nd => nd.span.length | none => 0) = spanLenAt sl (j2 + 1)
          by_cases hj : j2 = j
          · subst hj
            rw [List.getElem?_set_self hjlen]
            show (nd.span.set i v).length = _
            rw [List.length_set]
            show _ = (match sl.nodes[j2]? with | some nd => nd.span.length | none => 0)
            rw [hnd]
          · rw [List.getElem?_set_ne (fun h => hj h.symm)]
            rfl

/-- `writeSpan` changes no span slot other than the one written. -/
theorem writeSpan_spanAt_other (sl : SkipList) (p i : Nat) (v : Int) {p2 i2 : Nat}
    (h : p2 ≠ p ∨ i2 ≠ i) :
    (sl.writeSpan p i v).spanAt p2 i2 = sl.spanAt p2 i2 := by
  unfold SkipList.writeSpan
  cases p with
  | zero =>
    dsimp only
    cases p2 with
    | zero =>
      show (sl.headerSpan.set i v).getD i2 0 = sl.headerSpan.getD i2 0
      have hne : i2 ≠ i := by
        rcases h with h | h
        · exact absurd rfl h
        · exact h
      rw [List.getD_eq_getElem?_getD, List.getD_eq_getElem?_getD,
        List.getElem?_set_ne (fun hEq => hne hEq.symm)]
    | succ j2 => rfl
  | succ j =>
    dsimp only
    cases hnd : sl.nodes[j]? with
    | none => rfl
    | some nd =>
      have hjlen : j < sl.nodes.length := by
        by_contra hge
        rw [List.getElem?_eq_none (by omega)] at hnd
        cases hnd
      dsimp only
      cases p2 with
      | zero => rfl
      | succ j2 =>
        show (match (sl.nodes.set j _)[j2]? with
          | some nd => nd.span.getD i2 0 | none => 0) = sl.spanAt (j2 + 1) i2
        by_cases hj : j2 = j
        · subst hj
          rw [List.getElem?_set_self hjlen]
          have hne : i2 ≠ i := by
            rcases h with h | h
            · exact absurd rfl h
            · exact h
          show (nd.span.set i v).getD i2 0 = _
          rw [List.getD_eq_getElem?_getD, List.getElem?_set_ne (fun hEq => hne hEq.symm)]
          show _ = (match sl.nodes[j2]? with
            | some nd => nd.span.getD i2 0 | none => 0)
          rw [hnd]
          show (nd.span[i2]?).getD 0 = nd.span.getD i2 0
          rw [List.getD_eq_getElem?_getD]
        · rw [List.getElem?_set_ne (fun hEq => hj hEq.symm)]
          rfl

/-- The written span slot holds the written value (when the slot exists). -/
theorem writeSpan_spanAt_same (sl : SkipList) (p i : Nat) (v : Int)
    (h : i < spanLenAt sl p) :
    (sl.writeSpan p i v).spanAt p i = v := by
  unfold SkipList.writeSpan
  cases p with
  | zero =>
    dsimp only
    show (sl.headerSpan.set i v).getD i 0 = v
    have hlen : i < sl.headerSpan.length := h
    rw [List.getD_eq_getElem?_getD, List.getElem?_set_self hlen]
    rfl
  | succ j =>
    dsimp only
    cases hnd : sl.nodes[j]? with
    | none =>
      exfalso
      have : spanLenAt sl (j + 1) = 0 := by
        show (match sl.nodes[j]? with | some nd => nd.span.length | none => 0) = 0
        rw [hnd]
      omega
    | some nd =>
      have hjlen : j < sl.nodes.length := by
        by_contra hge
        rw [List.getElem?_eq_none (by omega)] at hnd
        cases hnd
      dsimp only
      show (match (sl.nodes.set j { nd with span := nd.span.set i v })[j]? with
        | some nd2 => nd2.span.getD i 0 | none => 0) = v
      rw [List.getElem?_set_self hjlen]
      show (nd.span.set i v).getD i 0 = v
      have hlen : i < nd.span.length := by
        have h2 : spanLenAt sl (j + 1) = nd.span.length := by
          show (match sl.nodes[j]? with | some nd => nd.span.length | none => 0) = _
          rw [hnd]
        omega
      rw [List.getD_eq_getElem?_getD, List.getElem?_set_self hlen]
      rfl

/-- A fold of span writes at pairwise-distinct levels: the skeleton is kept,
slots at other levels (or other positions) are untouched, and each written
slot ends up holding its value. -/
theorem writeFold_spec (sl0 : SkipList) (f : SkipList → Nat → SkipList)
    (g : Nat → Nat) (w : Nat → Int)
    (hf : ∀ s i, SameSkel sl0 s → s.spanAt (g i) i = sl0.spanAt (g i) i →
      f s i = s.writeSpan (g i) i (w i)) :
    ∀ (ks : List Nat), ks.Nodup → ∀ (s : SkipList), SameSkel sl0 s →
      (∀ i ∈ ks, s.spanAt (g i) i = sl0.spanAt (g i) i) →
      SameSkel sl0 (ks.foldl f s) ∧
        (∀ p2 i2, ¬(i2 ∈ ks ∧ p2 = g i2) →
          (ks.foldl f s).spanAt p2 i2 = s.spanAt p2 i2) ∧
        (∀ i ∈ ks, i < spanLenAt sl0 (g i) → (ks.foldl f s).spanAt (g i) i = w i) := by
  intro ks
  induction ks with
  | nil =>
    intro _ s hskel hagree
    exact ⟨hskel, fun p2 i2 _ => rfl, fun i hi => absurd hi (List.not_mem_nil i)⟩
  | cons k t ih =>
    intro hnd s hskel hagree
    have hknt : k ∉ t := (List.nodup_cons.mp hnd).1
    have htnd : t.Nodup := (List.nodup_cons.mp hnd).2
    have hstep : f s k = s.writeSpan (g k) k (w k) :=
      hf s k hskel (hagree k (List.mem_cons_self k t))
    have hfold : (k :: t).foldl f s = t.foldl f (f s k) := rfl
    rw [hfold, hstep]
    have hskel1 : SameSkel sl0 (s.writeSpan (g k) k (w k)) :=
      SameSkel.trans hskel (writeSpan_skel s (g k) k (w k))
    have hagree1 : ∀ i ∈ t, (s.writeSpan (g k) k (w k)).spanAt (g i) i =
        sl0.spanAt (g i) i := by
      intro i hi
      rw [writeSpan_spanAt_other s (g k) k (w k) (Or.inr (fun h => hknt (h ▸ hi)))]
      exact hagree i (List.mem_cons_of_mem k hi)
    obtain ⟨ihA, ihB, ihC⟩ := ih htnd (s.writeSpan (g k) k (w k)) hskel1 hagree1
    refine ⟨ihA, ?_, ?_⟩
    · intro p2 i2 hni
      have hni2 : ¬(i2 ∈ t ∧ p2 = g i2) := by
        intro ⟨h1, h2⟩
        exact hni ⟨List.mem_cons_of_mem k h1, h2⟩
      rw [ihB p2 i2 hni2]
      refine writeSpan_spanAt_other s (g k) k (w k) ?_
      by_cases hik : i2 = k
      · subst hik
        left
        intro hEq
        exact hni ⟨List.mem_cons_self i2 t, hEq⟩
      · right
        exact hik
    · intro i hi hlen
      rcases List.mem_cons.mp hi with hEq | hit
      · subst hEq
        have hnt : ¬(i ∈ t ∧ g i = g i) := fun ⟨h1, _⟩ => hknt h1
        rw [ihB (g i) i hnt]
        refine writeSpan_spanAt_same s (g i) i (w i) ?_
        rw [hskel.2.2.2.2.2.1 (g i)]
        exact hlen
      · exact ihC i hit hlen

theorem getD_append_left {α : Type} (l1 l2 : List α) (d : α) (j : Nat)
    (h : j < l1.length) : (l1 ++ l2).getD j d = l1.getD j d := by
  rw [List.getD_eq_getElem?_getD, List.getD_eq_getElem?_getD,
    List.getElem?_append_left h]

theorem getD_append_last {α : Type} (l1 : List α) (a d : α) :
    (l1 ++ [a]).getD l1.length d = a := by
  rw [List.getD_eq_getElem?_getD, List.getElem?_append_right (le_refl _)]
  simp

/-- The inner walk of the search: it stays on positions whose value is
below the target, tracks its own position as the accumulated rank, never
moves backwards, and stops exactly when the next same-level node is not
below the target. -/
theorem walk_spec (sl : SkipList) (sc : Int) (mb : String) (hspan : SpanOK sl)
    (i : Nat) (hil : i < sl.level) :
    ∀ p r, p ≤ sl.nodes.length → i < sl.lvlAt p →
      (p = 0 ∨ pairLt (sl.valAt p) (sc, mb)) → r = (p : Int) →
      (sl.walk i sc mb p r).1 ≤ sl.nodes.length ∧
        i < sl.lvlAt (sl.walk i sc mb p r).1 ∧
        ((sl.walk i sc mb p r).1 = 0 ∨ pairLt (sl.valAt (sl.walk i sc mb p r).1) (sc, mb)) ∧
        (sl.walk i sc mb p r).2 = ((sl.walk i sc mb p r).1 : Int) ∧
        p ≤ (sl.walk i sc mb p r).1 ∧
        (∀ q, sl.fwd i (sl.walk i sc mb p r).1 = some q →
          ¬ pairLt (sl.valAt q) (sc, mb)) := by
  have H : ∀ m p r, sl.nodes.length + 1 - p ≤ m → p ≤ sl.nodes.length →
      i < sl.lvlAt p → (p = 0 ∨ pairLt (sl.valAt p) (sc, mb)) → r = (p : Int) →
      (sl.walk i sc mb p r).1 ≤ sl.nodes.length ∧
        i < sl.lvlAt (sl.walk i sc mb p r).1 ∧
        ((sl.walk i sc mb p r).1 = 0 ∨ pairLt (sl.valAt (sl.walk i sc mb p r).1) (sc, mb)) ∧
        (sl.walk i sc mb p r).2 = ((sl.walk i sc mb p r).1 : Int) ∧
        p ≤ (sl.walk i sc mb p r).1 ∧
        (∀ q, sl.fwd i (sl.walk i sc mb p r).1 = some q →
          ¬ pairLt (sl.valAt q) (sc, mb)) := by
    intro m
    induction m with
    | zero =>
      intro p r hm hp
      omega
    | succ m ih =>
      intro p r hm hp hpl hpv hr
      unfold SkipList.walk
      split
      · rename_i hq
        refine ⟨hp, hpl, hpv, hr, le_refl p, ?_⟩
        intro q2 hq2
        rw [hq] at hq2
        cases hq2
      · rename_i q hq
        by_cases hlt : compareScoreMember (sl.valAt q).1 (sl.valAt q).2 sc mb =
            Ordering.lt
        · rw [if_pos hlt]
          obtain ⟨hq1, hq2, hq3⟩ := fwd_bounds hq
          have hqv : pairLt (sl.valAt q) (sc, mb) := by
            have h2 := compareScoreMember_eq_lt.mp hlt
            simpa using h2
          have hr2 : r + sl.spanAt p i = (q : Int) := by
            rw [hr, hspan.spec hil hpl hq]
            ring
          obtain ⟨a1, a2, a3, a4, a5, a6⟩ :=
            ih q (r + sl.spanAt p i) (by omega) hq2 hq3 (Or.inr hqv) hr2
          exact ⟨a1, a2, a3, a4, le_trans (by omega) a5, a6⟩
        · rw [if_neg hlt]
          refine ⟨hp, hpl, hpv, hr, le_refl p, ?_⟩
          intro q2 hq2
          rw [hq] at hq2
          cases hq2
          intro hq2v
          exact hlt (compareScoreMember_eq_lt.mpr (by simpa using hq2v))
  exact fun p r => H (sl.nodes.length + 1 - p) p r (le_refl _)

/-- What the search records for one level: a position bounded by the list,
live at that level, below the target (or the header), whose recorded rank
is its position, and whose same-level successor is not below the target. -/
def EntryOK (sl : SkipList) (sc : Int) (mb : String) (j : Nat) (e : Nat × Int) : Prop :=
  e.1 ≤ sl.nodes.length ∧ j < sl.lvlAt e.1 ∧
  (e.1 = 0 ∨ pairLt (sl.valAt e.1) (sc, mb)) ∧ e.2 = (e.1 : Int) ∧
  (∀ q, sl.fwd j e.1 = some q → ¬ pairLt (sl.valAt q) (sc, mb))

theorem searchLevels_spec (sl : SkipList) (sc : Int) (mb : String) (hspan : SpanOK sl) :
    ∀ i p r, i < sl.level → p ≤ sl.nodes.length → i < sl.lvlAt p →
      (p = 0 ∨ pairLt (sl.valAt p) (sc, mb)) → r = (p : Int) →
      (sl.searchLevels sc mb i p r).length = i + 1 ∧
        (∀ j, j ≤ i → EntryOK sl sc mb j ((sl.searchLevels sc mb i p r).getD j (0, 0))) ∧
        (∀ j, j ≤ i → p ≤ ((sl.searchLevels sc mb i p r).getD j (0, 0)).1) ∧
        (∀ j, j ≤ i → ((sl.searchLevels sc mb i p r).getD j (0, 0)).1 ≤
          ((sl.searchLevels sc mb i p r).getD 0 (0, 0)).1) := by
  intro i
  induction i with
  | zero =>
    intro p r h0 hp hpl hpv hr
    obtain ⟨w1, w2, w3, w4, w5, w6⟩ := walk_spec sl sc mb hspan 0 h0 p r hp hpl hpv hr
    have hform : sl.searchLevels sc mb 0 p r = [sl.walk 0 sc mb p r] := rfl
    rw [hform]
    refine ⟨rfl, ?_, ?_, ?_⟩
    · intro j hj
      have hj0 : j = 0 := by omega
      subst hj0
      rw [List.getD_cons_zero]
      exact ⟨w1, w2, w3, w4, w6⟩
    · intro j hj
      have hj0 : j = 0 := by omega
      subst hj0
      rw [List.getD_cons_zero]
      exact w5
    · intro j hj
      have hj0 : j = 0 := by omega
      subst hj0
      exact le_refl _
  | succ i0 ih =>
    intro p r hI hp hpl hpv hr
    obtain ⟨w1, w2, w3, w4, w5, w6⟩ :=
      walk_spec sl sc mb hspan (i0 + 1) hI p r hp hpl hpv hr
    have hform : sl.searchLevels sc mb (i0 + 1) p r =
        sl.searchLevels sc mb i0 (sl.walk (i0 + 1) sc mb p r).1
          (sl.walk (i0 + 1) sc mb p r).2 ++ [sl.walk (i0 + 1) sc mb p r] := rfl
    rw [hform]
    obtain ⟨ih1, ih2, ih3, ih4⟩ := ih (sl.walk (i0 + 1) sc mb p r).1
      (sl.walk (i0 + 1) sc mb p r).2 (by omega) w1 (by omega) w3 w4
    have hlen : (sl.searchLevels sc mb i0 (sl.walk (i0 + 1) sc mb p r).1
        (sl.walk (i0 + 1) sc mb p r).2).length = i0 + 1 := ih1
    refine ⟨by rw [List.length_append, hlen]; rfl, ?_, ?_, ?_⟩
    · intro j hj
      rcases Nat.lt_or_ge j (i0 + 1) with hji | hji
      · rw [getD_append_left _ _ _ _ (by omega)]
        exact ih2 j (by omega)
      · have hje : j = i0 + 1 := by omega
        subst hje
        have hlast := getD_append_last (sl.searchLevels sc mb i0
          (sl.walk (i0 + 1) sc mb p r).1 (sl.walk (i0 + 1) sc mb p r).2)
          (sl.walk (i0 + 1) sc mb p r) ((0 : Nat), (0 : Int))
        rw [hlen] at hlast
        rw [hlast]
        exact ⟨w1, w2, w3, w4, w6⟩
    · intro j hj
      rcases Nat.lt_or_ge j (i0 + 1) with hji | hji
      · rw [getD_append_left _ _ _ _ (by omega)]
        exact le_trans w5 (ih3 j (by omega))
      · have hje : j = i0 + 1 := by omega
        subst hje
        have hlast := getD_append_last (sl.searchLevels sc mb i0
          (sl.walk (i0 + 1) sc mb p r).1 (sl.walk (i0 + 1) sc mb p r).2)
          (sl.walk (i0 + 1) sc mb p r) ((0 : Nat), (0 : Int))
        rw [hlen] at hlast
        rw [hlast]
        exact w5
    · intro j hj
      have h00 : ((sl.searchLevels sc mb i0 (sl.walk (i0 + 1) sc mb p r).1
          (sl.walk (i0 + 1) sc mb p r).2 ++ [sl.walk (i0 + 1) sc mb p r]).getD 0 (0, 0)) =
          ((sl.searchLevels sc mb i0 (sl.walk (i0 + 1) sc mb p r).1
          (sl.walk (i0 + 1) sc mb p r).2).getD 0 (0, 0)) :=
        getD_append_left _ _ _ _ (by omega)
      rw [h00]
      rcases Nat.lt_or_ge j (i0 + 1) with hji | hji
      · rw [getD_append_left _ _ _ _ (by omega)]
        exact ih4 j (by omega)
      · have hje : j = i0 + 1 := by omega
        subst hje
        have hlast := getD_append_last (sl.searchLevels sc mb i0
          (sl.walk (i0 + 1) sc mb p r).1 (sl.walk (i0 + 1) sc mb p r).2)
          (sl.walk (i0 + 1) sc mb p r) ((0 : Nat), (0 : Int))
        rw [hlen] at hlast
        rw [hlast]
        exact ih3 0 (by omega)

theorem search_spec (sl : SkipList) (sc : Int) (mb : String) (hspan : SpanOK sl)
    (hl1 : 1 ≤ sl.level) (hl2 : sl.level ≤ 32) :
    (sl.search sc mb).length = sl.level ∧
      (∀ j, j < sl.level → EntryOK sl sc mb j ((sl.search sc mb).getD j (0, 0))) ∧
      (∀ j, j < sl.level → ((sl.search sc mb).getD j (0, 0)).1 ≤
        ((sl.search sc mb).getD 0 (0, 0)).1) ∧
      (∀ j, sl.level ≤ j → (sl.search sc mb).getD j (0, 0) = (0, 0)) := by
  obtain ⟨h1, h2, h3, h4⟩ := searchLevels_spec sl sc mb hspan (sl.level - 1) 0 0
    (by omega) (by omega) (by rw [lvlAt_zero]; omega) (Or.inl rfl) rfl
  have hLL : (sl.search sc mb).length = sl.level := by
    show (sl.searchLevels sc mb (sl.level - 1) 0 0).length = sl.level
    rw [h1]
    omega
  refine ⟨hLL, ?_, ?_, ?_⟩
  · intro j hj
    exact h2 j (by omega)
  · intro j hj
    exact h4 j (by omega)
  · intro j hj
    rw [List.getD_eq_getElem?_getD, List.getElem?_eq_none (by rw [hLL]; omega)]
    rfl

/-- The level-0 search position is the number of pairs below the target. -/
theorem u0_eq_cntLt (sl : SkipList) (sc : Int) (mb : String) (hinv : SLInv sl) :
    ((sl.search sc mb).getD 0 (0, 0)).1 = cntLt (pairsOf sl) (sc, mb) := by
  obtain ⟨hs, hlvl, hl1, hl2, hhl, hspan⟩ := hinv
  obtain ⟨hL, hE, hM, hD⟩ := search_spec sl sc mb hspan hl1 hl2
  obtain ⟨e1, e2, e3, e4, e5⟩ := hE 0 (by omega)
  have hupper : cntLt (pairsOf sl) (sc, mb) ≤ ((sl.search sc mb).getD 0 (0, 0)).1 := by
    rcases Nat.lt_or_ge ((sl.search sc mb).getD 0 (0, 0)).1 sl.nodes.length with hlt | hge
    · have hfz := fwd_zero (fun nd hnd => (hlvl nd hnd).1)
        ((sl.search sc mb).getD 0 (0, 0)).1
      rw [if_pos hlt] at hfz
      have hnlt := e5 _ hfz
      rw [valAt_get hlt] at hnlt
      by_contra hgt
      push_neg at hgt
      exact hnlt ((sorted_prefix_iff hs (sc, mb)
        (by rw [length_pairsOf]; exact hlt)).mpr hgt)
    · have hc := cntLt_le (pairsOf sl) (sc, mb)
      rw [length_pairsOf] at hc
      omega
  have hlower : ((sl.search sc mb).getD 0 (0, 0)).1 ≤ cntLt (pairsOf sl) (sc, mb) := by
    by_cases h0u : ((sl.search sc mb).getD 0 (0, 0)).1 = 0
    · omega
    · have hv : pairLt (sl.valAt ((sl.search sc mb).getD 0 (0, 0)).1) (sc, mb) := by
        rcases e3 with h | h
        · exact absurd h h0u
        · exact h
      have hlt : ((sl.search sc mb).getD 0 (0, 0)).1 - 1 < sl.nodes.length := by omega
      have hval : sl.valAt ((sl.search sc mb).getD 0 (0, 0)).1 =
          (pairsOf sl).get ⟨((sl.search sc mb).getD 0 (0, 0)).1 - 1,
            by rw [length_pairsOf]; exact hlt⟩ := by
        have hvg := valAt_get hlt
        rw [show ((sl.search sc mb).getD 0 (0, 0)).1 - 1 + 1 =
          ((sl.search sc mb).getD 0 (0, 0)).1 from by omega] at hvg
        exact hvg
      rw [hval] at hv
      have := (sorted_prefix_iff hs (sc, mb)
        (j := ((sl.search sc mb).getD 0 (0, 0)).1 - 1)
        (by rw [length_pairsOf]; exact hlt)).mp hv
      omega
  omega

/-! ## Decomposition of `SkipList.insert` -/

/-- The search entry per level (`(update[i], rank[i])`). -/
def updEOf (sl : SkipList) (sc : Int) (mb : String) (i : Nat) : Nat × Int :=
  (sl.search sc mb).getD i (0, 0)

/-- The prepass initializing new top levels. -/
def insPre (sl : SkipList) (L : Nat) : SkipList :=
  if sl.level < L then
    (List.range' sl.level (L - sl.level)).foldl
      (fun s i => s.writeSpan 0 i (sl.nodes.length : Int)) sl
  else sl

/-- The node built by `insert`. -/
def insNode (sl : SkipList) (sc : Int) (mb : String) (L : Nat) : SLNode :=
  { score := sc, member := mb, lvl := L,
    span := (List.range L).map
      (fun i => (insPre sl L).spanAt (updEOf sl sc mb i).1 i -
        ((updEOf sl sc mb 0).2 - (updEOf sl sc mb i).2)) }

/-- The state after the update nodes' spans are rewritten. -/
def insSl2 (sl : SkipList) (sc : Int) (mb : String) (L : Nat) : SkipList :=
  (List.range (max sl.level L)).foldl (fun s i =>
    if i < L then s.writeSpan (updEOf sl sc mb i).1 i
      (((updEOf sl sc mb 0).2 - (updEOf sl sc mb i).2) + 1)
    else s.writeSpan (updEOf sl sc mb i).1 i (s.spanAt (updEOf sl sc mb i).1 i + 1))
    (insPre sl L)

theorem insert_decomp (sl : SkipList) (sc : Int) (mb : String) (L : Nat) :
    sl.insert sc mb L =
      { headerSpan := (insSl2 sl sc mb L).headerSpan,
        nodes := (insSl2 sl sc mb L).nodes.take (updEOf sl sc mb 0).1 ++
          insNode sl sc mb L :: (insSl2 sl sc mb L).nodes.drop (updEOf sl sc mb 0).1,
        level := max sl.level L } := rfl

/-! ## The spliced node list, position by position -/

theorem splice_getElem (l : List SLNode) (nd : SLNode) (u0 : Nat)
    (hu : u0 ≤ l.length) (j : Nat) :
    (l.take u0 ++ nd :: l.drop u0)[j]? =
      if j < u0 then l[j]? else if j = u0 then some nd else l[j - 1]? := by
  have hlt : (l.take u0).length = u0 := by
    rw [List.length_take]
    omega
  by_cases hj : j < u0
  · rw [if_pos hj, List.getElem?_append_left (by omega)]
    rw [List.getElem?_take_of_lt hj]
  · rw [if_neg hj]
    rw [List.getElem?_append_right (by omega)]
    rw [hlt]
    by_cases hje : j = u0
    · subst hje
      rw [if_pos rfl]
      simp
    · rw [if_neg hje]
      have hgt : u0 < j := by omega
      rw [show j - u0 = (j - u0 - 1) + 1 from by omega]
      rw [List.getElem?_cons_succ, List.getElem?_drop]
      rw [show u0 + (j - u0 - 1) = j - 1 from by omega]

theorem splice_length (l : List SLNode) (nd : SLNode) (u0 : Nat)
    (hu : u0 ≤ l.length) :
    (l.take u0 ++ nd :: l.drop u0).length = l.length + 1 := by
  rw [List.length_append, List.length_take, List.length_cons, List.length_drop]
  omega

theorem splice_lvlAt (sl2 : SkipList) (nd : SLNode) (u0 lvl2 : Nat)
    (hu : u0 ≤ sl2.nodes.length) (p : Nat) :
    (SkipList.mk sl2.headerSpan (sl2.nodes.take u0 ++ nd :: sl2.nodes.drop u0)
      lvl2).lvlAt p =
      if p ≤ u0 then sl2.lvlAt p else if p = u0 + 1 then nd.lvl
        else sl2.lvlAt (p - 1) := by
  cases p with
  | zero =>
    rw [if_pos (show 0 ≤ u0 by omega)]
    rfl
  | succ j =>
    show (match (sl2.nodes.take u0 ++ nd :: sl2.nodes.drop u0)[j]? with
      | some nd2 => nd2.lvl | none => 0) = _
    rw [splice_getElem sl2.nodes nd u0 hu j]
    by_cases h1 : j < u0
    · rw [if_pos h1, if_pos (show j + 1 ≤ u0 by omega)]
      rfl
    · rw [if_neg h1, if_neg (show ¬(j + 1 ≤ u0) by omega)]
      by_cases h2 : j = u0
      · rw [if_pos h2, if_pos (show j + 1 = u0 + 1 by omega)]
      · rw [if_neg h2, if_neg (show ¬(j + 1 = u0 + 1) by omega)]
        have hRHS : sl2.lvlAt (j + 1 - 1) =
            (match sl2.nodes[j - 1]? with | some nd2 => nd2.lvl | none => 0) := by
          rw [show j + 1 - 1 = (j - 1) + 1 from by omega]
          rfl
        rw [hRHS]

theorem splice_valAt (sl2 : SkipList) (nd : SLNode) (u0 lvl2 : Nat)
    (hu : u0 ≤ sl2.nodes.length) (p : Nat) :
    (SkipList.mk sl2.headerSpan (sl2.nodes.take u0 ++ nd :: sl2.nodes.drop u0)
      lvl2).valAt p =
      if p ≤ u0 then sl2.valAt p else if p = u0 + 1 then (nd.score, nd.member)
        else sl2.valAt (p - 1) := by
  cases p with
  | zero =>
    rw [if_pos (show 0 ≤ u0 by omega)]
    rfl
  | succ j =>
    show (match (sl2.nodes.take u0 ++ nd :: sl2.nodes.drop u0)[j]? with
      | some nd2 => (nd2.score, nd2.member) | none => ((0 : Int), "")) = _
    rw [splice_getElem sl2.nodes nd u0 hu j]
    by_cases h1 : j < u0
    · rw [if_pos h1, if_pos (show j + 1 ≤ u0 by omega)]
      rfl
    · rw [if_neg h1, if_neg (show ¬(j + 1 ≤ u0) by omega)]
      by_cases h2 : j = u0
      · rw [if_pos h2, if_pos (show j + 1 = u0 + 1 by omega)]
      · rw [if_neg h2, if_neg (show ¬(j + 1 = u0 + 1) by omega)]
        have hRHS : sl2.valAt (j + 1 - 1) =
            (match sl2.nodes[j - 1]? with
              | some nd2 => (nd2.score, nd2.member) | none => ((0 : Int), "")) := by
          rw [show j + 1 - 1 = (j - 1) + 1 from by omega]
          rfl
        rw [hRHS]

theorem splice_spanAt (sl2 : SkipList) (nd : SLNode) (u0 lvl2 : Nat)
    (hu : u0 ≤ sl2.nodes.length) (p i : Nat) :
    (SkipList.mk sl2.headerSpan (sl2.nodes.take u0 ++ nd :: sl2.nodes.drop u0)
      lvl2).spanAt p i =
      if p ≤ u0 then sl2.spanAt p i else if p = u0 + 1 then nd.span.getD i 0
        else sl2.spanAt (p - 1) i := by
  cases p with
  | zero =>
    rw [if_pos (show 0 ≤ u0 by omega)]
    rfl
  | succ j =>
    show (match (sl2.nodes.take u0 ++ nd :: sl2.nodes.drop u0)[j]? with
      | some nd2 => nd2.span.getD i 0 | none => 0) = _
    rw [splice_getElem sl2.nodes nd u0 hu j]
    by_cases h1 : j < u0
    · rw [if_pos h1, if_pos (show j + 1 ≤ u0 by omega)]
      rfl
    · rw [if_neg h1, if_neg (show ¬(j + 1 ≤ u0) by omega)]
      by_cases h2 : j = u0
      · rw [if_pos h2, if_pos (show j + 1 = u0 + 1 by omega)]
      · rw [if_neg h2, if_neg (show ¬(j + 1 = u0 + 1) by omega)]
        have hRHS : sl2.spanAt (j + 1 - 1) i =
            (match sl2.nodes[j - 1]? with
              | some nd2 => nd2.span.getD i 0 | none => 0) := by
          rw [show j + 1 - 1 = (j - 1) + 1 from by omega]
          rfl
        rw [hRHS]

theorem splice_pairs (sl2 : SkipList) (nd : SLNode) (u0 lvl2 : Nat) :
    pairsOf (SkipList.mk sl2.headerSpan
      (sl2.nodes.take u0 ++ nd :: sl2.nodes.drop u0) lvl2) =
      (pairsOf sl2).take u0 ++ (nd.score, nd.member) :: (pairsOf sl2).drop u0 := by
  show (sl2.nodes.take u0 ++ nd :: sl2.nodes.drop u0).map _ = _
  rw [List.map_append, List.map_cons, List.map_take, List.map_drop]
  rfl

theorem spanLenAt_succ_lt {sl : SkipList} {j : Nat} (h : j < sl.nodes.length) :
    spanLenAt sl (j + 1) = sl.nodes[j].span.length := by
  show (match sl.nodes[j]? with | some nd => nd.span.length | none => 0) = _
  rw [List.getElem?_eq_getElem h]

/-- Node-level and span-length bounds transfer along a skeleton equality. -/
theorem skel_nodeOK {sl sl2 : SkipList} (h : SameSkel sl sl2)
    (hn : ∀ nd ∈ sl.nodes, 1 ≤ nd.lvl ∧ nd.lvl ≤ sl.level ∧ nd.span.length = nd.lvl) :
    ∀ nd ∈ sl2.nodes, 1 ≤ nd.lvl ∧ nd.lvl ≤ sl.level ∧ nd.span.length = nd.lvl := by
  intro nd hmem
  obtain ⟨j, hj, hget⟩ := List.mem_iff_getElem.mp hmem
  have hjs : j < sl.nodes.length := by rw [← h.1]; exact hj
  have hlvlEq : nd.lvl = sl.nodes[j].lvl := by
    have h1 := @lvlAt_succ_lt sl2 j hj
    have h2 := @lvlAt_succ_lt sl j hjs
    rw [hget] at h1
    rw [← h1, h.2.1 (j + 1), h2]
  have hspEq : nd.span.length = sl.nodes[j].span.length := by
    have h1 := @spanLenAt_succ_lt sl2 j hj
    have h2 := @spanLenAt_succ_lt sl j hjs
    rw [hget] at h1
    rw [← h1, h.2.2.2.2.2.1 (j + 1), h2]
  have hp := hn sl.nodes[j] (List.getElem_mem hjs)
  rw [hlvlEq, hspEq]
  exact hp

theorem rangeMap_getD {α : Type} (L i : Nat) (f : Nat → α) (d : α) (h : i < L) :
    ((List.range L).map f).getD i d = f i := by
  rw [List.getD_eq_getElem?_getD, List.getElem?_map, List.getElem?_range h]
  rfl

/-- The top-level prepass of `insert`: skeleton kept; the only spans touched
are the header's at the fresh levels `[level, newLevel)`, each set to the node
count. -/
theorem insPre_spec (sl : SkipList) (L : Nat) (hhl : sl.headerSpan.length = 32)
    (hL32 : L ≤ 32) :
    SameSkel sl (insPre sl L) ∧
    (∀ p i, ¬(sl.level ≤ i ∧ i < L ∧ p = 0) →
      (insPre sl L).spanAt p i = sl.spanAt p i) ∧
    (∀ i, sl.level ≤ i → i < L →
      (insPre sl L).spanAt 0 i = (sl.nodes.length : Int)) := by
  unfold insPre
  by_cases hlt : sl.level < L
  · rw [if_pos hlt]
    have hf : ∀ (s : SkipList) (i : Nat), SameSkel sl s →
        s.spanAt 0 i = sl.spanAt 0 i →
        s.writeSpan 0 i (sl.nodes.length : Int) =
          s.writeSpan 0 i (sl.nodes.length : Int) := fun _ _ _ _ => rfl
    obtain ⟨hA, hB, hC⟩ := writeFold_spec sl
      (fun s i => s.writeSpan 0 i (sl.nodes.length : Int))
      (fun _ => 0) (fun _ => (sl.nodes.length : Int)) hf
      (List.range' sl.level (L - sl.level)) (List.nodup_range' _ _) sl
      (SameSkel.refl sl) (fun _ _ => rfl)
    refine ⟨hA, ?_, ?_⟩
    · intro p i hni
      refine hB p i ?_
      intro hmem
      rw [List.mem_range'_1] at hmem
      exact hni ⟨hmem.1.1, by omega, hmem.2⟩
    · intro i h1 h2
      have hm : i ∈ List.range' sl.level (L - sl.level) := by
        rw [List.mem_range'_1]
        omega
      refine hC i hm ?_
      show i < sl.headerSpan.length
      omega
  · rw [if_neg hlt]
    exact ⟨SameSkel.refl sl, fun _ _ _ => rfl, fun i h1 h2 => by omega⟩

/-- Between `update[i]` (exclusive) and `update[0]` (inclusive) no node
reaches above level `i`: the level-`i` walk stopped at `update[i]` because
everything below the insertion point past it is low. -/
theorem ins_gapB1 (sl : SkipList) (sc : Int) (mb : String) (hinv : SLInv sl)
    (i : Nat) (hi : i < sl.level) :
    ∀ s, (updEOf sl sc mb i).1 < s → s ≤ (updEOf sl sc mb 0).1 → sl.lvlAt s ≤ i := by
  obtain ⟨hsort, hlvlN, hl1, hl2, hhl, hspan⟩ := hinv
  obtain ⟨hSL, hSE, hSM, hSD⟩ := search_spec sl sc mb hspan hl1 hl2
  have hEu : ∀ j, j < sl.level → EntryOK sl sc mb j (updEOf sl sc mb j) := hSE
  have hcnt : (updEOf sl sc mb 0).1 = cntLt (pairsOf sl) (sc, mb) :=
    u0_eq_cntLt sl sc mb ⟨hsort, hlvlN, hl1, hl2, hhl, hspan⟩
  have hu0n : (updEOf sl sc mb 0).1 ≤ sl.nodes.length := (hEu 0 (by omega)).1
  obtain ⟨e1, e2, e3, e4, e5⟩ := hEu i hi
  intro s hs1 hs2
  cases hfw : sl.fwd i (updEOf sl sc mb i).1 with
  | none => exact fwd_none_all hfw s hs1 (by omega)
  | some q =>
    rcases Nat.lt_or_ge s q with hlt | hge
    · exact fwd_between hfw s hs1 hlt
    · exfalso
      obtain ⟨hb1, hb2, hb3⟩ := fwd_bounds hfw
      have hq1 : q - 1 < sl.nodes.length := by omega
      have hqcnt : q - 1 < cntLt (pairsOf sl) (sc, mb) := by omega
      have hvq : pairLt (sl.valAt q) (sc, mb) := by
        have hvg := valAt_get hq1
        rw [show q - 1 + 1 = q from by omega] at hvg
        rw [hvg]
        exact (sorted_prefix_iff hsort (sc, mb)
          (by rw [length_pairsOf]; exact hq1)).mpr hqcnt
      exact e5 q hfw hvq

/-- The level-`i` forward pointer of `update[i]` is null or jumps past the
insertion point. -/
theorem ins_fwdB2 (sl : SkipList) (sc : Int) (mb : String) (hinv : SLInv sl)
    (i : Nat) (hi : i < sl.level) :
    sl.fwd i (updEOf sl sc mb i).1 = none ∨
      ∃ q, sl.fwd i (updEOf sl sc mb i).1 = some q ∧ (updEOf sl sc mb 0).1 < q := by
  obtain ⟨hsort, hlvlN, hl1, hl2, hhl, hspan⟩ := hinv
  obtain ⟨hSL, hSE, hSM, hSD⟩ := search_spec sl sc mb hspan hl1 hl2
  have hEu : ∀ j, j < sl.level → EntryOK sl sc mb j (updEOf sl sc mb j) := hSE
  have hcnt : (updEOf sl sc mb 0).1 = cntLt (pairsOf sl) (sc, mb) :=
    u0_eq_cntLt sl sc mb ⟨hsort, hlvlN, hl1, hl2, hhl, hspan⟩
  obtain ⟨e1, e2, e3, e4, e5⟩ := hEu i hi
  cases hfw : sl.fwd i (updEOf sl sc mb i).1 with
  | none => exact Or.inl rfl
  | some q =>
    refine Or.inr ⟨q, rfl, ?_⟩
    by_contra hle
    push_neg at hle
    obtain ⟨hb1, hb2, hb3⟩ := fwd_bounds hfw
    have hq1 : q - 1 < sl.nodes.length := by omega
    have hqcnt : q - 1 < cntLt (pairsOf sl) (sc, mb) := by omega
    have hvq : pairLt (sl.valAt q) (sc, mb) := by
      have hvg := valAt_get hq1
      rw [show q - 1 + 1 = q from by omega] at hvg
      rw [hvg]
      exact (sorted_prefix_iff hsort (sc, mb)
        (by rw [length_pairsOf]; exact hq1)).mpr hqcnt
    exact e5 q hfw hvq

/-- Every level below `max level newLevel` indexes a live slot of the span
array at its `update` position. -/
theorem ins_spanLen (sl : SkipList) (sc : Int) (mb : String) (L : Nat)
    (hinv : SLInv sl) (hL32 : L ≤ 32) :
    ∀ i, i < max sl.level L → i < spanLenAt sl (updEOf sl sc mb i).1 := by
  obtain ⟨hsort, hlvlN, hl1, hl2, hhl, hspan⟩ := hinv
  obtain ⟨hSL, hSE, hSM, hSD⟩ := search_spec sl sc mb hspan hl1 hl2
  have hEu : ∀ j, j < sl.level → EntryOK sl sc mb j (updEOf sl sc mb j) := hSE
  have hDu : ∀ j, sl.level ≤ j → updEOf sl sc mb j = (0, 0) := hSD
  intro i hi
  rcases Nat.lt_or_ge i sl.level with hil | hil
  · obtain ⟨e1, e2, e3, e4, e5⟩ := hEu i hil
    cases hui : (updEOf sl sc mb i).1 with
    | zero =>
      show i < sl.headerSpan.length
      omega
    | succ j =>
      rw [hui] at e2 e1
      have hj : j < sl.nodes.length := by omega
      rw [lvlAt_succ_lt hj] at e2
      rw [spanLenAt_succ_lt hj]
      have := hlvlN sl.nodes[j] (List.getElem_mem hj)
      omega
  · have hu0 : (updEOf sl sc mb i).1 = 0 := by rw [hDu i hil]
    rw [hu0]
    show i < sl.headerSpan.length
    omega

/-- The span-rewriting fold of `insert`: skeleton kept; only the `update`
slots change; slot `i < newLevel` becomes `(rank[0] - rank[i]) + 1`, higher
slots are incremented. -/
theorem insSl2_spec (sl : SkipList) (sc : Int) (mb : String) (L : Nat)
    (hinv : SLInv sl) (hL32 : L ≤ 32) :
    SameSkel sl (insSl2 sl sc mb L) ∧
    (∀ p i, ¬(i < max sl.level L ∧ p = (updEOf sl sc mb i).1) →
      (insSl2 sl sc mb L).spanAt p i = (insPre sl L).spanAt p i) ∧
    (∀ i, i < max sl.level L →
      (insSl2 sl sc mb L).spanAt (updEOf sl sc mb i).1 i =
        (if i < L then ((updEOf sl sc mb 0).2 - (updEOf sl sc mb i).2) + 1
         else (insPre sl L).spanAt (updEOf sl sc mb i).1 i + 1)) := by
  obtain ⟨hpre1, hpre2, hpre3⟩ := insPre_spec sl L hinv.2.2.2.2.1 hL32
  have hf : ∀ (s : SkipList) (i : Nat), SameSkel (insPre sl L) s →
      s.spanAt (updEOf sl sc mb i).1 i = (insPre sl L).spanAt (updEOf sl sc mb i).1 i →
      (if i < L then s.writeSpan (updEOf sl sc mb i).1 i
          (((updEOf sl sc mb 0).2 - (updEOf sl sc mb i).2) + 1)
        else s.writeSpan (updEOf sl sc mb i).1 i (s.spanAt (updEOf sl sc mb i).1 i + 1)) =
        s.writeSpan (updEOf sl sc mb i).1 i
          (if i < L then ((updEOf sl sc mb 0).2 - (updEOf sl sc mb i).2) + 1
            else (insPre sl L).spanAt (updEOf sl sc mb i).1 i + 1) := by
    intro s i hskel hag
    by_cases hiL : i < L
    · rw [if_pos hiL, if_pos hiL]
    · rw [if_neg hiL, if_neg hiL, hag]
  obtain ⟨hA, hB, hC⟩ := writeFold_spec (insPre sl L)
    (fun s i => if i < L then s.writeSpan (updEOf sl sc mb i).1 i
        (((updEOf sl sc mb 0).2 - (updEOf sl sc mb i).2) + 1)
      else s.writeSpan (updEOf sl sc mb i).1 i (s.spanAt (updEOf sl sc mb i).1 i + 1))
    (fun i => (updEOf sl sc mb i).1)
    (fun i => if i < L then ((updEOf sl sc mb 0).2 - (updEOf sl sc mb i).2) + 1
      else (insPre sl L).spanAt (updEOf sl sc mb i).1 i + 1)
    hf (List.range (max sl.level L)) (List.nodup_range _) (insPre sl L)
    (SameSkel.refl _) (fun _ _ => rfl)
  refine ⟨SameSkel.trans hpre1 hA, ?_, ?_⟩
  · intro p i hni
    refine hB p i ?_
    intro hmem
    exact hni ⟨List.mem_range.mp hmem.1, hmem.2⟩
  · intro i hi
    refine hC i (List.mem_range.mpr hi) ?_
    show i < spanLenAt (insPre sl L) (updEOf sl sc mb i).1
    rw [hpre1.2.2.2.2.2.1]
    exact ins_spanLen sl sc mb L hinv hL32 i hi

theorem insNode_lvl (sl : SkipList) (sc : Int) (mb : String) (L : Nat) :
    (insNode sl sc mb L).lvl = L := rfl

theorem insNode_span_len (sl : SkipList) (sc : Int) (mb : String) (L : Nat) :
    (insNode sl sc mb L).span.length = L := by
  show ((List.range L).map _).length = L
  rw [List.length_map, List.length_range]

theorem insNode_val (sl : SkipList) (sc : Int) (mb : String) (L : Nat) :
    ((insNode sl sc mb L).score, (insNode sl sc mb L).member) = (sc, mb) := rfl

theorem insNode_span_getD (sl : SkipList) (sc : Int) (mb : String) (L i : Nat)
    (h : i < L) :
    (insNode sl sc mb L).span.getD i 0 =
      (insPre sl L).spanAt (updEOf sl sc mb i).1 i -
        ((updEOf sl sc mb 0).2 - (updEOf sl sc mb i).2) := by
  show ((List.range L).map _).getD i 0 = _
  rw [rangeMap_getD L i _ 0 h]

/-- `insert` of a fresh pair on a well-formed skip list preserves the
invariant, and the level-0 pairs gain the new pair at index `cntLt`. -/
theorem insert_SLInv (sl : SkipList) (sc : Int) (mb : String) (L : Nat)
    (hinv : SLInv sl) (hL1 : 1 ≤ L) (hL32 : L ≤ 32)
    (hnm : (sc, mb) ∉ pairsOf sl) :
    SLInv (sl.insert sc mb L) ∧
    pairsOf (sl.insert sc mb L) =
      (pairsOf sl).take (cntLt (pairsOf sl) (sc, mb)) ++
        (sc, mb) :: (pairsOf sl).drop (cntLt (pairsOf sl) (sc, mb)) := by
  obtain ⟨hsort, hlvlN, hl1, hl2, hhl, hspan⟩ := hinv
  have hinv2 : SLInv sl := ⟨hsort, hlvlN, hl1, hl2, hhl, hspan⟩
  obtain ⟨hSL, hSE, hSM, hSD⟩ := search_spec sl sc mb hspan hl1 hl2
  have hEu : ∀ j, j < sl.level → EntryOK sl sc mb j (updEOf sl sc mb j) := hSE
  have hMu : ∀ j, j < sl.level →
      (updEOf sl sc mb j).1 ≤ (updEOf sl sc mb 0).1 := hSM
  have hDu : ∀ j, sl.level ≤ j → updEOf sl sc mb j = (0, 0) := hSD
  have hcnt : (updEOf sl sc mb 0).1 = cntLt (pairsOf sl) (sc, mb) :=
    u0_eq_cntLt sl sc mb hinv2
  have hu0n : (updEOf sl sc mb 0).1 ≤ sl.nodes.length := (hEu 0 (by omega)).1
  have hr0 : (updEOf sl sc mb 0).2 = ((updEOf sl sc mb 0).1 : Int) :=
    (hEu 0 (by omega)).2.2.2.1
  obtain ⟨hP1, hP2, hP3⟩ := insPre_spec sl L hhl hL32
  obtain ⟨hS1, hS2, hS3⟩ := insSl2_spec sl sc mb L hinv2 hL32
  have hlen2 : (insSl2 sl sc mb L).nodes.length = sl.nodes.length := hS1.1
  have hlvl2 : ∀ q, (insSl2 sl sc mb L).lvlAt q = sl.lvlAt q := hS1.2.1
  have hu0le : (updEOf sl sc mb 0).1 ≤ (insSl2 sl sc mb L).nodes.length := by omega
  have hlvlLe : ∀ s, 1 ≤ s → s ≤ sl.nodes.length → sl.lvlAt s ≤ sl.level := by
    intro s h1 h2
    cases s with
    | zero => omega
    | succ j =>
      rw [lvlAt_succ_lt (by omega)]
      exact (hlvlN _ (List.getElem_mem (by omega))).2.1
  have hri : ∀ i, i < max sl.level L →
      (updEOf sl sc mb i).2 = ((updEOf sl sc mb i).1 : Int) := by
    intro i hi
    rcases Nat.lt_or_ge i sl.level with hil | hil
    · exact (hEu i hil).2.2.2.1
    · rw [hDu i hil]
      simp
  have hMi : ∀ j, j < max sl.level L →
      (updEOf sl sc mb j).1 ≤ (updEOf sl sc mb 0).1 := by
    intro j hj
    rcases Nat.lt_or_ge j sl.level with h | h
    · exact hMu j h
    · have hz : (updEOf sl sc mb j).1 = 0 := by rw [hDu j h]
      omega
  rw [insert_decomp]
  set F : SkipList :=
    { headerSpan := (insSl2 sl sc mb L).headerSpan,
      nodes := (insSl2 sl sc mb L).nodes.take (updEOf sl sc mb 0).1 ++
        insNode sl sc mb L :: (insSl2 sl sc mb L).nodes.drop (updEOf sl sc mb 0).1,
      level := max sl.level L } with hF
  have hFlevel : F.level = max sl.level L := by rw [hF]
  have hFlen : F.nodes.length = sl.nodes.length + 1 := by
    rw [hF]
    show ((insSl2 sl sc mb L).nodes.take (updEOf sl sc mb 0).1 ++
      insNode sl sc mb L ::
        (insSl2 sl sc mb L).nodes.drop (updEOf sl sc mb 0).1).length = _
    rw [splice_length _ _ _ hu0le, hlen2]
  have hFlvl : ∀ p, F.lvlAt p =
      if p ≤ (updEOf sl sc mb 0).1 then sl.lvlAt p
      else if p = (updEOf sl sc mb 0).1 + 1 then L
      else sl.lvlAt (p - 1) := by
    intro p
    rw [hF, splice_lvlAt (insSl2 sl sc mb L) (insNode sl sc mb L)
      (updEOf sl sc mb 0).1 (max sl.level L) hu0le p, hlvl2 p, hlvl2 (p - 1),
      insNode_lvl]
  have hFval : ∀ p, F.valAt p =
      if p ≤ (updEOf sl sc mb 0).1 then sl.valAt p
      else if p = (updEOf sl sc mb 0).1 + 1 then (sc, mb)
      else sl.valAt (p - 1) := by
    intro p
    rw [hF, splice_valAt (insSl2 sl sc mb L) (insNode sl sc mb L)
      (updEOf sl sc mb 0).1 (max sl.level L) hu0le p, hS1.2.2.1 p,
      hS1.2.2.1 (p - 1), insNode_val]
  have hFspan : ∀ p i, F.spanAt p i =
      if p ≤ (updEOf sl sc mb 0).1 then (insSl2 sl sc mb L).spanAt p i
      else if p = (updEOf sl sc mb 0).1 + 1 then (insNode sl sc mb L).span.getD i 0
      else (insSl2 sl sc mb L).spanAt (p - 1) i := by
    intro p i
    rw [hF]
    exact splice_spanAt (insSl2 sl sc mb L) (insNode sl sc mb L)
      (updEOf sl sc mb 0).1 (max sl.level L) hu0le p i
  have hFpairs : pairsOf F =
      (pairsOf sl).take (cntLt (pairsOf sl) (sc, mb)) ++
        (sc, mb) :: (pairsOf sl).drop (cntLt (pairsOf sl) (sc, mb)) := by
    rw [hF, splice_pairs, hS1.2.2.2.2.1, hcnt, insNode_val]
  have hB1 := ins_gapB1 sl sc mb hinv2
  have hB2 := ins_fwdB2 sl sc mb hinv2
  have hok := skel_nodeOK hS1 hlvlN
  have hFnodes : ∀ nd ∈ F.nodes, 1 ≤ nd.lvl ∧ nd.lvl ≤ F.level ∧
      nd.span.length = nd.lvl := by
    intro nd hmem
    rw [hFlevel]
    have hmem' : nd ∈ (insSl2 sl sc mb L).nodes.take (updEOf sl sc mb 0).1 ++
        insNode sl sc mb L ::
          (insSl2 sl sc mb L).nodes.drop (updEOf sl sc mb 0).1 := by
      rw [hF] at hmem
      exact hmem
    rcases List.mem_append.mp hmem' with h1 | h2
    · have hmi : nd ∈ (insSl2 sl sc mb L).nodes := by
        have h3 := List.mem_append_left
          ((insSl2 sl sc mb L).nodes.drop (updEOf sl sc mb 0).1) h1
        rw [List.take_append_drop] at h3
        exact h3
      have hp := hok nd hmi
      exact ⟨hp.1, le_trans hp.2.1 (le_max_left _ _), hp.2.2⟩
    · rcases List.mem_cons.mp h2 with hEq | h3
      · subst hEq
        exact ⟨by rw [insNode_lvl]; exact hL1,
          by rw [insNode_lvl]; exact le_max_right _ _,
          by rw [insNode_span_len, insNode_lvl]⟩
      · have hmi : nd ∈ (insSl2 sl sc mb L).nodes := by
          have h4 := List.mem_append_right
            ((insSl2 sl sc mb L).nodes.take (updEOf sl sc mb 0).1) h3
          rw [List.take_append_drop] at h4
          exact h4
        have hp := hok nd hmi
        exact ⟨hp.1, le_trans hp.2.1 (le_max_left _ _), hp.2.2⟩
  have hFspanOK : SpanOK F := by
    intro p hp i hiF hilvlF
    have hiL2 : i < max sl.level L := by
      rw [hFlevel] at hiF
      exact hiF
    rw [hFlen] at hp
    rw [hFlvl p] at hilvlF
    by_cases hple : p ≤ (updEOf sl sc mb 0).1
    · rw [if_pos hple] at hilvlF
      by_cases hpui : p = (updEOf sl sc mb i).1
      · subst hpui
        by_cases hiL : i < L
        · -- the new node is linked in right after this update slot
          have hfwF : F.fwd i (updEOf sl sc mb i).1 =
              some ((updEOf sl sc mb 0).1 + 1) := by
            refine fwd_eq_some (by omega) (by omega) ?_ ?_
            · rw [hFlvl ((updEOf sl sc mb 0).1 + 1),
                if_neg (show ¬ (updEOf sl sc mb 0).1 + 1 ≤ (updEOf sl sc mb 0).1
                  from by omega),
                if_pos rfl]
              exact hiL
            · intro s hs1 hs2
              rw [hFlvl s, if_pos (show s ≤ (updEOf sl sc mb 0).1 from by omega)]
              rcases Nat.lt_or_ge i sl.level with hil | hil
              · exact hB1 i hil s hs1 (by omega)
              · have hs0 : (updEOf sl sc mb i).1 = 0 := by rw [hDu i hil]
                exact le_trans (hlvlLe s (by omega) (by omega)) hil
          rw [hfwF]
          show F.spanAt (updEOf sl sc mb i).1 i =
            (((updEOf sl sc mb 0).1 + 1 : Nat) : Int) - ((updEOf sl sc mb i).1 : Int)
          rw [hFspan, if_pos hple]
          have h3 := hS3 i hiL2
          rw [if_pos hiL] at h3
          rw [h3, hr0, hri i hiL2]
          omega
        · -- higher slot of an update node: span incremented, target shifted
          have hil : i < sl.level := by
            have := Nat.max_le.mp (le_refl (max sl.level L))
            omega
          have hsp2 : (insSl2 sl sc mb L).spanAt (updEOf sl sc mb i).1 i =
              sl.spanAt (updEOf sl sc mb i).1 i + 1 := by
            have h3 := hS3 i hiL2
            rw [if_neg hiL] at h3
            rw [h3, hP2 _ _ (by omega)]
          obtain ⟨e1, e2, e3, e4, e5⟩ := hEu i hil
          rcases hB2 i hil with hfw | ⟨q, hfw, hq⟩
          · have hfwF : F.fwd i (updEOf sl sc mb i).1 = none := by
              refine fwd_eq_none ?_
              intro s hs1 hs2
              rw [hFlvl s]
              by_cases hsu : s ≤ (updEOf sl sc mb 0).1
              · rw [if_pos hsu]
                exact fwd_none_all hfw s hs1 (by omega)
              · rw [if_neg hsu]
                by_cases hse : s = (updEOf sl sc mb 0).1 + 1
                · rw [if_pos hse]
                  omega
                · rw [if_neg hse]
                  exact fwd_none_all hfw (s - 1) (by omega) (by omega)
            rw [hfwF]
            exact trivial
          · obtain ⟨hb1, hb2, hb3⟩ := fwd_bounds hfw
            have hfwF : F.fwd i (updEOf sl sc mb i).1 = some (q + 1) := by
              refine fwd_eq_some (by omega) (by omega) ?_ ?_
              · rw [hFlvl (q + 1),
                  if_neg (show ¬ q + 1 ≤ (updEOf sl sc mb 0).1 from by omega),
                  if_neg (show ¬ q + 1 = (updEOf sl sc mb 0).1 + 1 from by omega)]
                show i < sl.lvlAt (q + 1 - 1)
                rw [show q + 1 - 1 = q from by omega]
                exact hb3
              · intro s hs1 hs2
                rw [hFlvl s]
                by_cases hsu : s ≤ (updEOf sl sc mb 0).1
                · rw [if_pos hsu]
                  exact fwd_between hfw s hs1 (by omega)
                · rw [if_neg hsu]
                  by_cases hse : s = (updEOf sl sc mb 0).1 + 1
                  · rw [if_pos hse]
                    omega
                  · rw [if_neg hse]
                    exact fwd_between hfw (s - 1) (by omega) (by omega)
            rw [hfwF]
            show F.spanAt (updEOf sl sc mb i).1 i =
              ((q + 1 : Nat) : Int) - ((updEOf sl sc mb i).1 : Int)
            rw [hFspan, if_pos hple, hsp2, SpanOK.spec hspan hil e2 hfw]
            omega
      · -- a non-update position at or before the splice: fully untouched
        have hil : i < sl.level := by
          rcases Nat.lt_or_ge i sl.level with h | h
          · exact h
          · exfalso
            rcases Nat.eq_zero_or_pos p with hp0 | hp0
            · have hz : (updEOf sl sc mb i).1 = 0 := by rw [hDu i h]
              omega
            · have := hlvlLe p (by omega) (by omega)
              omega
        obtain ⟨e1, e2, e3, e4, e5⟩ := hEu i hil
        have hMii : (updEOf sl sc mb i).1 ≤ (updEOf sl sc mb 0).1 := hMu i hil
        have hplt : p < (updEOf sl sc mb i).1 := by
          rcases Nat.lt_or_ge p (updEOf sl sc mb i).1 with h | h
          · exact h
          · exfalso
            have hgt : (updEOf sl sc mb i).1 < p := by omega
            have := hB1 i hil p hgt hple
            omega
        cases hfw : sl.fwd i p with
        | none =>
          exfalso
          have := fwd_none_all hfw (updEOf sl sc mb i).1 hplt e1
          omega
        | some q =>
          obtain ⟨hb1, hb2, hb3⟩ := fwd_bounds hfw
          have hqle : q ≤ (updEOf sl sc mb i).1 := by
            rcases Nat.lt_or_ge (updEOf sl sc mb i).1 q with h | h
            · exfalso
              have := fwd_between hfw (updEOf sl sc mb i).1 hplt h
              omega
            · exact h
          have hfwF : F.fwd i p = some q := by
            refine fwd_eq_some hb1 (by omega) ?_ ?_
            · rw [hFlvl q, if_pos (show q ≤ (updEOf sl sc mb 0).1 from by omega)]
              exact hb3
            · intro s hs1 hs2
              rw [hFlvl s, if_pos (show s ≤ (updEOf sl sc mb 0).1 from by omega)]
              exact fwd_between hfw s hs1 hs2
          rw [hfwF]
          show F.spanAt p i = (q : Int) - (p : Int)
          have hg1 : (insSl2 sl sc mb L).spanAt p i = (insPre sl L).spanAt p i :=
            hS2 p i (fun hc => hpui hc.2)
          have hg2 : (insPre sl L).spanAt p i = sl.spanAt p i :=
            hP2 p i (by omega)
          rw [hFspan, if_pos hple, hg1, hg2]
          exact SpanOK.spec hspan hil hilvlF hfw
    · rw [if_neg hple] at hilvlF
      by_cases hpe : p = (updEOf sl sc mb 0).1 + 1
      · -- the freshly spliced node
        rw [if_pos hpe] at hilvlF
        subst hpe
        have hnd := insNode_span_getD sl sc mb L i hilvlF
        rcases Nat.lt_or_ge i sl.level with hil | hil
        · obtain ⟨e1, e2, e3, e4, e5⟩ := hEu i hil
          have hMii : (updEOf sl sc mb i).1 ≤ (updEOf sl sc mb 0).1 := hMu i hil
          rcases hB2 i hil with hfw | ⟨q, hfw, hq⟩
          · have hfwF : F.fwd i ((updEOf sl sc mb 0).1 + 1) = none := by
              refine fwd_eq_none ?_
              intro s hs1 hs2
              rw [hFlvl s,
                if_neg (show ¬ s ≤ (updEOf sl sc mb 0).1 from by omega),
                if_neg (show ¬ s = (updEOf sl sc mb 0).1 + 1 from by omega)]
              exact fwd_none_all hfw (s - 1) (by omega) (by omega)
            rw [hfwF]
            exact trivial
          · obtain ⟨hb1, hb2, hb3⟩ := fwd_bounds hfw
            have hfwF : F.fwd i ((updEOf sl sc mb 0).1 + 1) = some (q + 1) := by
              refine fwd_eq_some (by omega) (by omega) ?_ ?_
              · rw [hFlvl (q + 1),
                  if_neg (show ¬ q + 1 ≤ (updEOf sl sc mb 0).1 from by omega),
                  if_neg (show ¬ q + 1 = (updEOf sl sc mb 0).1 + 1 from by omega)]
                show i < sl.lvlAt (q + 1 - 1)
                rw [show q + 1 - 1 = q from by omega]
                exact hb3
              · intro s hs1 hs2
                rw [hFlvl s,
                  if_neg (show ¬ s ≤ (updEOf sl sc mb 0).1 from by omega),
                  if_neg (show ¬ s = (updEOf sl sc mb 0).1 + 1 from by omega)]
                exact fwd_between hfw (s - 1) (by omega) (by omega)
            rw [hfwF]
            show F.spanAt ((updEOf sl sc mb 0).1 + 1) i =
              ((q + 1 : Nat) : Int) - (((updEOf sl sc mb 0).1 + 1 : Nat) : Int)
            rw [hFspan,
              if_neg (show ¬ (updEOf sl sc mb 0).1 + 1 ≤ (updEOf sl sc mb 0).1
                from by omega),
              if_pos rfl, hnd, hP2 _ _ (by omega),
              SpanOK.spec hspan hil e2 hfw, hr0, hri i hiL2]
            omega
        · -- a brand-new top level: no successor at this level
          have hfwF : F.fwd i ((updEOf sl sc mb 0).1 + 1) = none := by
            refine fwd_eq_none ?_
            intro s hs1 hs2
            rw [hFlvl s,
              if_neg (show ¬ s ≤ (updEOf sl sc mb 0).1 from by omega),
              if_neg (show ¬ s = (updEOf sl sc mb 0).1 + 1 from by omega)]
            exact le_trans (hlvlLe (s - 1) (by omega) (by omega)) hil
          rw [hfwF]
          exact trivial
      · -- a shifted old position past the splice
        rw [if_neg hpe] at hilvlF
        have hp1 : (updEOf sl sc mb 0).1 + 2 ≤ p := by omega
        have hpm1 : p - 1 ≤ sl.nodes.length := by omega
        have hil : i < sl.level := by
          have := hlvlLe (p - 1) (by omega) hpm1
          omega
        have hg1 : (insSl2 sl sc mb L).spanAt (p - 1) i =
            (insPre sl L).spanAt (p - 1) i := by
          refine hS2 (p - 1) i ?_
          intro hc
          obtain ⟨hc1, hc2⟩ := hc
          have := hMi i hc1
          omega
        have hg2 : (insPre sl L).spanAt (p - 1) i = sl.spanAt (p - 1) i :=
          hP2 (p - 1) i (by omega)
        cases hfw : sl.fwd i (p - 1) with
        | none =>
          have hfwF : F.fwd i p = none := by
            refine fwd_eq_none ?_
            intro s hs1 hs2
            rw [hFlvl s,
              if_neg (show ¬ s ≤ (updEOf sl sc mb 0).1 from by omega),
              if_neg (show ¬ s = (updEOf sl sc mb 0).1 + 1 from by omega)]
            exact fwd_none_all hfw (s - 1) (by omega) (by omega)
          rw [hfwF]
          exact trivial
        | some q =>
          obtain ⟨hb1, hb2, hb3⟩ := fwd_bounds hfw
          have hfwF : F.fwd i p = some (q + 1) := by
            refine fwd_eq_some (by omega) (by omega) ?_ ?_
            · rw [hFlvl (q + 1),
                if_neg (show ¬ q + 1 ≤ (updEOf sl sc mb 0).1 from by omega),
                if_neg (show ¬ q + 1 = (updEOf sl sc mb 0).1 + 1 from by omega)]
              show i < sl.lvlAt (q + 1 - 1)
              rw [show q + 1 - 1 = q from by omega]
              exact hb3
            · intro s hs1 hs2
              rw [hFlvl s,
                if_neg (show ¬ s ≤ (updEOf sl sc mb 0).1 from by omega),
                if_neg (show ¬ s = (updEOf sl sc mb 0).1 + 1 from by omega)]
              exact fwd_between hfw (s - 1) (by omega) (by omega)
          rw [hfwF]
          show F.spanAt p i = ((q + 1 : Nat) : Int) - (p : Int)
          rw [hFspan, if_neg hple, if_neg hpe, hg1, hg2,
            SpanOK.spec hspan hil hilvlF hfw]
          omega
  have hFsorted : (pairsOf F).Pairwise pairLt := by
    rw [hFpairs]
    exact sorted_insert_at_cnt hsort hnm
  have hF1 : 1 ≤ F.level := by
    rw [hFlevel]
    exact le_trans hl1 (le_max_left _ _)
  have hF32 : F.level ≤ 32 := by
    rw [hFlevel]
    exact max_le hl2 hL32
  have hFhl : F.headerSpan.length = 32 := by
    have hh : F.headerSpan = (insSl2 sl sc mb L).headerSpan := by rw [hF]
    rw [hh, hS1.2.2.2.2.2.2]
    exact hhl
  exact ⟨⟨hFsorted, hFnodes, hF1, hF32, hFhl, hFspanOK⟩, hFpairs⟩

/-- The trailing level-trimming loop of `delete`: nodes and header spans are
untouched and the invariant survives (the guard guarantees no node lives
above the lowered cursor). -/
theorem trim_spec : ∀ (m : Nat) (sl : SkipList), sl.level ≤ m → SLInv sl →
    SLInv sl.trim ∧ sl.trim.nodes = sl.nodes ∧
      sl.trim.headerSpan = sl.headerSpan := by
  intro m
  induction m with
  | zero =>
    intro sl hm hinv
    exact absurd hinv.2.2.1 (by omega)
  | succ m ih =>
    intro sl hm hinv
    unfold SkipList.trim
    by_cases hg : 1 < sl.level ∧ sl.fwd (sl.level - 1) 0 = none
    · rw [if_pos hg]
      obtain ⟨hsort, hlvlN, hl1, hl2, hhl, hspan⟩ := hinv
      have hlow : ∀ nd ∈ sl.nodes, 1 ≤ nd.lvl ∧ nd.lvl ≤ sl.level - 1 ∧
          nd.span.length = nd.lvl := by
        intro nd hmem
        obtain ⟨j, hj, hget⟩ := List.mem_iff_getElem.mp hmem
        have hle := fwd_none_all hg.2 (j + 1) (by omega) (by omega)
        rw [lvlAt_succ_lt hj, hget] at hle
        exact ⟨(hlvlN nd hmem).1, hle, (hlvlN nd hmem).2.2⟩
      have hinv2 : SLInv { sl with level := sl.level - 1 } := by
        refine ⟨hsort, hlow, by show 1 ≤ sl.level - 1; omega,
          by show sl.level - 1 ≤ 32; omega, hhl, ?_⟩
        intro p hp i hi hil
        have hp2 : p < sl.nodes.length + 1 := hp
        have hi2 : i < sl.level - 1 := hi
        have hfq : ∀ i2 q, SkipList.fwd { sl with level := sl.level - 1 } i2 q =
            sl.fwd i2 q :=
          fun i2 q => @fwd_congr sl { sl with level := sl.level - 1 }
            rfl (fun _ => rfl) i2 q
        rw [hfq]
        exact hspan p hp2 i (by omega) hil
      obtain ⟨t1, t2, t3⟩ := ih { sl with level := sl.level - 1 }
        (by show sl.level - 1 ≤ m; omega) hinv2
      exact ⟨t1, t2, t3⟩
    · rw [if_neg hg]
      exact ⟨hinv, rfl, rfl⟩

/-! ## The unlinked node list of `delete`, position by position -/

theorem unsplice_getElem (l : List SLNode) (u0 : Nat) (hu : u0 ≤ l.length)
    (j : Nat) :
    (l.take u0 ++ l.drop (u0 + 1))[j]? =
      if j < u0 then l[j]? else l[j + 1]? := by
  have hlt : (l.take u0).length = u0 := by
    rw [List.length_take]
    omega
  by_cases hj : j < u0
  · rw [if_pos hj, List.getElem?_append_left (by omega),
      List.getElem?_take_of_lt hj]
  · rw [if_neg hj, List.getElem?_append_right (by omega), hlt,
      List.getElem?_drop]
    rw [show u0 + 1 + (j - u0) = j + 1 from by omega]

theorem unsplice_length (l : List SLNode) (u0 : Nat) (hu : u0 < l.length) :
    (l.take u0 ++ l.drop (u0 + 1)).length = l.length - 1 := by
  rw [List.length_append, List.length_take, List.length_drop]
  omega

theorem unsplice_lvlAt (sl2 : SkipList) (u0 lvl2 : Nat)
    (hu : u0 ≤ sl2.nodes.length) (p : Nat) :
    (SkipList.mk sl2.headerSpan
      (sl2.nodes.take u0 ++ sl2.nodes.drop (u0 + 1)) lvl2).lvlAt p =
      if p ≤ u0 then sl2.lvlAt p else sl2.lvlAt (p + 1) := by
  cases p with
  | zero =>
    rw [if_pos (show 0 ≤ u0 by omega)]
    rfl
  | succ j =>
    show (match (sl2.nodes.take u0 ++ sl2.nodes.drop (u0 + 1))[j]? with
      | some nd2 => nd2.lvl | none => 0) = _
    rw [unsplice_getElem sl2.nodes u0 hu j]
    by_cases h1 : j < u0
    · rw [if_pos h1, if_pos (show j + 1 ≤ u0 by omega)]
      rfl
    · rw [if_neg h1, if_neg (show ¬(j + 1 ≤ u0) by omega)]
      rfl

theorem unsplice_valAt (sl2 : SkipList) (u0 lvl2 : Nat)
    (hu : u0 ≤ sl2.nodes.length) (p : Nat) :
    (SkipList.mk sl2.headerSpan
      (sl2.nodes.take u0 ++ sl2.nodes.drop (u0 + 1)) lvl2).valAt p =
      if p ≤ u0 then sl2.valAt p else sl2.valAt (p + 1) := by
  cases p with
  | zero =>
    rw [if_pos (show 0 ≤ u0 by omega)]
    rfl
  | succ j =>
    show (match (sl2.nodes.take u0 ++ sl2.nodes.drop (u0 + 1))[j]? with
      | some nd2 => (nd2.score, nd2.member) | none => ((0 : Int), "")) = _
    rw [unsplice_getElem sl2.nodes u0 hu j]
    by_cases h1 : j < u0
    · rw [if_pos h1, if_pos (show j + 1 ≤ u0 by omega)]
      rfl
    · rw [if_neg h1, if_neg (show ¬(j + 1 ≤ u0) by omega)]
      rfl

theorem unsplice_spanAt (sl2 : SkipList) (u0 lvl2 : Nat)
    (hu : u0 ≤ sl2.nodes.length) (p i : Nat) :
    (SkipList.mk sl2.headerSpan
      (sl2.nodes.take u0 ++ sl2.nodes.drop (u0 + 1)) lvl2).spanAt p i =
      if p ≤ u0 then sl2.spanAt p i else sl2.spanAt (p + 1) i := by
  cases p with
  | zero =>
    rw [if_pos (show 0 ≤ u0 by omega)]
    rfl
  | succ j =>
    show (match (sl2.nodes.take u0 ++ sl2.nodes.drop (u0 + 1))[j]? with
      | some nd2 => nd2.span.getD i 0 | none => 0) = _
    rw [unsplice_getElem sl2.nodes u0 hu j]
    by_cases h1 : j < u0
    · rw [if_pos h1, if_pos (show j + 1 ≤ u0 by omega)]
      rfl
    · rw [if_neg h1, if_neg (show ¬(j + 1 ≤ u0) by omega)]
      rfl

theorem unsplice_pairs (sl2 : SkipList) (u0 lvl2 : Nat) :
    pairsOf (SkipList.mk sl2.headerSpan
      (sl2.nodes.take u0 ++ sl2.nodes.drop (u0 + 1)) lvl2) =
      (pairsOf sl2).take u0 ++ (pairsOf sl2).drop (u0 + 1) := by
  show (sl2.nodes.take u0 ++ sl2.nodes.drop (u0 + 1)).map _ = _
  rw [List.map_append, List.map_take, List.map_drop]
  rfl

/-! ## Decomposition of `SkipList.del` -/

/-- The span-rewriting fold of `delete` (victim node `x`). -/
def delSl2 (sl : SkipList) (sc : Int) (mb : String) (x : SLNode) : SkipList :=
  (List.range sl.level).foldl (fun s i =>
    if sl.fwd i (updEOf sl sc mb i).1 = some ((updEOf sl sc mb 0).1 + 1) then
      s.writeSpan (updEOf sl sc mb i).1 i
        (s.spanAt (updEOf sl sc mb i).1 i + (x.span.getD i 0 - 1))
    else s.writeSpan (updEOf sl sc mb i).1 i
      (s.spanAt (updEOf sl sc mb i).1 i - 1)) sl

/-- The unlinked list before trimming. -/
def delSl3 (sl : SkipList) (sc : Int) (mb : String) (x : SLNode) : SkipList :=
  { headerSpan := (delSl2 sl sc mb x).headerSpan,
    nodes := (delSl2 sl sc mb x).nodes.take (updEOf sl sc mb 0).1 ++
      (delSl2 sl sc mb x).nodes.drop ((updEOf sl sc mb 0).1 + 1),
    level := (delSl2 sl sc mb x).level }

theorem del_decomp (sl : SkipList) (sc : Int) (mb : String) :
    sl.del sc mb =
      (match sl.nodes[(updEOf sl sc mb 0).1]? with
       | none => (false, sl)
       | some x =>
         if x.score = sc ∧ x.member = mb then (true, (delSl3 sl sc mb x).trim)
         else (false, sl)) := rfl

/-- The delete fold: skeleton kept; only the `update` slots change; a slot
whose forward pointer is the victim absorbs the victim's span minus one, any
other update slot is decremented. -/
theorem delSl2_spec (sl : SkipList) (sc : Int) (mb : String) (x : SLNode)
    (hinv : SLInv sl) :
    SameSkel sl (delSl2 sl sc mb x) ∧
    (∀ p i, ¬(i < sl.level ∧ p = (updEOf sl sc mb i).1) →
      (delSl2 sl sc mb x).spanAt p i = sl.spanAt p i) ∧
    (∀ i, i < sl.level →
      (delSl2 sl sc mb x).spanAt (updEOf sl sc mb i).1 i =
        (if sl.fwd i (updEOf sl sc mb i).1 = some ((updEOf sl sc mb 0).1 + 1)
         then sl.spanAt (updEOf sl sc mb i).1 i + (x.span.getD i 0 - 1)
         else sl.spanAt (updEOf sl sc mb i).1 i - 1)) := by
  have hf : ∀ (s : SkipList) (i : Nat), SameSkel sl s →
      s.spanAt (updEOf sl sc mb i).1 i = sl.spanAt (updEOf sl sc mb i).1 i →
      (if sl.fwd i (updEOf sl sc mb i).1 = some ((updEOf sl sc mb 0).1 + 1) then
        s.writeSpan (updEOf sl sc mb i).1 i
          (s.spanAt (updEOf sl sc mb i).1 i + (x.span.getD i 0 - 1))
      else s.writeSpan (updEOf sl sc mb i).1 i
        (s.spanAt (updEOf sl sc mb i).1 i - 1)) =
        s.writeSpan (updEOf sl sc mb i).1 i
          (if sl.fwd i (updEOf sl sc mb i).1 = some ((updEOf sl sc mb 0).1 + 1)
           then sl.spanAt (updEOf sl sc mb i).1 i + (x.span.getD i 0 - 1)
           else sl.spanAt (updEOf sl sc mb i).1 i - 1) := by
    intro s i hskel hag
    by_cases hc : sl.fwd i (updEOf sl sc mb i).1 = some ((updEOf sl sc mb 0).1 + 1)
    · rw [if_pos hc, if_pos hc, hag]
    · rw [if_neg hc, if_neg hc, hag]
  obtain ⟨hA, hB, hC⟩ := writeFold_spec sl
    (fun s i =>
      if sl.fwd i (updEOf sl sc mb i).1 = some ((updEOf sl sc mb 0).1 + 1) then
        s.writeSpan (updEOf sl sc mb i).1 i
          (s.spanAt (updEOf sl sc mb i).1 i + (x.span.getD i 0 - 1))
      else s.writeSpan (updEOf sl sc mb i).1 i
        (s.spanAt (updEOf sl sc mb i).1 i - 1))
    (fun i => (updEOf sl sc mb i).1)
    (fun i =>
      if sl.fwd i (updEOf sl sc mb i).1 = some ((updEOf sl sc mb 0).1 + 1)
      then sl.spanAt (updEOf sl sc mb i).1 i + (x.span.getD i 0 - 1)
      else sl.spanAt (updEOf sl sc mb i).1 i - 1)
    hf (List.range sl.level) (List.nodup_range _) sl
    (SameSkel.refl _) (fun _ _ => rfl)
  refine ⟨hA, ?_, ?_⟩
  · intro p i hni
    refine hB p i ?_
    intro hmemr
    exact hni ⟨List.mem_range.mp hmemr.1, hmemr.2⟩
  · intro i hi
    refine hC i (List.mem_range.mpr hi) ?_
    show i < spanLenAt sl (updEOf sl sc mb i).1
    exact ins_spanLen sl sc mb 1 hinv (by omega) i
      (lt_of_lt_of_le hi (le_max_left _ _))

/-- Unlinking the victim of a successful `delete` (before the trim):
invariant preserved, and the level-0 pairs lose the pair at index `cntLt`. -/
theorem delSl3_SLInv (sl : SkipList) (sc : Int) (mb : String) (x : SLNode)
    (hinv : SLInv sl)
    (hx : sl.nodes[(updEOf sl sc mb 0).1]? = some x)
    (hxs : x.score = sc) (hxm : x.member = mb) :
    SLInv (delSl3 sl sc mb x) ∧
    pairsOf (delSl3 sl sc mb x) =
      (pairsOf sl).take (cntLt (pairsOf sl) (sc, mb)) ++
        (pairsOf sl).drop (cntLt (pairsOf sl) (sc, mb) + 1) := by
  obtain ⟨hsort, hlvlN, hl1, hl2, hhl, hspan⟩ := hinv
  have hinv2 : SLInv sl := ⟨hsort, hlvlN, hl1, hl2, hhl, hspan⟩
  obtain ⟨hSL, hSE, hSM, hSD⟩ := search_spec sl sc mb hspan hl1 hl2
  have hEu : ∀ j, j < sl.level → EntryOK sl sc mb j (updEOf sl sc mb j) := hSE
  have hMu : ∀ j, j < sl.level →
      (updEOf sl sc mb j).1 ≤ (updEOf sl sc mb 0).1 := hSM
  have hcnt : (updEOf sl sc mb 0).1 = cntLt (pairsOf sl) (sc, mb) :=
    u0_eq_cntLt sl sc mb hinv2
  have hu0n : (updEOf sl sc mb 0).1 < sl.nodes.length := by
    by_contra hge
    rw [List.getElem?_eq_none (by omega)] at hx
    cases hx
  have hvlvl : sl.lvlAt ((updEOf sl sc mb 0).1 + 1) = x.lvl := by
    show (match sl.nodes[(updEOf sl sc mb 0).1]? with
      | some nd => nd.lvl | none => 0) = _
    rw [hx]
  have hvspan : ∀ i, sl.spanAt ((updEOf sl sc mb 0).1 + 1) i = x.span.getD i 0 := by
    intro i
    show (match sl.nodes[(updEOf sl sc mb 0).1]? with
      | some nd => nd.span.getD i 0 | none => 0) = _
    rw [hx]
  obtain ⟨hD1, hD2, hD3⟩ := delSl2_spec sl sc mb x hinv2
  have hlen2 : (delSl2 sl sc mb x).nodes.length = sl.nodes.length := hD1.1
  have hlvl2 : ∀ q, (delSl2 sl sc mb x).lvlAt q = sl.lvlAt q := hD1.2.1
  have hlev2 : (delSl2 sl sc mb x).level = sl.level := hD1.2.2.2.1
  have hu0le : (updEOf sl sc mb 0).1 ≤ (delSl2 sl sc mb x).nodes.length := by omega
  have hlvlLe : ∀ s, 1 ≤ s → s ≤ sl.nodes.length → sl.lvlAt s ≤ sl.level := by
    intro s h1 h2
    cases s with
    | zero => omega
    | succ j =>
      rw [lvlAt_succ_lt (by omega)]
      exact (hlvlN _ (List.getElem_mem (by omega))).2.1
  have hB1 := ins_gapB1 sl sc mb hinv2
  have hB2 := ins_fwdB2 sl sc mb hinv2
  set G : SkipList := delSl3 sl sc mb x with hG
  have hGdef : G = SkipList.mk (delSl2 sl sc mb x).headerSpan
      ((delSl2 sl sc mb x).nodes.take (updEOf sl sc mb 0).1 ++
        (delSl2 sl sc mb x).nodes.drop ((updEOf sl sc mb 0).1 + 1))
      (delSl2 sl sc mb x).level := hG
  have hGlen : G.nodes.length = sl.nodes.length - 1 := by
    rw [hGdef]
    show ((delSl2 sl sc mb x).nodes.take (updEOf sl sc mb 0).1 ++
      (delSl2 sl sc mb x).nodes.drop ((updEOf sl sc mb 0).1 + 1)).length = _
    rw [unsplice_length _ _ (by omega), hlen2]
  have hGlvl : ∀ p, G.lvlAt p =
      if p ≤ (updEOf sl sc mb 0).1 then sl.lvlAt p else sl.lvlAt (p + 1) := by
    intro p
    rw [hGdef, unsplice_lvlAt _ _ _ hu0le p, hlvl2 p, hlvl2 (p + 1)]
  have hGspan : ∀ p i, G.spanAt p i =
      if p ≤ (updEOf sl sc mb 0).1 then (delSl2 sl sc mb x).spanAt p i
      else (delSl2 sl sc mb x).spanAt (p + 1) i := by
    intro p i
    rw [hGdef]
    exact unsplice_spanAt _ _ _ hu0le p i
  have hGpairs : pairsOf G =
      (pairsOf sl).take (cntLt (pairsOf sl) (sc, mb)) ++
        (pairsOf sl).drop (cntLt (pairsOf sl) (sc, mb) + 1) := by
    rw [hGdef, unsplice_pairs, hD1.2.2.2.2.1, hcnt]
  have hGlevel : G.level = sl.level := by
    rw [hGdef]
    exact hlev2
  have hsubl : (pairsOf G).Sublist (pairsOf sl) := by
    rw [hGpairs]
    have hcl : cntLt (pairsOf sl) (sc, mb) < (pairsOf sl).length := by
      rw [length_pairsOf]
      omega
    have hd := List.drop_eq_getElem_cons hcl
    have h2 : ((pairsOf sl).take (cntLt (pairsOf sl) (sc, mb)) ++
        (pairsOf sl).drop (cntLt (pairsOf sl) (sc, mb) + 1)).Sublist
        ((pairsOf sl).take (cntLt (pairsOf sl) (sc, mb)) ++
          (pairsOf sl).drop (cntLt (pairsOf sl) (sc, mb))) := by
      rw [hd]
      exact List.Sublist.append_left (List.sublist_cons_self _ _) _
    rw [List.take_append_drop] at h2
    exact h2
  have hGsort : (pairsOf G).Pairwise pairLt := hsort.sublist hsubl
  have hok := skel_nodeOK hD1 hlvlN
  have hGnodes : ∀ nd ∈ G.nodes, 1 ≤ nd.lvl ∧ nd.lvl ≤ G.level ∧
      nd.span.length = nd.lvl := by
    intro nd hmem
    rw [hGlevel]
    have hmem2 : nd ∈ (delSl2 sl sc mb x).nodes.take (updEOf sl sc mb 0).1 ++
        (delSl2 sl sc mb x).nodes.drop ((updEOf sl sc mb 0).1 + 1) := by
      rw [hGdef] at hmem
      exact hmem
    have hmi : nd ∈ (delSl2 sl sc mb x).nodes := by
      rcases List.mem_append.mp hmem2 with h1 | h1
      · exact List.mem_of_mem_take h1
      · exact List.mem_of_mem_drop h1
    exact hok nd hmi
  have hGspanOK : SpanOK G := by
    intro p hp i hiG hilvlG
    have hil : i < sl.level := by
      rw [hGlevel] at hiG
      exact hiG
    rw [hGlen] at hp
    rw [hGlvl p] at hilvlG
    obtain ⟨e1, e2, e3, e4, e5⟩ := hEu i hil
    have hMii : (updEOf sl sc mb i).1 ≤ (updEOf sl sc mb 0).1 := hMu i hil
    by_cases hple : p ≤ (updEOf sl sc mb 0).1
    · rw [if_pos hple] at hilvlG
      by_cases hpui : p = (updEOf sl sc mb i).1
      · subst hpui
        have h3 := hD3 i hil
        by_cases hc : sl.fwd i (updEOf sl sc mb i).1 =
            some ((updEOf sl sc mb 0).1 + 1)
        · rw [if_pos hc] at h3
          obtain ⟨hb1, hb2, hb3⟩ := fwd_bounds hc
          cases hfv : sl.fwd i ((updEOf sl sc mb 0).1 + 1) with
          | none =>
            have hfwG : G.fwd i (updEOf sl sc mb i).1 = none := by
              refine fwd_eq_none ?_
              intro s hs1 hs2
              rw [hGlvl s]
              by_cases hsu : s ≤ (updEOf sl sc mb 0).1
              · rw [if_pos hsu]
                exact fwd_between hc s hs1 (by omega)
              · rw [if_neg hsu]
                exact fwd_none_all hfv (s + 1) (by omega) (by omega)
            rw [hfwG]
            exact trivial
          | some w =>
            obtain ⟨hc1, hc2, hc3⟩ := fwd_bounds hfv
            have hfwG : G.fwd i (updEOf sl sc mb i).1 = some (w - 1) := by
              refine fwd_eq_some (by omega) (by omega) ?_ ?_
              · rw [hGlvl (w - 1),
                  if_neg (show ¬ w - 1 ≤ (updEOf sl sc mb 0).1 from by omega)]
                rw [show w - 1 + 1 = w from by omega]
                exact hc3
              · intro s hs1 hs2
                rw [hGlvl s]
                by_cases hsu : s ≤ (updEOf sl sc mb 0).1
                · rw [if_pos hsu]
                  exact fwd_between hc s hs1 (by omega)
                · rw [if_neg hsu]
                  exact fwd_between hfv (s + 1) (by omega) (by omega)
            rw [hfwG]
            show G.spanAt (updEOf sl sc mb i).1 i =
              ((w - 1 : Nat) : Int) - ((updEOf sl sc mb i).1 : Int)
            rw [hGspan, if_pos hple, h3, SpanOK.spec hspan hil e2 hc,
              ← hvspan i, SpanOK.spec hspan hil hb3 hfv]
            omega
        · rw [if_neg hc] at h3
          rcases hB2 i hil with hfw | ⟨q, hfw, hq⟩
          · have hfwG : G.fwd i (updEOf sl sc mb i).1 = none := by
              refine fwd_eq_none ?_
              intro s hs1 hs2
              rw [hGlvl s]
              by_cases hsu : s ≤ (updEOf sl sc mb 0).1
              · rw [if_pos hsu]
                exact fwd_none_all hfw s hs1 (by omega)
              · rw [if_neg hsu]
                exact fwd_none_all hfw (s + 1) (by omega) (by omega)
            rw [hfwG]
            exact trivial
          · have hqne : q ≠ (updEOf sl sc mb 0).1 + 1 := by
              intro hEq
              rw [hEq] at hfw
              exact hc hfw
            obtain ⟨hb1, hb2, hb3⟩ := fwd_bounds hfw
            have hq2 : (updEOf sl sc mb 0).1 + 2 ≤ q := by omega
            have hfwG : G.fwd i (updEOf sl sc mb i).1 = some (q - 1) := by
              refine fwd_eq_some (by omega) (by omega) ?_ ?_
              · rw [hGlvl (q - 1),
                  if_neg (show ¬ q - 1 ≤ (updEOf sl sc mb 0).1 from by omega)]
                rw [show q - 1 + 1 = q from by omega]
                exact hb3
              · intro s hs1 hs2
                rw [hGlvl s]
                by_cases hsu : s ≤ (updEOf sl sc mb 0).1
                · rw [if_pos hsu]
                  exact fwd_between hfw s hs1 (by omega)
                · rw [if_neg hsu]
                  exact fwd_between hfw (s + 1) (by omega) (by omega)
            rw [hfwG]
            show G.spanAt (updEOf sl sc mb i).1 i =
              ((q - 1 : Nat) : Int) - ((updEOf sl sc mb i).1 : Int)
            rw [hGspan, if_pos hple, h3, SpanOK.spec hspan hil e2 hfw]
            omega
      · have hplt : p < (updEOf sl sc mb i).1 := by
          rcases Nat.lt_or_ge p (updEOf sl sc mb i).1 with h | h
          · exact h
          · exfalso
            have hgt : (updEOf sl sc mb i).1 < p := by omega
            have := hB1 i hil p hgt hple
            omega
        cases hfw : sl.fwd i p with
        | none =>
          exfalso
          have := fwd_none_all hfw (updEOf sl sc mb i).1 hplt e1
          omega
        | some q =>
          obtain ⟨hb1, hb2, hb3⟩ := fwd_bounds hfw
          have hqle : q ≤ (updEOf sl sc mb i).1 := by
            rcases Nat.lt_or_ge (updEOf sl sc mb i).1 q with h | h
            · exfalso
              have := fwd_between hfw (updEOf sl sc mb i).1 hplt h
              omega
            · exact h
          have hfwG : G.fwd i p = some q := by
            refine fwd_eq_some hb1 (by omega) ?_ ?_
            · rw [hGlvl q, if_pos (show q ≤ (updEOf sl sc mb 0).1 from by omega)]
              exact hb3
            · intro s hs1 hs2
              rw [hGlvl s, if_pos (show s ≤ (updEOf sl sc mb 0).1 from by omega)]
              exact fwd_between hfw s hs1 hs2
          rw [hfwG]
          show G.spanAt p i = (q : Int) - (p : Int)
          have hg1 : (delSl2 sl sc mb x).spanAt p i = sl.spanAt p i :=
            hD2 p i (fun hcc => hpui hcc.2)
          rw [hGspan, if_pos hple, hg1]
          exact SpanOK.spec hspan hil hilvlG hfw
    · rw [if_neg hple] at hilvlG
      have hp1n : p + 1 ≤ sl.nodes.length := by omega
      have hg1 : (delSl2 sl sc mb x).spanAt (p + 1) i = sl.spanAt (p + 1) i := by
        refine hD2 (p + 1) i ?_
        intro hcc
        have := hMu i hcc.1
        omega
      cases hfw : sl.fwd i (p + 1) with
      | none =>
        have hfwG : G.fwd i p = none := by
          refine fwd_eq_none ?_
          intro s hs1 hs2
          rw [hGlvl s, if_neg (show ¬ s ≤ (updEOf sl sc mb 0).1 from by omega)]
          exact fwd_none_all hfw (s + 1) (by omega) (by omega)
        rw [hfwG]
        exact trivial
      | some q =>
        obtain ⟨hb1, hb2, hb3⟩ := fwd_bounds hfw
        have hfwG : G.fwd i p = some (q - 1) := by
          refine fwd_eq_some (by omega) (by omega) ?_ ?_
          · rw [hGlvl (q - 1),
              if_neg (show ¬ q - 1 ≤ (updEOf sl sc mb 0).1 from by omega)]
            rw [show q - 1 + 1 = q from by omega]
            exact hb3
          · intro s hs1 hs2
            rw [hGlvl s, if_neg (show ¬ s ≤ (updEOf sl sc mb 0).1 from by omega)]
            exact fwd_between hfw (s + 1) (by omega) (by omega)
        rw [hfwG]
        show G.spanAt p i = ((q - 1 : Nat) : Int) - (p : Int)
        rw [hGspan, if_neg hple, hg1, SpanOK.spec hspan hil hilvlG hfw]
        omega
  have hG1 : 1 ≤ G.level := by
    rw [hGlevel]
    omega
  have hG32 : G.level ≤ 32 := by
    rw [hGlevel]
    omega
  have hGhl : G.headerSpan.length = 32 := by
    have hh : G.headerSpan = (delSl2 sl sc mb x).headerSpan := by rw [hGdef]
    rw [hh, hD1.2.2.2.2.2.2]
    exact hhl
  exact ⟨⟨hGsort, hGnodes, hG1, hG32, hGhl, hGspanOK⟩, hGpairs⟩

/-- `delete` of a present pair: returns `true`, preserves the invariant, and
removes exactly the pair at index `cntLt` of the level-0 chain. -/
theorem del_SLInv (sl : SkipList) (sc : Int) (mb : String) (hinv : SLInv sl)
    (hmem : (sc, mb) ∈ pairsOf sl) :
    (sl.del sc mb).1 = true ∧ SLInv (sl.del sc mb).2 ∧
    pairsOf (sl.del sc mb).2 =
      (pairsOf sl).take (cntLt (pairsOf sl) (sc, mb)) ++
        (pairsOf sl).drop (cntLt (pairsOf sl) (sc, mb) + 1) := by
  have hcnt : (updEOf sl sc mb 0).1 = cntLt (pairsOf sl) (sc, mb) :=
    u0_eq_cntLt sl sc mb hinv
  obtain ⟨hcl, hget⟩ := sorted_mem_index hinv.1 hmem
  have hcln : cntLt (pairsOf sl) (sc, mb) < sl.nodes.length := by
    rw [length_pairsOf] at hcl
    exact hcl
  have hx : sl.nodes[(updEOf sl sc mb 0).1]? =
      some (sl.nodes.get ⟨cntLt (pairsOf sl) (sc, mb), hcln⟩) := by
    rw [hcnt]
    exact List.getElem?_eq_getElem hcln
  have hgp : ((sl.nodes.get ⟨cntLt (pairsOf sl) (sc, mb), hcln⟩).score,
      (sl.nodes.get ⟨cntLt (pairsOf sl) (sc, mb), hcln⟩).member) = (sc, mb) := by
    have hv := hget
    simp only [pairsOf, List.get_eq_getElem, List.getElem_map] at hv
    exact hv
  have h1 : (sl.nodes.get ⟨cntLt (pairsOf sl) (sc, mb), hcln⟩).score = sc :=
    congrArg Prod.fst hgp
  have h2 : (sl.nodes.get ⟨cntLt (pairsOf sl) (sc, mb), hcln⟩).member = mb :=
    congrArg Prod.snd hgp
  rw [del_decomp, hx]
  dsimp only
  rw [if_pos ⟨h1, h2⟩]
  obtain ⟨hL3, hP3⟩ := delSl3_SLInv sl sc mb
    (sl.nodes.get ⟨cntLt (pairsOf sl) (sc, mb), hcln⟩) hinv hx h1 h2
  obtain ⟨t1, t2, t3⟩ := trim_spec
    (delSl3 sl sc mb (sl.nodes.get ⟨cntLt (pairsOf sl) (sc, mb), hcln⟩)).level
    (delSl3 sl sc mb (sl.nodes.get ⟨cntLt (pairsOf sl) (sc, mb), hcln⟩))
    (le_refl _) hL3
  refine ⟨rfl, t1, ?_⟩
  show pairsOf (delSl3 sl sc mb
    (sl.nodes.get ⟨cntLt (pairsOf sl) (sc, mb), hcln⟩)).trim = _
  have hpp : pairsOf (delSl3 sl sc mb
      (sl.nodes.get ⟨cntLt (pairsOf sl) (sc, mb), hcln⟩)).trim =
      pairsOf (delSl3 sl sc mb
        (sl.nodes.get ⟨cntLt (pairsOf sl) (sc, mb), hcln⟩)) :=
    congrArg (List.map (fun n : SLNode => (n.score, n.member))) t2
  rw [hpp]
  exact hP3

/-- `delete` of an absent pair is a no-op returning `false`. -/
theorem del_miss (sl : SkipList) (sc : Int) (mb : String) (hinv : SLInv sl)
    (hnm : (sc, mb) ∉ pairsOf sl) :
    sl.del sc mb = (false, sl) := by
  rw [del_decomp]
  cases hx : sl.nodes[(updEOf sl sc mb 0).1]? with
  | none => rfl
  | some x =>
    have hne : ¬(x.score = sc ∧ x.member = mb) := by
      intro hand
      obtain ⟨h1, h2⟩ := hand
      have hxm2 : x ∈ sl.nodes := by
        obtain ⟨hlt, hEq⟩ := List.getElem?_eq_some.mp hx
        exact hEq ▸ List.getElem_mem hlt
      have hval : (x.score, x.member) ∈ pairsOf sl :=
        List.mem_map.mpr ⟨x, hxm2, rfl⟩
      rw [h1, h2] at hval
      exact hnm hval
    dsimp only
    rw [if_neg hne]

/-! ## Rank correctness -/

/-- The only position carrying the target value is `cntLt + 1`. -/
theorem val_pos_uniq (sl : SkipList) (sc : Int) (mb : String)
    (hsort : (pairsOf sl).Pairwise pairLt) {q : Nat}
    (h1 : 1 ≤ q) (h2 : q ≤ sl.nodes.length) (hv : sl.valAt q = (sc, mb)) :
    q = cntLt (pairsOf sl) (sc, mb) + 1 := by
  have hq1 : q - 1 < sl.nodes.length := by omega
  have hvg := valAt_get hq1
  rw [show q - 1 + 1 = q from by omega] at hvg
  rw [hvg] at hv
  rcases Nat.lt_trichotomy (q - 1) (cntLt (pairsOf sl) (sc, mb)) with h | h | h
  · exfalso
    have := (sorted_prefix_iff hsort (sc, mb)
      (by rw [length_pairsOf]; exact hq1)).mpr h
    rw [hv] at this
    exact pairLt_irrefl _ this
  · omega
  · exfalso
    have htm : (sc, mb) ∈ pairsOf sl := by
      rw [← hv]
      exact List.get_mem _ _ _
    obtain ⟨hcl, hget⟩ := sorted_mem_index hsort htm
    have hlt := sorted_get_lt hsort (j := q - 1)
      (by rw [length_pairsOf]; exact hq1) h
    rw [hget, hv] at hlt
    exact pairLt_irrefl _ hlt

/-- One level of `getRank`: the walk either lands exactly on the target and
returns the 0-based rank `cntLt`, or stops strictly below the target with the
same invariants as the insert search, the next node being above the target. -/
theorem rankWalk_spec (sl : SkipList) (sc : Int) (mb : String) (hinv : SLInv sl)
    (i : Nat) (hil : i < sl.level) :
    ∀ p r, p ≤ sl.nodes.length → i < sl.lvlAt p →
      (p = 0 ∨ pairLt (sl.valAt p) (sc, mb)) → r = (p : Int) →
      sl.rankWalk i sc mb p r = Sum.inr (cntLt (pairsOf sl) (sc, mb) : Int) ∨
      (∃ p2 : Nat, sl.rankWalk i sc mb p r = Sum.inl (p2, (p2 : Int)) ∧
        p2 ≤ sl.nodes.length ∧ i < sl.lvlAt p2 ∧
        (p2 = 0 ∨ pairLt (sl.valAt p2) (sc, mb)) ∧ p ≤ p2 ∧
        (∀ q, sl.fwd i p2 = some q → pairLt (sc, mb) (sl.valAt q))) := by
  obtain ⟨hsort, hlvlN, hl1, hl2, hhl, hspan⟩ := hinv
  have H : ∀ m p r, sl.nodes.length + 1 - p ≤ m → p ≤ sl.nodes.length →
      i < sl.lvlAt p → (p = 0 ∨ pairLt (sl.valAt p) (sc, mb)) → r = (p : Int) →
      sl.rankWalk i sc mb p r = Sum.inr (cntLt (pairsOf sl) (sc, mb) : Int) ∨
      (∃ p2 : Nat, sl.rankWalk i sc mb p r = Sum.inl (p2, (p2 : Int)) ∧
        p2 ≤ sl.nodes.length ∧ i < sl.lvlAt p2 ∧
        (p2 = 0 ∨ pairLt (sl.valAt p2) (sc, mb)) ∧ p ≤ p2 ∧
        (∀ q, sl.fwd i p2 = some q → pairLt (sc, mb) (sl.valAt q))) := by
    intro m
    induction m with
    | zero =>
      intro p r hm hp
      omega
    | succ m ih =>
      intro p r hm hp hpl hpv hr
      unfold SkipList.rankWalk
      split
      · rename_i hq
        refine Or.inr ⟨p, by rw [hr], hp, hpl, hpv, le_refl p, ?_⟩
        intro q hq2
        rw [hq] at hq2
        cases hq2
      · rename_i q hq
        obtain ⟨hb1, hb2, hb3⟩ := fwd_bounds hq
        by_cases hng : compareScoreMember (sl.valAt q).1 (sl.valAt q).2 sc mb ≠
            Ordering.gt
        · rw [if_pos hng]
          have hzeta : (let r2 := r + sl.spanAt p i;
              if (sl.valAt q).1 = sc ∧ (sl.valAt q).2 = mb then Sum.inr (r2 - 1)
              else sl.rankWalk i sc mb q r2) =
              (if (sl.valAt q).1 = sc ∧ (sl.valAt q).2 = mb
               then Sum.inr (r + sl.spanAt p i - 1)
               else sl.rankWalk i sc mb q (r + sl.spanAt p i)) := rfl
          rw [hzeta]
          have hr2 : r + sl.spanAt p i = (q : Int) := by
            rw [hr, hspan.spec hil hpl hq]
            ring
          by_cases hEqv : (sl.valAt q).1 = sc ∧ (sl.valAt q).2 = mb
          · rw [if_pos hEqv]
            left
            have hvq : sl.valAt q = (sc, mb) := Prod.ext hEqv.1 hEqv.2
            have hqc : q = cntLt (pairsOf sl) (sc, mb) + 1 :=
              val_pos_uniq sl sc mb hsort (by omega) hb2 hvq
            rw [hr2, hqc]
            have hca : ((cntLt (pairsOf sl) (sc, mb) + 1 : Nat) : Int) - 1 =
                (cntLt (pairsOf sl) (sc, mb) : Int) := by
              push_cast
              ring
            rw [hca]
          · rw [if_neg hEqv]
            have hvql : pairLt (sl.valAt q) (sc, mb) := by
              rcases compareScoreMember_ne_gt.mp hng with h | h
              · exact h
              · exact absurd ⟨h.1, h.2⟩ hEqv
            rcases ih q (r + sl.spanAt p i) (by omega) hb2 hb3
              (Or.inr hvql) hr2 with hI | ⟨p2, a1, a2, a3, a4, a5, a6⟩
            · exact Or.inl hI
            · exact Or.inr ⟨p2, a1, a2, a3, a4, by omega, a6⟩
        · rw [if_neg hng]
          push_neg at hng
          refine Or.inr ⟨p, by rw [hr], hp, hpl, hpv, le_refl p, ?_⟩
          intro q2 hq2
          rw [hq] at hq2
          cases hq2
          rcases pairLt_trichotomy (sc, mb) (sl.valAt q) with h | h | h
          · exact h
          · exfalso
            have hne : compareScoreMember (sl.valAt q).1 (sl.valAt q).2 sc mb ≠
                Ordering.gt := by
              rw [compareScoreMember_ne_gt]
              exact Or.inr ⟨(congrArg Prod.fst h).symm, (congrArg Prod.snd h).symm⟩
            exact hne hng
          · exfalso
            have hne : compareScoreMember (sl.valAt q).1 (sl.valAt q).2 sc mb ≠
                Ordering.gt := by
              rw [compareScoreMember_ne_gt]
              exact Or.inl h
            exact hne hng
  exact fun p r => H (sl.nodes.length + 1 - p) p r (le_refl _)

/-- At level 0 the walk of `getRank` always lands on a present target. -/
theorem rankWalk_zero (sl : SkipList) (sc : Int) (mb : String) (hinv : SLInv sl)
    (hmem : (sc, mb) ∈ pairsOf sl) :
    ∀ p r, p ≤ sl.nodes.length → 0 < sl.lvlAt p →
      (p = 0 ∨ pairLt (sl.valAt p) (sc, mb)) → r = (p : Int) →
      sl.rankWalk 0 sc mb p r = Sum.inr (cntLt (pairsOf sl) (sc, mb) : Int) := by
  intro p r hp hpl hpv hr
  rcases rankWalk_spec sl sc mb hinv 0 hinv.2.2.1 p r hp hpl hpv hr with
    h | ⟨p2, hw, h2, h3, h4, h5, h6⟩
  · exact h
  · exfalso
    obtain ⟨hsort, hlvlN, hl1, hl2, hhl, hspan⟩ := hinv
    obtain ⟨hcl, hget⟩ := sorted_mem_index hsort hmem
    have hcln : cntLt (pairsOf sl) (sc, mb) < sl.nodes.length := by
      rw [length_pairsOf] at hcl
      exact hcl
    have hple : p2 ≤ cntLt (pairsOf sl) (sc, mb) := by
      rcases h4 with h0 | hlt
      · omega
      · rcases Nat.eq_zero_or_pos p2 with h0 | hpos
        · omega
        · have hq1 : p2 - 1 < sl.nodes.length := by omega
          have hvg := valAt_get hq1
          rw [show p2 - 1 + 1 = p2 from by omega] at hvg
          rw [hvg] at hlt
          have := (sorted_prefix_iff hsort (sc, mb)
            (by rw [length_pairsOf]; exact hq1)).mp hlt
          omega
    have hfz := fwd_zero (fun nd hnd => (hlvlN nd hnd).1) p2
    rw [if_pos (show p2 < sl.nodes.length from by omega)] at hfz
    have hgt := h6 (p2 + 1) hfz
    have hvg := valAt_get (show p2 < sl.nodes.length from by omega)
    rw [hvg] at hgt
    rcases Nat.lt_or_ge p2 (cntLt (pairsOf sl) (sc, mb)) with hlt2 | hge2
    · have hbelow := (sorted_prefix_iff hsort (sc, mb)
        (by rw [length_pairsOf]; omega)).mpr hlt2
      exact pairLt_asymm hgt hbelow
    · have hp2e : p2 = cntLt (pairsOf sl) (sc, mb) := by omega
      subst hp2e
      rw [hget] at hgt
      exact pairLt_irrefl _ hgt

/-- The level descent of `getRank` on a present target returns the rank. -/
theorem rankLevels_spec (sl : SkipList) (sc : Int) (mb : String) (hinv : SLInv sl)
    (hmem : (sc, mb) ∈ pairsOf sl) :
    ∀ i p r, i < sl.level → p ≤ sl.nodes.length → i < sl.lvlAt p →
      (p = 0 ∨ pairLt (sl.valAt p) (sc, mb)) → r = (p : Int) →
      sl.rankLevels sc mb i p r = some (cntLt (pairsOf sl) (sc, mb) : Int) := by
  intro i
  induction i with
  | zero =>
    intro p r hI hp hpl hpv hr
    unfold SkipList.rankLevels
    rw [rankWalk_zero sl sc mb hinv hmem p r hp hpl hpv hr]
  | succ j ih =>
    intro p r hI hp hpl hpv hr
    unfold SkipList.rankLevels
    rcases rankWalk_spec sl sc mb hinv (j + 1) hI p r hp hpl hpv hr with
      hw | ⟨p2, hw, h2, h3, h4, h5, h6⟩
    · rw [hw]
    · rw [hw]
      exact ih p2 (p2 : Int) (by omega) h2 (by omega) h4 rfl

/-- `getRank` of a present pair is its 0-based index in the sorted level-0
chain. -/
theorem getRank_eq_cnt (sl : SkipList) (sc : Int) (mb : String) (hinv : SLInv sl)
    (hmem : (sc, mb) ∈ pairsOf sl) :
    sl.getRank sc mb = (cntLt (pairsOf sl) (sc, mb) : Int) := by
  have hl1 := hinv.2.2.1
  have hl2 := hinv.2.2.2.1
  show (match sl.rankLevels sc mb (sl.level - 1) 0 0 with
    | some rk => rk
    | none => -1) = _
  rw [rankLevels_spec sl sc mb hinv hmem (sl.level - 1) 0 0
    (by omega) (by omega) (by rw [lvlAt_zero]; omega) (Or.inl rfl) rfl]

/-! ## ZSet invariant -/

theorem insert_at_perm (P : List (Int × String)) (c : Nat) (x : Int × String) :
    (P.take c ++ x :: P.drop c).Perm (x :: P) := by
  have h3 := @List.perm_middle (Int × String) x (P.take c) (P.drop c)
  rw [List.take_append_drop] at h3
  exact h3

/-- A sorted list is, up to order, the removed pair plus the two remaining
fragments. -/
theorem sorted_remove_perm {P : List (Int × String)} (hs : P.Pairwise pairLt)
    {x : Int × String} (hx : x ∈ P) :
    P.Perm (x :: (P.take (cntLt P x) ++ P.drop (cntLt P x + 1))) := by
  obtain ⟨hcl, hget⟩ := sorted_mem_index hs hx
  have h1 := List.take_append_drop (cntLt P x) P
  have h2 := List.drop_eq_getElem_cons hcl
  have hgx : P[cntLt P x] = x := hget
  rw [h2, hgx] at h1
  have h3 := @List.perm_middle (Int × String) x (P.take (cntLt P x))
    (P.drop (cntLt P x + 1))
  rw [h1] at h3
  exact h3

/-- The invariant of an ordered collection: distinct members in the map, a
well-formed skip list, and the same multiset of (score, member) pairs on
both sides. -/
def ZInv (z : ZSet) : Prop :=
  NodupK z.dict ∧ SLInv z.sl ∧
    (pairsOf z.sl).Perm (z.dict.map (fun p => (p.2, p.1)))

instance ZInv.dec (z : ZSet) : Decidable (ZInv z) := by
  unfold ZInv
  infer_instance

theorem ZInv.mem_iff {z : ZSet} (hz : ZInv z) (s : Int) (m : String) :
    (s, m) ∈ pairsOf z.sl ↔ (m, s) ∈ z.dict := by
  rw [hz.2.2.mem_iff]
  constructor
  · intro h
    obtain ⟨p, hp, hEq⟩ := List.mem_map.mp h
    have h1 : p.2 = s := congrArg Prod.fst hEq
    have h2 : p.1 = m := congrArg Prod.snd hEq
    have hpe : p = (m, s) := Prod.ext h2 h1
    rw [← hpe]
    exact hp
  · intro h
    exact List.mem_map.mpr ⟨(m, s), h, rfl⟩

/-- `zadd` preserves the collection invariant. -/
theorem zadd_ZInv (z : ZSet) (member : String) (score : Int) (lvl : Nat)
    (hz : ZInv z) (h1 : 1 ≤ lvl) (h32 : lvl ≤ 32) :
    ZInv (z.zadd member score lvl).2 := by
  obtain ⟨hnd, hsl, hperm⟩ := hz
  unfold ZSet.zadd
  cases hlk : lookupA z.dict member with
  | none =>
    dsimp only
    have hfresh : (score, member) ∉ pairsOf z.sl := by
      intro hmem
      have hm2 := (ZInv.mem_iff ⟨hnd, hsl, hperm⟩ score member).mp hmem
      have hl2 := mem_lookupA hnd hm2
      rw [hlk] at hl2
      cases hl2
    obtain ⟨hins1, hins2⟩ := insert_SLInv z.sl score member lvl hsl h1 h32 hfresh
    refine ⟨NodupK_setA hnd, hins1, ?_⟩
    rw [hins2]
    refine (insert_at_perm _ _ _).trans ?_
    rw [setA_absent hlk, List.map_append]
    refine List.Perm.trans (List.Perm.cons _ hperm) ?_
    exact (List.perm_append_singleton _ _).symm
  | some existing =>
    dsimp only
    by_cases hEq : existing = score
    · rw [if_pos hEq]
      exact ⟨hnd, hsl, hperm⟩
    · rw [if_neg hEq]
      dsimp only
      have hold : (existing, member) ∈ pairsOf z.sl :=
        (ZInv.mem_iff ⟨hnd, hsl, hperm⟩ existing member).mpr (lookupA_mem hlk)
      obtain ⟨hd1, hd2, hd3⟩ := del_SLInv z.sl existing member hsl hold
      have hfresh : (score, member) ∉ pairsOf (z.sl.del existing member).2 := by
        intro hmem
        have hsub : (score, member) ∈ pairsOf z.sl := by
          rw [hd3] at hmem
          rcases List.mem_append.mp hmem with h | h
          · exact List.mem_of_mem_take h
          · exact List.mem_of_mem_drop h
        have hm2 := (ZInv.mem_iff ⟨hnd, hsl, hperm⟩ score member).mp hsub
        have hl2 := mem_lookupA hnd hm2
        rw [hlk] at hl2
        cases hl2
        exact hEq rfl
      obtain ⟨hins1, hins2⟩ := insert_SLInv (z.sl.del existing member).2 score
        member lvl hd2 h1 h32 hfresh
      refine ⟨NodupK_setA hnd, hins1, ?_⟩
      rw [hins2]
      refine (insert_at_perm _ _ _).trans ?_
      -- old pairs ~ old pair :: deleted pairs
      have hrm := sorted_remove_perm hsl.1 hold
      rw [← hd3] at hrm
      have hdict := perm_cons_eraseA hnd (lookupA_mem hlk)
      have hchain : ((existing, member) ::
          pairsOf (z.sl.del existing member).2).Perm
          ((existing, member) :: (eraseA z.dict member).map (fun p => (p.2, p.1))) :=
        (hrm.symm.trans hperm).trans (hdict.map (fun p => (p.2, p.1)))
      have hdel : (pairsOf (z.sl.del existing member).2).Perm
          ((eraseA z.dict member).map (fun p => (p.2, p.1))) :=
        List.Perm.cons_inv hchain
      refine (hdel.cons (score, member)).trans ?_
      exact ((setA_perm hnd).map (fun p => (p.2, p.1))).symm

/-- `zrem` preserves the collection invariant. -/
theorem zrem_ZInv (z : ZSet) (member : String) (hz : ZInv z) :
    ZInv (z.zrem member).2 := by
  obtain ⟨hnd, hsl, hperm⟩ := hz
  unfold ZSet.zrem
  cases hlk : lookupA z.dict member with
  | none => exact ⟨hnd, hsl, hperm⟩
  | some score =>
    dsimp only
    have hold : (score, member) ∈ pairsOf z.sl :=
      (ZInv.mem_iff ⟨hnd, hsl, hperm⟩ score member).mpr (lookupA_mem hlk)
    obtain ⟨hd1, hd2, hd3⟩ := del_SLInv z.sl score member hsl hold
    refine ⟨NodupK_eraseA hnd, hd2, ?_⟩
    have hrm := sorted_remove_perm hsl.1 hold
    rw [← hd3] at hrm
    have hdict := perm_cons_eraseA hnd (lookupA_mem hlk)
    exact List.Perm.cons_inv
      ((hrm.symm.trans hperm).trans (hdict.map (fun p => (p.2, p.1))))

/-- The operations reachable on one ordered collection. -/
inductive ZOp where
  | add (member : String) (score : Int) (lvl : Nat)
  | rem (member : String)

def applyZOp (z : ZSet) : ZOp → ZSet
  | ZOp.add m s l => (z.zadd m s l).2
  | ZOp.rem m => (z.zrem m).2

def applyZOps (z : ZSet) (ops : List ZOp) : ZSet := ops.foldl applyZOp z

/-- A `zadd` carries a level oracle in `[1, 32]` (`randomLevel` guarantees
this). -/
def ZOpOK : ZOp → Prop
  | ZOp.add _ _ l => 1 ≤ l ∧ l ≤ 32
  | ZOp.rem _ => True

instance ZOpOK.dec (op : ZOp) : Decidable (ZOpOK op) := by
  cases op with
  | add m s l =>
    show Decidable (1 ≤ l ∧ l ≤ 32)
    infer_instance
  | rem m =>
    show Decidable True
    infer_instance

theorem applyZOps_ZInv (ops : List ZOp) :
    ∀ z, ZInv z → (∀ op ∈ ops, ZOpOK op) → ZInv (applyZOps z ops) := by
  induction ops with
  | nil =>
    intro z hz _
    exact hz
  | cons op t ih =>
    intro z hz hops
    have hop := hops op (List.mem_cons_self op t)
    have hz2 : ZInv (applyZOp z op) := by
      cases op with
      | add m s l => exact zadd_ZInv z m s l hz hop.1 hop.2
      | rem m => exact zrem_ZInv z m hz
    exact ih (applyZOp z op) hz2 (fun op2 h2 => hops op2 (List.mem_cons_of_mem op h2))

theorem ZInv_empty : ZInv ZSet.empty := by
  refine ⟨by decide, ⟨by decide, by decide, by decide, by decide, by decide, ?_⟩,
    by decide⟩
  intro p hp i hi hil
  have hfw : ZSet.empty.sl.fwd i p = none := by
    refine fwd_eq_none ?_
    intro s hs1 hs2
    have hz : ZSet.empty.sl.nodes.length = 0 := rfl
    omega
  rw [hfw]
  exact trivial

theorem touch_store (c : Cache) (k : String) (now : Int) :
    (c.touch k now).store = c.store := by
  unfold Cache.touch
  cases c.evictionPolicy with
  | lru => rfl
  | lfu => rfl

/-- `Cache.zadd` on an absent key (away from a purge tick, within the memory
budget): creates a fresh ordered-collection entry and returns 1. -/
theorem zadd_create (c : Cache) (k : String) (score : Int) (member : String)
    (lvl : Nat) (now : Int) (hwf : CacheWF c)
    (hnt : (c.operationCount + 1) % 100 ≠ 0)
    (hnx : c.ttl.isExpired k now = false)
    (hmem : c.currentMemoryUsed ≤ c.maxmemory)
    (hst : storeLook c k = none) :
    (c.zadd k score member lvl now).1 = Except.ok 1 ∧
    storeLook (c.zadd k score member lvl now).2 k =
      some { val := EntryVal.zset (ZSet.empty.zadd member score lvl).2,
             memoryUsed := some (calculateMemoryUsed k
               (EntryVal.zset (ZSet.empty.zadd member score lvl).2)) } := by
  simp only [Cache.zadd]
  rw [checkExpired_live_bump c k now hnt hnx]
  dsimp only
  rw [evictIfNeeded_noop
    { c with
        operationCount := c.operationCount + 1
        stats := { c.stats with operations := c.stats.operations + 1 } } hmem]
  obtain ⟨hg1, hg2, hg3, hg4⟩ := dget_look (d := c.store) k hwf.1
  cases hgp : c.store.get k with
  | mk e st =>
    rw [hgp] at hg1 hg2 hg3
    dsimp only at hg1 hg2 hg3
    have he : e = none := by rw [hg1]; exact hst
    subst he
    dsimp only
    refine ⟨rfl, ?_⟩
    rw [storeLook_def, touch_store]
    have hset := (dset_look k
      { val := EntryVal.zset (ZSet.empty.zadd member score lvl).2,
        memoryUsed := some (calculateMemoryUsed k
          (EntryVal.zset (ZSet.empty.zadd member score lvl).2)) } hg2).2 k
    rw [if_pos rfl] at hset
    exact hset

/-- In a sorted list every element's below-count is its index. -/
theorem sorted_cnt_get {P : List (Int × String)} (hs : P.Pairwise pairLt)
    {j : Nat} (hj : j < P.length) : cntLt P (P.get ⟨j, hj⟩) = j := by
  have hle : cntLt P (P.get ⟨j, hj⟩) ≤ j := by
    by_contra h
    push_neg at h
    have := (sorted_prefix_iff hs (P.get ⟨j, hj⟩) hj).mpr h
    exact pairLt_irrefl _ this
  have hge : j ≤ cntLt P (P.get ⟨j, hj⟩) := by
    rcases Nat.eq_zero_or_pos j with h0 | hpos
    · omega
    · have hlt := sorted_get_lt hs hj (show j - 1 < j from by omega)
      have := (sorted_prefix_iff hs (P.get ⟨j, hj⟩)
        (show j - 1 < P.length from by omega)).mp hlt
      omega
  omega

/-- **C6.** For every ordered collection reachable by any sequence of `zadd`
and `zrem` calls (each `zadd` drawing its level from `randomLevel`, hence in
`[1, 32]`), the member→score map and the skip list hold exactly the same
multiset of (score, member) pairs, and no member appears twice in the skip
list. -/
theorem c6_map_skiplist_same_pairs (ops : List ZOp)
    (hops : ∀ op ∈ ops, ZOpOK op) :
    (pairsOf (applyZOps ZSet.empty ops).sl).Perm
      ((applyZOps ZSet.empty ops).dict.map (fun p => (p.2, p.1))) ∧
    ((applyZOps ZSet.empty ops).sl.nodes.map SLNode.member).Nodup := by
  have hz := applyZOps_ZInv ops ZSet.empty ZInv_empty hops
  refine ⟨hz.2.2, ?_⟩
  have hmm : (applyZOps ZSet.empty ops).sl.nodes.map SLNode.member =
      (pairsOf (applyZOps ZSet.empty ops).sl).map Prod.snd := by
    unfold pairsOf
    rw [List.map_map]
    rfl
  rw [hmm]
  have hp2 := hz.2.2.map Prod.snd
  rw [List.map_map] at hp2
  have hkeys : (applyZOps ZSet.empty ops).dict.map
      (Prod.snd ∘ (fun p : String × Int => (p.2, p.1))) =
      keysL (applyZOps ZSet.empty ops).dict := rfl
  rw [hkeys] at hp2
  exact hp2.nodup_iff.mpr hz.1

def c6ops : List ZOp :=
  [ZOp.add "a" 5 1, ZOp.add "b" 3 2, ZOp.rem "a", ZOp.add "c" 3 1]

theorem c6_map_skiplist_same_pairs_witness :
    (∀ op ∈ c6ops, ZOpOK op) ∧
    ((pairsOf (applyZOps ZSet.empty c6ops).sl).Perm
      ((applyZOps ZSet.empty c6ops).dict.map (fun p => (p.2, p.1))) ∧
    ((applyZOps ZSet.empty c6ops).sl.nodes.map SLNode.member).Nodup) :=
  ⟨by decide, c6_map_skiplist_same_pairs c6ops (by decide)⟩

/-- **C7.** In an ordered collection of size N satisfying the collection
invariant, the level-0 chain is sorted by (score, member); `zrank` returns
for each stored member the 0-based index of its (score, member) pair in that
order (the number of strictly smaller pairs, which indeed indexes the pair);
and the `zrank` values over all N members are a permutation of
`{0, …, N − 1}`. -/
theorem c7_zrank_is_lex_index (z : ZSet) (hz : ZInv z) :
    (pairsOf z.sl).Pairwise pairLt ∧
    (∀ member score, lookupA z.dict member = some score →
      z.zrank member =
        some ((cntLt (pairsOf z.sl) (score, member) : Nat) : Int) ∧
      ∃ h : cntLt (pairsOf z.sl) (score, member) < (pairsOf z.sl).length,
        (pairsOf z.sl).get ⟨cntLt (pairsOf z.sl) (score, member), h⟩ =
          (score, member)) ∧
    ((keysL z.dict).map z.zrank).Perm
      ((List.range z.zcard).map (fun j => some ((j : Nat) : Int))) := by
  obtain ⟨hnd, hsl, hperm⟩ := hz
  refine ⟨hsl.1, ?_, ?_⟩
  · intro member score hlk
    have hm : (score, member) ∈ pairsOf z.sl :=
      (ZInv.mem_iff ⟨hnd, hsl, hperm⟩ score member).mpr (lookupA_mem hlk)
    constructor
    · show (lookupA z.dict member).map (fun s => z.sl.getRank s member) = _
      rw [hlk]
      show some (z.sl.getRank score member) = _
      rw [getRank_eq_cnt z.sl score member hsl hm]
    · exact sorted_mem_index hsl.1 hm
  · have hkm : (keysL z.dict).map z.zrank =
        z.dict.map (fun p => z.zrank p.1) := by
      unfold keysL
      rw [List.map_map]
      rfl
    have hpw : z.dict.map (fun p => z.zrank p.1) =
        z.dict.map (fun p =>
          some ((cntLt (pairsOf z.sl) (p.2, p.1) : Nat) : Int)) := by
      refine List.map_congr_left ?_
      intro p hp
      have hlk : lookupA z.dict p.1 = some p.2 := mem_lookupA hnd hp
      have hm : (p.2, p.1) ∈ pairsOf z.sl :=
        (ZInv.mem_iff ⟨hnd, hsl, hperm⟩ p.2 p.1).mpr hp
      show (lookupA z.dict p.1).map (fun s => z.sl.getRank s p.1) = _
      rw [hlk]
      show some (z.sl.getRank p.2 p.1) = _
      rw [getRank_eq_cnt z.sl p.2 p.1 hsl hm]
    have hpp : ((pairsOf z.sl).map (fun t =>
        some ((cntLt (pairsOf z.sl) t : Nat) : Int))).Perm
        (z.dict.map (fun p =>
          some ((cntLt (pairsOf z.sl) (p.2, p.1) : Nat) : Int))) := by
      have := hperm.map (fun t => some ((cntLt (pairsOf z.sl) t : Nat) : Int))
      rw [List.map_map] at this
      exact this
    have hrange : (pairsOf z.sl).map (fun t =>
        some ((cntLt (pairsOf z.sl) t : Nat) : Int)) =
        (List.range (pairsOf z.sl).length).map (fun j => some ((j : Nat) : Int)) := by
      apply List.ext_getElem
      · simp
      · intro j h1 h2
        simp only [List.getElem_map, List.getElem_range]
        have hjj : j < (pairsOf z.sl).length := by simpa using h1
        rw [show (pairsOf z.sl)[j] = (pairsOf z.sl).get ⟨j, hjj⟩ from rfl,
          sorted_cnt_get hsl.1 hjj]
    have hlen : (pairsOf z.sl).length = z.zcard := by
      rw [hperm.length_eq, List.length_map]
      rfl
    rw [hkm, hpw, ← hlen]
    rw [← hrange]
    exact hpp.symm

def c7Z : ZSet :=
  applyZOps ZSet.empty [ZOp.add "a" 5 1, ZOp.add "b" 3 1, ZOp.add "c" 4 2]

theorem c7_zrank_is_lex_index_witness :
    ZInv c7Z ∧
    ((pairsOf c7Z.sl).Pairwise pairLt ∧
    (∀ member score, lookupA c7Z.dict member = some score →
      c7Z.zrank member =
        some ((cntLt (pairsOf c7Z.sl) (score, member) : Nat) : Int) ∧
      ∃ h : cntLt (pairsOf c7Z.sl) (score, member) < (pairsOf c7Z.sl).length,
        (pairsOf c7Z.sl).get ⟨cntLt (pairsOf c7Z.sl) (score, member), h⟩ =
          (score, member)) ∧
    ((keysL c7Z.dict).map c7Z.zrank).Perm
      ((List.range c7Z.zcard).map (fun j => some ((j : Nat) : Int)))) :=
  ⟨applyZOps_ZInv _ ZSet.empty ZInv_empty (by decide),
   c7_zrank_is_lex_index c7Z (applyZOps_ZInv _ ZSet.empty ZInv_empty (by decide))⟩

/-- **C5.** `zadd(key, score, member)`: on an absent key the cache creates a
fresh ordered collection holding exactly `member ↦ score` (map side) and
`(score, member)` (skip-list side) and returns 1; at the collection level the
call reports "added" (1) exactly when the member was absent, and afterwards
the member always maps to the given score; a fresh member's pair is inserted
into the skip list; re-adding an existing member returns 0 and keeps the
member set unchanged — a no-op for an equal score, while a different score
removes the old (score, member) pair from the skip list and inserts the new
one. -/
theorem c5_zadd_semantics (z : ZSet) (member : String) (score : Int) (lvl : Nat)
    (c : Cache) (k : String) (now : Int)
    (hz : ZInv z) (h1 : 1 ≤ lvl) (h32 : lvl ≤ 32)
    (hwf : CacheWF c) (hnt : (c.operationCount + 1) % 100 ≠ 0)
    (hnx : c.ttl.isExpired k now = false)
    (hmem : c.currentMemoryUsed ≤ c.maxmemory)
    (hst : storeLook c k = none) :
    ((z.zadd member score lvl).1 = true ↔ lookupA z.dict member = none) ∧
    lookupA (z.zadd member score lvl).2.dict member = some score ∧
    (lookupA z.dict member = none →
      (pairsOf (z.zadd member score lvl).2.sl).Perm
        ((score, member) :: pairsOf z.sl)) ∧
    (∀ ex, lookupA z.dict member = some ex →
      (z.zadd member score lvl).1 = false ∧
      keysL (z.zadd member score lvl).2.dict = keysL z.dict ∧
      (ex = score → z.zadd member score lvl = (false, z)) ∧
      (ex ≠ score →
        (ex, member) ∉ pairsOf (z.zadd member score lvl).2.sl ∧
        ((ex, member) :: pairsOf (z.zadd member score lvl).2.sl).Perm
          ((score, member) :: pairsOf z.sl))) ∧
    ((c.zadd k score member lvl now).1 = Except.ok 1 ∧
      storeLook (c.zadd k score member lvl now).2 k =
        some { val := EntryVal.zset (ZSet.empty.zadd member score lvl).2,
               memoryUsed := some (calculateMemoryUsed k
                 (EntryVal.zset (ZSet.empty.zadd member score lvl).2)) } ∧
      (ZSet.empty.zadd member score lvl).2.dict = [(member, score)] ∧
      pairsOf (ZSet.empty.zadd member score lvl).2.sl = [(score, member)]) := by
  obtain ⟨hnd, hsl, hperm⟩ := hz
  have hz2 : ZInv z := ⟨hnd, hsl, hperm⟩
  refine ⟨?_, ?_, ?_, ?_, ?_⟩
  · unfold ZSet.zadd
    cases hlk : lookupA z.dict member with
    | none => simp
    | some ex =>
      dsimp only
      by_cases hEq : ex = score
      · rw [if_pos hEq]
        simp
      · rw [if_neg hEq]
        simp
  · unfold ZSet.zadd
    cases hlk : lookupA z.dict member with
    | none =>
      dsimp only
      exact lookupA_setA_self hnd
    | some ex =>
      dsimp only
      by_cases hEq : ex = score
      · rw [if_pos hEq]
        dsimp only
        rw [hlk, hEq]
      · rw [if_neg hEq]
        dsimp only
        exact lookupA_setA_self hnd
  · intro hlk
    have hfresh : (score, member) ∉ pairsOf z.sl := by
      intro hmem2
      have hm2 := (ZInv.mem_iff hz2 score member).mp hmem2
      have hl2 := mem_lookupA hnd hm2
      rw [hlk] at hl2
      cases hl2
    obtain ⟨hins1, hins2⟩ := insert_SLInv z.sl score member lvl hsl h1 h32 hfresh
    unfold ZSet.zadd
    rw [hlk]
    dsimp only
    rw [hins2]
    exact insert_at_perm _ _ _
  · intro ex hlk
    refine ⟨?_, ?_, ?_, ?_⟩
    · unfold ZSet.zadd
      rw [hlk]
      dsimp only
      by_cases hEq : ex = score
      · rw [if_pos hEq]
      · rw [if_neg hEq]
    · unfold ZSet.zadd
      rw [hlk]
      dsimp only
      by_cases hEq : ex = score
      · rw [if_pos hEq]
      · rw [if_neg hEq]
        dsimp only
        rw [keysL_setA, if_pos (show (lookupA z.dict member).isSome = true from
          by rw [hlk]; rfl)]
    · intro hEq
      unfold ZSet.zadd
      rw [hlk]
      dsimp only
      rw [if_pos hEq]
    · intro hne
      unfold ZSet.zadd
      rw [hlk]
      dsimp only
      rw [if_neg hne]
      dsimp only
      have hold : (ex, member) ∈ pairsOf z.sl :=
        (ZInv.mem_iff hz2 ex member).mpr (lookupA_mem hlk)
      obtain ⟨hd1, hd2, hd3⟩ := del_SLInv z.sl ex member hsl hold
      have hfresh : (score, member) ∉ pairsOf (z.sl.del ex member).2 := by
        intro hmem2
        have hsub : (score, member) ∈ pairsOf z.sl := by
          rw [hd3] at hmem2
          rcases List.mem_append.mp hmem2 with h | h
          · exact List.mem_of_mem_take h
          · exact List.mem_of_mem_drop h
        have hm2 := (ZInv.mem_iff hz2 score member).mp hsub
        have hl2 := mem_lookupA hnd hm2
        rw [hlk] at hl2
        cases hl2
        exact hne rfl
      obtain ⟨hins1, hins2⟩ := insert_SLInv (z.sl.del ex member).2 score member
        lvl hd2 h1 h32 hfresh
      have hrm := sorted_remove_perm hsl.1 hold
      rw [← hd3] at hrm
      have hnodupP : (pairsOf z.sl).Nodup :=
        hsl.1.imp (fun hab hEq => absurd (hEq ▸ hab) (pairLt_irrefl _))
      have hx_nin : (ex, member) ∉ pairsOf (z.sl.del ex member).2 :=
        (List.nodup_cons.mp (hrm.nodup_iff.mp hnodupP)).1
      constructor
      · intro hmem2
        rw [hins2] at hmem2
        rcases List.mem_append.mp hmem2 with h | h
        · exact hx_nin (List.mem_of_mem_take h)
        · rcases List.mem_cons.mp h with h2 | h2
          · exact hne (congrArg Prod.fst h2)
          · exact hx_nin (List.mem_of_mem_drop h2)
      · rw [hins2]
        refine (List.Perm.cons _ (insert_at_perm _ _ _)).trans ?_
        refine (List.Perm.swap _ _ _).trans ?_
        exact List.Perm.cons _ hrm.symm
  · have hcr := zadd_create c k score member lvl now hwf hnt hnx hmem hst
    refine ⟨hcr.1, hcr.2, rfl, ?_⟩
    have hfresh : (score, member) ∉ pairsOf SkipList.empty := by
      intro h
      exact (List.not_mem_nil _) h
    obtain ⟨hins1, hins2⟩ := insert_SLInv SkipList.empty score member lvl
      ZInv_empty.2.1 h1 h32 hfresh
    show pairsOf (SkipList.empty.insert score member lvl) = _
    rw [hins2]
    rfl

/-- A collection holding `"m" ↦ 5`, and a fresh cache. -/
def c5Z : ZSet := (ZSet.empty.zadd "m" 5 1).2

def c5C : Cache := Cache.init ⟨none, none, none⟩ []

theorem c5_zadd_semantics_witness :
    ZInv c5Z ∧ CacheWF c5C ∧ (c5C.operationCount + 1) % 100 ≠ 0 ∧
    c5C.ttl.isExpired "k" 0 = false ∧
    c5C.currentMemoryUsed ≤ c5C.maxmemory ∧ storeLook c5C "k" = none ∧
    (((c5Z.zadd "m" 7 1).1 = true ↔ lookupA c5Z.dict "m" = none) ∧
    lookupA (c5Z.zadd "m" 7 1).2.dict "m" = some 7 ∧
    (lookupA c5Z.dict "m" = none →
      (pairsOf (c5Z.zadd "m" 7 1).2.sl).Perm ((7, "m") :: pairsOf c5Z.sl)) ∧
    (∀ ex, lookupA c5Z.dict "m" = some ex →
      (c5Z.zadd "m" 7 1).1 = false ∧
      keysL (c5Z.zadd "m" 7 1).2.dict = keysL c5Z.dict ∧
      (ex = 7 → c5Z.zadd "m" 7 1 = (false, c5Z)) ∧
      (ex ≠ 7 →
        (ex, "m") ∉ pairsOf (c5Z.zadd "m" 7 1).2.sl ∧
        ((ex, "m") :: pairsOf (c5Z.zadd "m" 7 1).2.sl).Perm
          ((7, "m") :: pairsOf c5Z.sl))) ∧
    ((c5C.zadd "k" 7 "m" 1 0).1 = Except.ok 1 ∧
      storeLook (c5C.zadd "k" 7 "m" 1 0).2 "k" =
        some { val := EntryVal.zset (ZSet.empty.zadd "m" 7 1).2,
               memoryUsed := some (calculateMemoryUsed "k"
                 (EntryVal.zset (ZSet.empty.zadd "m" 7 1).2)) } ∧
      (ZSet.empty.zadd "m" 7 1).2.dict = [("m", 7)] ∧
      pairsOf (ZSet.empty.zadd "m" 7 1).2.sl = [(7, "m")])) :=
  ⟨zadd_ZInv ZSet.empty "m" 5 1 ZInv_empty (by decide) (by decide), by decide,
   by decide, by decide, by decide, by decide,
   c5_zadd_semantics c5Z "m" 7 1 c5C "k" 0
     (zadd_ZInv ZSet.empty "m" 5 1 ZInv_empty (by decide) (by decide))
     (by decide) (by decide) (by decide) (by decide) (by decide) (by decide)
     (by decide)⟩
